import Mathlib

/-!
# A verification development for the `mnm` IR passes and operator dispatch

Shallow embedding of

* `src/pass/rename_vars.cc`     (`RenameVarsMutator`, `RenameVars`),
* `src/pass/inplace_update.cc`  (`InplaceVisitor`, `InplaceRewriter`, `InplaceUpdate`),
* `src/op/dispatch/tvmjit/transform.cc` (the normalizers and typers of the twenty registered
  operators, the hashers of `Repeat`, `Take`, `ReverseSequence` and `Split`),
* `src/op/grad/reduce.cc` (`MeanGrad`),
* `include/mnm/enum_base.h` (`collect`, `EnumBase`),

together with the part of the IR data model these functions traverse.

Conventions of the embedding.

* A C++ exception (`CHECK`, `LOG(FATAL)`, a failing `Downcast`, `Map::at` on a
  missing key) is the `Except.error` branch of the result, and so is a member
  access through a null pointer.
* Expressions are trees: every compound node occurs once.  Variable nodes are
  shared, as in the source, and a variable is identified by its node.
* `tvm::Map<K, V>` is a finite partial function `K → Option V`.
* Where the source leaves the order of two evaluations to the compiler (the two
  `Mutate` arguments of `LetNode::make` in `rename_vars.cc`), the order is a
  parameter of the embedding, and the theorems hold for every value of it.
* A conversion of an `int64_t` to `int` reduces the value modulo `2^32` into the
  range of a 32-bit signed integer.
-/

namespace mnm

/-! ## Data model -/

/-- A variable node.  Two occurrences denote the same variable exactly when they
are the same node; `vid` stands for the address of the node and `name_hint` for
the name stored in it. -/
structure Var where
  vid : Nat
  name_hint : String
deriving DecidableEq, Repr

/-- Types of the IR, as far as the operators of `transform.cc` need them. -/
inductive Ty where
  | TensorType (shape : List Int) (dtype : String)
  | TupleType (fields : List Ty)
  | Undefined
deriving Repr

/-- Attribute record attached to a call or a function (`none` is `Attrs()`). -/
abbrev Attrs := Option Nat

/-- The expression variants of the IR (`mnm/ir.h`). -/
inductive Expr where
  | Var (v : Var)
  | Constant (data : Int)
  | GlobalVar (name : String)
  | Op (name : String)
  | Tuple (fields : List Expr)
  | Call (op : Expr) (args : List Expr) (attrs : Attrs)
  | Let (var : Var) (value : Expr) (body : Expr)
  | If (cond : Expr) (true_branch : Expr) (false_branch : Expr)
  | TupleGetItem (tuple : Expr) (index : Nat)
  | Function (params : List Var) (body : Expr) (ret_type : Ty) (type_params : List Ty)
      (attrs : Attrs)
  | RefCreate (value : Expr)
  | RefRead (ref : Expr)
  | RefWrite (ref : Expr) (value : Expr)
deriving Repr

/-- The ways in which a pass or a dispatch function can throw. -/
inductive Err where
  /-- Thrown by `CHECK_EQ(var_map.count(var), 0) << "IR is malformed: cannot bind var twice"`. -/
  | bindTwice
  /-- Thrown by `Map::at` and `Map::operator[]` on a key that is not in the map. -/
  | keyNotFound
  /-- Thrown by `LOG(FATAL) << "variable ... represents alloc_storage, ..."`. -/
  | allocStorageUse
  /-- Any other failing `CHECK`, among them a failing `Downcast`. -/
  | checkFailed
  /-- An index past the end of an `Array`. -/
  | outOfRange
  /-- The let-list extractor met a variable that is bound twice. -/
  | malformedLetList
  /-- A member access through the null pointer that a failed `as<T>()` returns. -/
  | nullDereference
deriving DecidableEq, Repr

/-- A `tvm::Map<Var, V>`. -/
abbrev VarMap (α : Type) := Var → Option α

/-- The empty map. -/
def VarMap.empty {α : Type} : VarMap α := fun _ => none

/-- The method `Map::Set`. -/
def VarMap.Set {α : Type} (m : VarMap α) (k : Var) (x : α) : VarMap α :=
  fun k' => if k' = k then some x else m k'

/-- The method `Map::count`. -/
def VarMap.count {α : Type} (m : VarMap α) (k : Var) : Nat :=
  if (m k).isSome then 1 else 0

/-- The methods `Map::at` and `Map::operator[]`: throws when the key is missing. -/
def VarMap.at {α : Type} (m : VarMap α) (k : Var) : Except Err α :=
  match m k with
  | some x => .ok x
  | none => .error .keyNotFound

/-! ## `rename_vars.cc` -/

/-- The state of a `RenameVarsMutator`: its two fields, and `heap`, the address
that the next `VarNode::make` returns (node addresses are handed out in
increasing order, so every made node is a new variable).  `var_map` is declared
`Map<Var, Expr>` in the source; only variable nodes are ever stored in it, and
the model keeps them as `Var`.  `num_bound_var` is an `int` in the source and a
`Nat` here: the expressions considered have fewer than `2^31` `Let` nodes. -/
structure RenameVarsMutator where
  num_bound_var : Nat
  var_map : VarMap Var
  heap : Nat

namespace RenameVarsMutator

/-- The constructor: one `var_map.Set(iter.second, VarNode::make(iter.first, {}))`
per table entry.  The table `Map<std::string, Var>` is given as the list of its
entries in iteration order. -/
def new (named_vars : List (String × Var)) (heap : Nat) : RenameVarsMutator :=
  named_vars.foldl
    (fun st iter =>
      { st with var_map := st.var_map.Set iter.2 ⟨st.heap, iter.1⟩, heap := st.heap + 1 })
    { num_bound_var := 0, var_map := VarMap.empty, heap := heap }

/-- The rule `VisitExpr_(const VarNode*)`: `return var_map.at(GetRef<Var>(node))`. -/
def VisitVar (st : RenameVarsMutator) (v : Var) : Except Err Var :=
  st.var_map.at v

/-- The parameters of a `Function` node: the default `ExprMutator` rule mutates
each parameter as a variable, in order. -/
def MutateParams (st : RenameVarsMutator) : List Var → Except Err (List Var)
  | [] => .ok []
  | p :: ps => do
      let p' ← st.VisitVar p
      let ps' ← MutateParams st ps
      pure (p' :: ps')

mutual
/-- The method `Mutate`: the two overridden rules (`VarNode`, `LetNode`) and, for every
other variant, the default `ExprMutator` rule, which mutates the children from
left to right, in statements of their own, and rebuilds the node.  In the rule
for `Let` the two calls `Mutate(node->value)` and `Mutate(node->body)` are
arguments of one call of `LetNode::make`, and C++ leaves the order in which the
arguments of a call are evaluated to the compiler: `body_first` is that order,
`false` for the value before the body (the order in which they are written),
`true` for the body before the value (the order of g++). -/
def Mutate (body_first : Bool) : Expr → RenameVarsMutator → Except Err (Expr × RenameVarsMutator)
  | .Var v, st => do
      let w ← st.VisitVar v
      pure (.Var w, st)
  | .Let var value body, st =>
      if st.var_map.count var ≠ 0 then .error .bindTwice
      else do
        let new_var : mnm.Var := ⟨st.heap, "a" ++ toString (st.num_bound_var + 1)⟩
        let st1 : RenameVarsMutator :=
          { num_bound_var := st.num_bound_var + 1
            var_map := st.var_map.Set var new_var
            heap := st.heap + 1 }
        if body_first then do
          let (body', st2) ← Mutate body_first body st1
          let (value', st3) ← Mutate body_first value st2
          pure (.Let new_var value' body', st3)
        else do
          let (value', st2) ← Mutate body_first value st1
          let (body', st3) ← Mutate body_first body st2
          pure (.Let new_var value' body', st3)
  | .Constant c, st => pure (.Constant c, st)
  | .GlobalVar g, st => pure (.GlobalVar g, st)
  | .Op o, st => pure (.Op o, st)
  | .Tuple fields, st => do
      let (fields', st1) ← MutateList body_first fields st
      pure (.Tuple fields', st1)
  | .Call op args attrs, st => do
      let (op', st1) ← Mutate body_first op st
      let (args', st2) ← MutateList body_first args st1
      pure (.Call op' args' attrs, st2)
  | .If c t f, st => do
      let (c', st1) ← Mutate body_first c st
      let (t', st2) ← Mutate body_first t st1
      let (f', st3) ← Mutate body_first f st2
      pure (.If c' t' f', st3)
  | .TupleGetItem t i, st => do
      let (t', st1) ← Mutate body_first t st
      pure (.TupleGetItem t' i, st1)
  | .Function params body ret_type type_params attrs, st => do
      let params' ← st.MutateParams params
      let (body', st1) ← Mutate body_first body st
      pure (.Function params' body' ret_type type_params attrs, st1)
  | .RefCreate v, st => do
      let (v', st1) ← Mutate body_first v st
      pure (.RefCreate v', st1)
  | .RefRead r, st => do
      let (r', st1) ← Mutate body_first r st
      pure (.RefRead r', st1)
  | .RefWrite r v, st => do
      let (r', st1) ← Mutate body_first r st
      let (v', st2) ← Mutate body_first v st1
      pure (.RefWrite r' v', st2)
/-- The method `Mutate` over the elements of an `Array<Expr>`, first to last. -/
def MutateList (body_first : Bool) :
    List Expr → RenameVarsMutator → Except Err (List Expr × RenameVarsMutator)
  | [], st => pure ([], st)
  | e :: es, st => do
      let (e', st1) ← Mutate body_first e st
      let (es', st2) ← MutateList body_first es st1
      pure (e' :: es', st2)
end

end RenameVarsMutator

/-- The pass `RenameVars(expr, named_vars)`: `RenameVarsMutator(named_vars).Mutate(expr)`.
`heap` is the address of the first node that the call allocates, and
`body_first` the order in which the compiled code evaluates the two `Mutate`
arguments of `LetNode::make`. -/
def RenameVars (body_first : Bool) (expr : Expr) (named_vars : List (String × Var)) (heap : Nat) :
    Except Err Expr :=
  (RenameVarsMutator.Mutate body_first expr (RenameVarsMutator.new named_vars heap)).map Prod.fst

/-! ## `inplace_update.cc` -/

/-- A function: the fields of a `FunctionNode`. -/
structure Function where
  params : List Var
  body : Expr
  ret_type : Ty
  type_params : List Ty
  attrs : Attrs

/-- A module: the global functions, each under its name, in the order of the
iteration over `mod->functions`. -/
abbrev Module := List (String × Function)

/-- Modelled from the spec: the let-list of `let_list.h`, which is not among the
sources.  It is the ordered sequence of the `(Var, Expr)` pairs of a chain of
nested `Let`s (`vars` and `exprs`, position by position) and the tail. -/
structure ExplicitLetList where
  vars : List Var
  exprs : List Expr
  ret : Expr

/-- Modelled from the spec: `ExplicitLetList::make` of `let_list.h`, which is not
among the sources.  The extraction walks the chain of nested `Let`s; the first
expression that is not a `Let` is the tail; an input that binds the same
variable twice in the chain is malformed and the extraction fails. -/
def ExplicitLetList.make : Expr → Except Err ExplicitLetList
  | .Let var value body => do
      let ell ← ExplicitLetList.make body
      if var ∈ ell.vars then .error .malformedLetList
      else pure { vars := var :: ell.vars, exprs := value :: ell.exprs, ret := ell.ret }
  | .Var v => pure { vars := [], exprs := [], ret := .Var v }
  | .Constant c => pure { vars := [], exprs := [], ret := .Constant c }
  | .GlobalVar g => pure { vars := [], exprs := [], ret := .GlobalVar g }
  | .Op o => pure { vars := [], exprs := [], ret := .Op o }
  | .Tuple fields => pure { vars := [], exprs := [], ret := .Tuple fields }
  | .Call op args attrs => pure { vars := [], exprs := [], ret := .Call op args attrs }
  | .If c t f => pure { vars := [], exprs := [], ret := .If c t f }
  | .TupleGetItem t i => pure { vars := [], exprs := [], ret := .TupleGetItem t i }
  | .Function params body ret_type type_params attrs =>
      pure { vars := [], exprs := [], ret := .Function params body ret_type type_params attrs }
  | .RefCreate v => pure { vars := [], exprs := [], ret := .RefCreate v }
  | .RefRead r => pure { vars := [], exprs := [], ret := .RefRead r }
  | .RefWrite r v => pure { vars := [], exprs := [], ret := .RefWrite r v }

/-- The cast `Downcast<Var>`: a failing `CHECK` on anything but a variable. -/
def DowncastVar : Expr → Except Err Var
  | .Var v => .ok v
  | _ => .error .checkFailed

/-- The name of the allocation operator, `Op::Get("mnm.op.vm.alloc_storage")`. -/
def alloc_storage_op : Expr := .Op "mnm.op.vm.alloc_storage"

/-- The test of `CHECK_EQ(alloc_storage->op, op)`: the callee is the registered
operator of that name. -/
def isAllocStorageOp : Expr → Bool
  | .Op name => name == "mnm.op.vm.alloc_storage"
  | _ => false

/-- The state of an `InplaceVisitor`: `vmap` (the variables to be replaced; the
undefined `Var()` is `none`), `binding_` and `simplify_`.  The field `let_var_`
is written by the first loop right before each `VisitExpr` and read only by
that call, so it is an argument of `VisitExpr`. -/
structure InplaceVisitor where
  vmap : VarMap (Option Var)
  binding_ : VarMap Expr
  simplify_ : VarMap Var

namespace InplaceVisitor

/-- The constructor `InplaceVisitor()`: three empty maps. -/
def init : InplaceVisitor :=
  { vmap := VarMap.empty, binding_ := VarMap.empty, simplify_ := VarMap.empty }

/-- The method `VisitExpr`: the rules for `TupleGetItemNode` and `VarNode`; every other
variant goes to `VisitExprDefault_`, which does nothing.  There is no recursion
into children.  `tn->fields[node->index]` past the end of the fields is an
error. -/
def VisitExpr (st : InplaceVisitor) (let_var_ : Var) : Expr → Except Err InplaceVisitor
  | .TupleGetItem tuple index => do
      let t ← DowncastVar tuple
      let s ← st.simplify_.at t
      let e ← st.binding_.at s
      match e with
      | .Tuple fields =>
          match fields.get? index with
          | none => .error .outOfRange
          | some field => do
              let fv ← DowncastVar field
              pure { st with simplify_ := st.simplify_.Set let_var_ fv }
      | _ => pure st
  | .Var v => pure { st with simplify_ := st.simplify_.Set let_var_ v }
  | _ => pure st

/-- The first loop of `operator()`, over the pairs `(vars[i], exprs[i])`. -/
def loop1 : List (Var × Expr) → InplaceVisitor → Except Err InplaceVisitor
  | [], st => pure st
  | (var, expr) :: rest, st => do
      let st1 : InplaceVisitor :=
        { st with simplify_ := st.simplify_.Set var var, binding_ := st.binding_.Set var expr }
      let st2 ← st1.VisitExpr var expr
      loop1 rest st2

/-- The body of the second loop of `operator()` for `vars[i]`.  `may_share` reads
the field of that name of an `ExtendedVarNode` (declared in `ir_ext.h`, which is
not among the sources); `none` is an undefined `may_share`.  `cn->args[0]` of a
call without arguments is an error. -/
def share (may_share : Var → Option Var) (st : InplaceVisitor) (var : Var) :
    Except Err InplaceVisitor :=
  match may_share var with
  | none => pure st
  | some target => do
      let s ← st.simplify_.at var
      let e ← st.binding_.at s
      match e with
      | .Call _ args _ => do
          let st1 : InplaceVisitor := { st with vmap := st.vmap.Set s (some target) }
          let arg0 ← match args.get? 0 with
            | some a => pure a
            | none => .error .outOfRange
          let arg ← DowncastVar arg0
          let sa ← st1.simplify_.at arg
          let b ← st1.binding_.at sa
          match b with
          | .Call op _ _ =>
              if isAllocStorageOp op then pure { st1 with vmap := st1.vmap.Set arg none }
              else .error .checkFailed
          | _ => .error .checkFailed
      | _ => pure st

/-- The second loop of `operator()`, over `vars`. -/
def loop2 (may_share : Var → Option Var) : List Var → InplaceVisitor → Except Err InplaceVisitor
  | [], st => pure st
  | var :: rest, st => do
      let st1 ← share may_share st var
      loop2 may_share rest st1

/-- The call `operator()(func)`: extraction of the let-list, `CHECK_EQ` of the two sizes,
and the two loops. -/
def call (may_share : Var → Option Var) (st : InplaceVisitor) (func : Function) :
    Except Err InplaceVisitor := do
  let ell ← ExplicitLetList.make func.body
  if ell.vars.length ≠ ell.exprs.length then .error .checkFailed
  else do
    let st1 ← loop1 (ell.vars.zip ell.exprs) st
    loop2 may_share ell.vars st1

end InplaceVisitor

namespace InplaceRewriter

/-- The rule `VisitExpr_(const VarNode*)`: a key of `vmap` is replaced by its target, and
a key with an undefined target is fatal. -/
def VisitVar (vmap : VarMap (Option Var)) (k : Var) : Except Err Var :=
  if vmap.count k > 0 then do
    let v ← vmap.at k
    match v with
    | some v => pure v
    | none => .error .allocStorageUse
  else pure k

/-- The parameters of a `Function` node: the default `ExprMutator` rule mutates
each parameter as a variable, in order. -/
def VisitParams (vmap : VarMap (Option Var)) : List Var → Except Err (List Var)
  | [] => pure []
  | p :: ps => do
      let p' ← VisitVar vmap p
      let ps' ← VisitParams vmap ps
      pure (p' :: ps')

mutual
/-- The method `VisitExpr`: the two overridden rules (`LetNode`, `VarNode`) and, for every
other variant, the default `ExprMutator` rule, which mutates the children from
left to right and rebuilds the node.  The default rule for a `Let` mutates the
bound variable, the value and the body. -/
def VisitExpr (vmap : VarMap (Option Var)) : Expr → Except Err Expr
  | .Let var value body =>
      if vmap.count var > 0 then VisitExpr vmap body
      else do
        let var' ← VisitVar vmap var
        let value' ← VisitExpr vmap value
        let body' ← VisitExpr vmap body
        pure (.Let var' value' body')
  | .Var k => do
      let v ← VisitVar vmap k
      pure (.Var v)
  | .Constant c => pure (.Constant c)
  | .GlobalVar g => pure (.GlobalVar g)
  | .Op o => pure (.Op o)
  | .Tuple fields => do
      let fields' ← VisitList vmap fields
      pure (.Tuple fields')
  | .Call op args attrs => do
      let op' ← VisitExpr vmap op
      let args' ← VisitList vmap args
      pure (.Call op' args' attrs)
  | .If c t f => do
      let c' ← VisitExpr vmap c
      let t' ← VisitExpr vmap t
      let f' ← VisitExpr vmap f
      pure (.If c' t' f')
  | .TupleGetItem t i => do
      let t' ← VisitExpr vmap t
      pure (.TupleGetItem t' i)
  | .Function params body ret_type type_params attrs => do
      let params' ← VisitParams vmap params
      let body' ← VisitExpr vmap body
      pure (.Function params' body' ret_type type_params attrs)
  | .RefCreate v => do
      let v' ← VisitExpr vmap v
      pure (.RefCreate v')
  | .RefRead r => do
      let r' ← VisitExpr vmap r
      pure (.RefRead r')
  | .RefWrite r v => do
      let r' ← VisitExpr vmap r
      let v' ← VisitExpr vmap v
      pure (.RefWrite r' v')
/-- The method `VisitExpr` over the elements of an `Array<Expr>`, first to last. -/
def VisitList (vmap : VarMap (Option Var)) : List Expr → Except Err (List Expr)
  | [] => pure []
  | e :: es => do
      let e' ← VisitExpr vmap e
      let es' ← VisitList vmap es
      pure (e' :: es')
end

/-- The call `operator()(func)`: the analysis, the rewrite of the body, and the function
rebuilt around the new body. -/
def call (may_share : Var → Option Var) (func : Function) : Except Err Function := do
  let visitor_ ← InplaceVisitor.call may_share InplaceVisitor.init func
  let body ← VisitExpr visitor_.vmap func.body
  pure { params := func.params, body := body, ret_type := func.ret_type,
         type_params := func.type_params, attrs := func.attrs }

end InplaceRewriter

/-- The pass `InplaceUpdate(mod)`: every function of the module goes through a new
`InplaceRewriter`, in the order of the iteration. -/
def InplaceUpdate (may_share : Var → Option Var) : Module → Except Err Module
  | [] => pure []
  | kv :: rest => do
      let f ← InplaceRewriter.call may_share kv.2
      let rest' ← InplaceUpdate may_share rest
      pure ((kv.1, f) :: rest')

/-! ## `transform.cc`: hashers -/

/-- Modelled from the spec: the values of `mnm/value.h`, which is not among the
sources, as far as the argument records of `transform.cc` need them.  The
`data` of an `IntValueObj` is an `int64_t`; the model keeps the integer it
denotes. -/
inductive Value where
  | IntValue (data : Int)
  | BoolValue (data : Bool)
  | StringValue (data : String)
  | TensorValue (handle : Nat)
  | TupleValue (fields : List Value)

/-- Modelled from the spec: the `HashKey` of `tvmjit_utils.h`, which is not among
the sources.  It is an accumulator: the sequence of what was folded into it,
compared as a whole. -/
structure HashKey where
  items : List Int
deriving DecidableEq, Repr

/-- Modelled from the spec: `key << v` for an integer literal `v` folds the
literal into the accumulator, after what is already there. -/
def HashKey.lshift (key : HashKey) (v : Int) : HashKey :=
  { items := key.items ++ [v] }

/-- The argument record of `mnm.op.take` (`schema/transform.h`, not among the
sources): the two tensors and the optional `axis` (`none` is an undefined
value). -/
structure TakeArgs where
  x : Value
  indices : Value
  axis : Option Value

/-- The argument record of `mnm.op.split` (`schema/transform.h`, not among the
sources). -/
structure SplitArgs where
  x : Value
  indices_or_sections : Value
  axis : Int

/-- The hasher of `mnm.op.take`.  `GenericHasher` (`tvmjit_utils.h`, not among the
sources) folds the parameter types and the output type; it is a parameter.
The hasher appends the axis when it is defined, after the `CHECK` that it is an
integer value. -/
def TakeHasher (GenericHasher : List Ty → Ty → HashKey) (param_types : List Ty) (y_type : Ty)
    (args : TakeArgs) : Except Err HashKey :=
  let key := GenericHasher param_types y_type
  match args.axis with
  | some (.IntValue data) => pure (key.lshift data)
  | some _ => .error .checkFailed
  | none => pure key

/-- The hasher of `mnm.op.split`: the types and `args->axis`, nothing else. -/
def SplitHasher (GenericHasher : List Ty → Ty → HashKey) (param_types : List Ty) (y_type : Ty)
    (args : SplitArgs) : HashKey :=
  (GenericHasher param_types y_type).lshift args.axis

/-- The argument record of `mnm.op.repeat` (`schema/transform.h`, not among the
sources): the tensor, `repeats` and the optional `axis`. -/
structure RepeatArgs where
  x : Value
  repeats : Int
  axis : Option Value

/-- The argument record of `mnm.op.reverse_sequence` (`schema/transform.h`, not
among the sources). -/
structure ReverseSequenceArgs where
  x : Value
  sequence_length : Value
  seq_axis : Int
  batch_axis : Int

/-- The hasher of `mnm.op.repeat`: the types, `args->repeats`, and the axis when
it is defined, after the `CHECK` that it is an integer value. -/
def RepeatHasher (GenericHasher : List Ty → Ty → HashKey) (param_types : List Ty) (y_type : Ty)
    (args : RepeatArgs) : Except Err HashKey :=
  let key := (GenericHasher param_types y_type).lshift args.repeats
  match args.axis with
  | some (.IntValue data) => pure (key.lshift data)
  | some _ => .error .checkFailed
  | none => pure key

/-- The hasher of `mnm.op.reverse_sequence`: the types, `args->seq_axis`, then
`args->batch_axis`. -/
def ReverseSequenceHasher (GenericHasher : List Ty → Ty → HashKey) (param_types : List Ty)
    (y_type : Ty) (args : ReverseSequenceArgs) : HashKey :=
  ((GenericHasher param_types y_type).lshift args.seq_axis).lshift args.batch_axis

/-! ## `transform.cc`: normalizers -/

/-- A tensor handed to the backend: what the typers read of a `DLTensor`. -/
structure DLTensor where
  shape : List Int
  dtype : String
deriving DecidableEq, Repr

/-- The fields of a `TVMOpEnv` (`tvmjit_utils.h`, not among the sources) that the
normalizers read and write. -/
structure TVMOpEnv where
  inputs : List DLTensor
  outputs : List DLTensor
deriving DecidableEq, Repr

/-- The constructor `Integer(int)` of TVM on an `int64_t`, as in the assignment
`attrs->axis = v->data`: the argument is converted to `int` first, that is,
reduced modulo `2^32` into the range of a 32-bit signed integer. -/
def Integer (value : Int) : Int :=
  (value + 2147483648) % 4294967296 - 2147483648

/-- The attribute record `TakeAttrs`; `axis := none` is `NullValue<Integer>()`. -/
structure TakeAttrs where
  axis : Option Int
  mode : String
deriving DecidableEq, Repr

/-- What `SplitAttrs::indices_or_sections` holds once it is set: the `IntImm` of
a section count or the array of the indices. -/
inductive IndicesOrSections where
  | sections (n : Int)
  | indices (l : List Int)
deriving DecidableEq, Repr

/-- The attribute record `SplitAttrs`; `indices_or_sections := none` is the
field left as `make_object` made it, unset. -/
structure SplitAttrs where
  indices_or_sections : Option IndicesOrSections
  axis : Int
deriving DecidableEq, Repr

/-- The normalizer of `mnm.op.take`.  `GetDLTensor` (not among the sources) turns
a tensor value into the tensor handed to the backend; it is a parameter.
`env->inputs.resize(2)` and the two assignments leave exactly two inputs.  The
assignment `attrs->axis = v->data` goes through `Integer(int)`. -/
def TakeNormalizer (GetDLTensor : Value → DLTensor) (env : TVMOpEnv) (args : TakeArgs) :
    Except Err (TVMOpEnv × TakeAttrs) :=
  if env.outputs.length ≠ 1 then .error .checkFailed
  else
    let env1 : TVMOpEnv := { env with inputs := [GetDLTensor args.x, GetDLTensor args.indices] }
    match args.axis with
    | some (.IntValue data) => pure (env1, { axis := some (Integer data), mode := "clip" })
    | some _ => .error .checkFailed
    | none => pure (env1, { axis := none, mode := "clip" })

/-- The loop of `SplitNormalizer` over `tup->fields`: `field.as<IntValueObj>()`
is not checked, so `int_value->data` on a field that is not an integer goes
through a null pointer. -/
def SplitIndices : List Value → Except Err (List Int)
  | [] => pure []
  | .IntValue data :: fields => do
      let indices ← SplitIndices fields
      pure (data :: indices)
  | _ :: _ => .error .nullDereference

/-- The normalizer of `mnm.op.split`: a scalar is a section count, a tuple is
the indices, after the `CHECK_EQ` on the number of outputs; a value of any
other kind takes neither branch and leaves `indices_or_sections` unset. -/
def SplitNormalizer (GetDLTensor : Value → DLTensor) (env : TVMOpEnv) (args : SplitArgs) :
    Except Err (TVMOpEnv × SplitAttrs) :=
  let env1 : TVMOpEnv := { env with inputs := [GetDLTensor args.x] }
  match args.indices_or_sections with
  | .IntValue sections =>
      if (env1.outputs.length : Int) ≠ sections then .error .checkFailed
      else pure (env1, { indices_or_sections := some (.sections sections), axis := args.axis })
  | .TupleValue fields => do
      let indices ← SplitIndices fields
      if env1.outputs.length ≠ indices.length + 1 then .error .checkFailed
      else pure (env1, { indices_or_sections := some (.indices indices), axis := args.axis })
  | _ => pure (env1, { indices_or_sections := none, axis := args.axis })

/-! ## `transform.cc`: the other normalizers -/

/-- The argument record of `mnm.op.take_dx` (`schema/transform.h`, not among the
sources): the four tensors and the optional `axis`. -/
structure TakeDxArgs where
  x : Value
  y : Value
  dy : Value
  indices : Value
  axis : Option Value

/-- The argument record of `mnm.op.sequence_mask` (`schema/transform.h`, not
among the sources); `mask_value` is a `double`. -/
structure SequenceMaskArgs where
  x : Value
  sequence_length : Value
  mask_value : Float
  axis : Int

/-- The argument record of `mnm.op.reverse` (`schema/transform.h`, not among the
sources). -/
structure ReverseArgs where
  x : Value
  axis : Int

/-- The argument record of `mnm.op.broadcast_to` (`schema/transform.h`, not among
the sources). -/
structure BroadcastToArgs where
  x : Value
  shape : List Int

/-- The argument record of `mnm.op.transpose` (`schema/transform.h`, not among
the sources). -/
structure TransposeArgs where
  x : Value
  axes : List Int

/-- The argument record of `mnm.op.transpose_dx` (`schema/transform.h`, not among
the sources). -/
structure TransposeDxArgs where
  x : Value
  y : Value
  dy : Value
  axes : List Int

/-- The argument record of `mnm.op.broadcast_to_like` (`schema/transform.h`, not
among the sources). -/
structure BroadcastToLikeArgs where
  x : Value
  broadcast_type : Value

/-- The argument record of `mnm.op.concatenate` (`schema/transform.h`, not among
the sources): the list of tensors `x` and the axis. -/
structure ConcatenateArgs where
  x : List Value
  axis : Int

/-- The argument record of `mnm.op.stack` (`schema/transform.h`, not among the
sources): the list of tensors `x` and the axis. -/
structure StackArgs where
  x : List Value
  axis : Int

/-- The argument record of `mnm.op.clip` (`schema/transform.h`, not among the
sources); the two bounds are `double`s. -/
structure ClipArgs where
  x : Value
  a_min : Float
  a_max : Float

/-- The argument record of `mnm.op.clip_dx` (`schema/transform.h`, not among the
sources). -/
structure ClipDxArgs where
  x : Value
  dy : Value
  a_min : Float
  a_max : Float

/-- The argument record of `mnm.op.cast` (`schema/transform.h`, not among the
sources). -/
structure CastArgs where
  data : Value
  dtype : String

/-- The argument record of `mnm.op.cast_like` (`schema/transform.h`, not among
the sources). -/
structure CastLikeArgs where
  data : Value
  dtype_like : Value

/-- The argument record of `mnm.op.gather_nd` (`schema/transform.h`, not among
the sources). -/
structure GatherNdArgs where
  data : Value
  indices : Value

/-- The argument record of `mnm.op.gather_nd_dx` (`schema/transform.h`, not among
the sources). -/
structure GatherNdDxArgs where
  data : Value
  indices : Value
  dy : Value

/-- The argument record of `mnm.op.squeeze` (`schema/transform.h`, not among the
sources). -/
structure SqueezeArgs where
  x : Value
  axis : List Int

/-- The attribute record `RepeatAttrs`; `axis := none` is `NullValue<Integer>()`. -/
structure RepeatAttrs where
  axis : Option Int
  repeats : Int

/-- The attribute record `SequenceMaskAttrs`. -/
structure SequenceMaskAttrs where
  mask_value : Float
  axis : Int

/-- The attribute record `ReverseAttrs`. -/
structure ReverseAttrs where
  axis : Int

/-- The attribute record `ReverseSequenceAttrs`. -/
structure ReverseSequenceAttrs where
  seq_axis : Int
  batch_axis : Int

/-- The attribute record `InitOpAttrs`; `shape := none` is the field left as
`make_object` made it. -/
structure InitOpAttrs where
  shape : Option (List Int)

/-- The attribute record `TransposeAttrs`. -/
structure TransposeAttrs where
  axes : List Int

/-- The attribute record `ConcatenateAttrs`. -/
structure ConcatenateAttrs where
  axis : Int

/-- The attribute record `StackAttrs`. -/
structure StackAttrs where
  axis : Int

/-- The attribute record `ClipAttrs`. -/
structure ClipAttrs where
  a_min : Float
  a_max : Float

/-- The attribute record `CastAttrs`, over the type of a `DLDataType`. -/
structure CastAttrs (DLDataType : Type) where
  dtype : DLDataType

/-- The attribute record `SqueezeAttrs`. -/
structure SqueezeAttrs where
  axis : List Int

/-- The normalizer of `mnm.op.repeat`; `attrs->axis = v->data` goes through
`Integer(int)`. -/
def RepeatNormalizer (GetDLTensor : Value → DLTensor) (env : TVMOpEnv) (args : RepeatArgs) :
    Except Err (TVMOpEnv × RepeatAttrs) :=
  if env.outputs.length ≠ 1 then .error .checkFailed
  else
    let env1 : TVMOpEnv := { env with inputs := [GetDLTensor args.x] }
    match args.axis with
    | some (.IntValue data) =>
        pure (env1, { axis := some (Integer data), repeats := args.repeats })
    | some _ => .error .checkFailed
    | none => pure (env1, { axis := none, repeats := args.repeats })

/-- The normalizer of `mnm.op.take_dx`: the inputs are `x`, `y`, `dy`, `indices`;
`attrs->axis = v->data` goes through `Integer(int)`. -/
def TakeDxNormalizer (GetDLTensor : Value → DLTensor) (env : TVMOpEnv) (args : TakeDxArgs) :
    Except Err (TVMOpEnv × TakeAttrs) :=
  if env.outputs.length ≠ 1 then .error .checkFailed
  else
    let env1 : TVMOpEnv :=
      { env with inputs := [GetDLTensor args.x, GetDLTensor args.y, GetDLTensor args.dy,
                            GetDLTensor args.indices] }
    match args.axis with
    | some (.IntValue data) => pure (env1, { axis := some (Integer data), mode := "wrap" })
    | some _ => .error .checkFailed
    | none => pure (env1, { axis := none, mode := "wrap" })

/-- The normalizer of `mnm.op.sequence_mask`. -/
def SequenceMaskNormalizer (GetDLTensor : Value → DLTensor) (env : TVMOpEnv)
    (args : SequenceMaskArgs) : Except Err (TVMOpEnv × SequenceMaskAttrs) :=
  if env.outputs.length ≠ 1 then .error .checkFailed
  else
    pure ({ env with inputs := [GetDLTensor args.x, GetDLTensor args.sequence_length] },
          { mask_value := args.mask_value, axis := args.axis })

/-- The normalizer of `mnm.op.reverse`. -/
def ReverseNormalizer (GetDLTensor : Value → DLTensor) (env : TVMOpEnv) (args : ReverseArgs) :
    Except Err (TVMOpEnv × ReverseAttrs) :=
  if env.outputs.length ≠ 1 then .error .checkFailed
  else pure ({ env with inputs := [GetDLTensor args.x] }, { axis := args.axis })

/-- The normalizer of `mnm.op.reverse_sequence`. -/
def ReverseSequenceNormalizer (GetDLTensor : Value → DLTensor) (env : TVMOpEnv)
    (args : ReverseSequenceArgs) : Except Err (TVMOpEnv × ReverseSequenceAttrs) :=
  if env.outputs.length ≠ 1 then .error .checkFailed
  else
    pure ({ env with inputs := [GetDLTensor args.x, GetDLTensor args.sequence_length] },
          { seq_axis := args.seq_axis, batch_axis := args.batch_axis })

/-- The normalizer of `mnm.op.broadcast_to`: the shape goes into the attributes
element by element.  The constructor `IntImm` is declared outside the sources;
the model keeps each integer as it is. -/
def BroadcastToNormalizer (GetDLTensor : Value → DLTensor) (env : TVMOpEnv)
    (args : BroadcastToArgs) : Except Err (TVMOpEnv × InitOpAttrs) :=
  if env.outputs.length ≠ 1 then .error .checkFailed
  else pure ({ env with inputs := [GetDLTensor args.x] }, { shape := some args.shape })

/-- The normalizer of `mnm.op.transpose`. -/
def TransposeNormalizer (GetDLTensor : Value → DLTensor) (env : TVMOpEnv) (args : TransposeArgs) :
    Except Err (TVMOpEnv × TransposeAttrs) :=
  if env.outputs.length ≠ 1 then .error .checkFailed
  else pure ({ env with inputs := [GetDLTensor args.x] }, { axes := args.axes })

/-- The normalizer of `mnm.op.transpose_dx`: the inputs are `x`, `y`, `dy`. -/
def TransposeDxNormalizer (GetDLTensor : Value → DLTensor) (env : TVMOpEnv)
    (args : TransposeDxArgs) : Except Err (TVMOpEnv × TransposeAttrs) :=
  if env.outputs.length ≠ 1 then .error .checkFailed
  else
    pure ({ env with inputs := [GetDLTensor args.x, GetDLTensor args.y, GetDLTensor args.dy] },
          { axes := args.axes })

/-- The normalizer of `mnm.op.broadcast_to_like`; the attributes are a new
`InitOpAttrs` with nothing set. -/
def BroadcastToLikeNormalizer (GetDLTensor : Value → DLTensor) (env : TVMOpEnv)
    (args : BroadcastToLikeArgs) : Except Err (TVMOpEnv × InitOpAttrs) :=
  if env.outputs.length ≠ 1 then .error .checkFailed
  else
    pure ({ env with inputs := [GetDLTensor args.x, GetDLTensor args.broadcast_type] },
          { shape := none })

/-- The normalizer of `mnm.op.concatenate`: `env->inputs.resize(x.size())` and the
loop leave one input for each tensor of `x`, in order. -/
def ConcatenateNormalizer (GetDLTensor : Value → DLTensor) (env : TVMOpEnv)
    (args : ConcatenateArgs) : Except Err (TVMOpEnv × ConcatenateAttrs) :=
  if env.outputs.length ≠ 1 then .error .checkFailed
  else pure ({ env with inputs := args.x.map GetDLTensor }, { axis := args.axis })

/-- The normalizer of `mnm.op.stack`: one input for each tensor of `x`, in order. -/
def StackNormalizer (GetDLTensor : Value → DLTensor) (env : TVMOpEnv) (args : StackArgs) :
    Except Err (TVMOpEnv × StackAttrs) :=
  if env.outputs.length ≠ 1 then .error .checkFailed
  else pure ({ env with inputs := args.x.map GetDLTensor }, { axis := args.axis })

/-- The normalizer of `mnm.op.clip`. -/
def ClipNormalizer (GetDLTensor : Value → DLTensor) (env : TVMOpEnv) (args : ClipArgs) :
    Except Err (TVMOpEnv × ClipAttrs) :=
  if env.outputs.length ≠ 1 then .error .checkFailed
  else
    pure ({ env with inputs := [GetDLTensor args.x] },
          { a_min := args.a_min, a_max := args.a_max })

/-- The normalizer of `mnm.op.clip_dx`: the inputs are `x`, `dy`. -/
def ClipDxNormalizer (GetDLTensor : Value → DLTensor) (env : TVMOpEnv) (args : ClipDxArgs) :
    Except Err (TVMOpEnv × ClipAttrs) :=
  if env.outputs.length ≠ 1 then .error .checkFailed
  else
    pure ({ env with inputs := [GetDLTensor args.x, GetDLTensor args.dy] },
          { a_min := args.a_min, a_max := args.a_max })

/-- The normalizer of `mnm.op.cast`.  `ir::String2DLDataType` is not among the
sources; it is a parameter and may fail. -/
def CastNormalizer {DLDataType : Type} (GetDLTensor : Value → DLTensor)
    (String2DLDataType : String → Except Err DLDataType) (env : TVMOpEnv) (args : CastArgs) :
    Except Err (TVMOpEnv × CastAttrs DLDataType) :=
  if env.outputs.length ≠ 1 then .error .checkFailed
  else do
    let dtype ← String2DLDataType args.dtype
    pure ({ env with inputs := [GetDLTensor args.data] }, { dtype := dtype })

/-- The normalizer of `mnm.op.cast_like`; the null `Attrs()` is `()`. -/
def CastLikeNormalizer (GetDLTensor : Value → DLTensor) (env : TVMOpEnv) (args : CastLikeArgs) :
    Except Err (TVMOpEnv × Unit) :=
  if env.outputs.length ≠ 1 then .error .checkFailed
  else pure ({ env with inputs := [GetDLTensor args.data, GetDLTensor args.dtype_like] }, ())

/-- The normalizer of `mnm.op.gather_nd`; the null `Attrs()` is `()`. -/
def GatherNdNormalizer (GetDLTensor : Value → DLTensor) (env : TVMOpEnv) (args : GatherNdArgs) :
    Except Err (TVMOpEnv × Unit) :=
  if env.outputs.length ≠ 1 then .error .checkFailed
  else pure ({ env with inputs := [GetDLTensor args.data, GetDLTensor args.indices] }, ())

/-- The normalizer of `mnm.op.gather_nd_dx`: the inputs are `data`, `indices`,
`dy`; the null `Attrs()` is `()`. -/
def GatherNdDxNormalizer (GetDLTensor : Value → DLTensor) (env : TVMOpEnv)
    (args : GatherNdDxArgs) : Except Err (TVMOpEnv × Unit) :=
  if env.outputs.length ≠ 1 then .error .checkFailed
  else
    pure ({ env with inputs := [GetDLTensor args.data, GetDLTensor args.indices,
                                GetDLTensor args.dy] }, ())

/-- The normalizer of `mnm.op.squeeze`. -/
def SqueezeNormalizer (GetDLTensor : Value → DLTensor) (env : TVMOpEnv) (args : SqueezeArgs) :
    Except Err (TVMOpEnv × SqueezeAttrs) :=
  if env.outputs.length ≠ 1 then .error .checkFailed
  else pure ({ env with inputs := [GetDLTensor args.x] }, { axis := args.axis })

/-! ## `transform.cc`: typers -/

/-- The read `env->outputs[i]`; an index past the end is an error. -/
def TVMOpEnv.output (env : TVMOpEnv) (i : Nat) : Except Err DLTensor :=
  match env.outputs.get? i with
  | some t => .ok t
  | none => .error .outOfRange

/-- The read `env->inputs[i]`; an index past the end is an error. -/
def TVMOpEnv.input (env : TVMOpEnv) (i : Nat) : Except Err DLTensor :=
  match env.inputs.get? i with
  | some t => .ok t
  | none => .error .outOfRange

/-- Modelled from the spec: `GetTupleType` of `tvmjit_utils.h`, which is not
among the sources: the tuple type of the tensor types of the given tensors, in
order.  `GetTensorType` (same header) gives the type of one tensor; it is a
parameter. -/
def GetTupleType (GetTensorType : DLTensor → Ty) (dlts : List DLTensor) : Ty :=
  .TupleType (dlts.map GetTensorType)

/-- The typers that read one input: `y_type` from `env->outputs[0]`, then
`param_types` from `env->inputs[0]`.  `RepeatTyper`, `ReverseTyper`,
`BroadcastToTyper`, `TransposeTyper`, `ClipTyper`, `CastTyper` and
`SqueezeTyper` have this one body. -/
def RepeatTyper (GetTensorType : DLTensor → Ty) (env : TVMOpEnv) : Except Err (List Ty × Ty) := do
  let y ← env.output 0
  let x0 ← env.input 0
  pure ([GetTensorType x0], GetTensorType y)

/-- The typer of `mnm.op.reverse`. -/
def ReverseTyper (GetTensorType : DLTensor → Ty) (env : TVMOpEnv) : Except Err (List Ty × Ty) := do
  let y ← env.output 0
  let x0 ← env.input 0
  pure ([GetTensorType x0], GetTensorType y)

/-- The typer of `mnm.op.broadcast_to`. -/
def BroadcastToTyper (GetTensorType : DLTensor → Ty) (env : TVMOpEnv) :
    Except Err (List Ty × Ty) := do
  let y ← env.output 0
  let x0 ← env.input 0
  pure ([GetTensorType x0], GetTensorType y)

/-- The typer of `mnm.op.transpose`. -/
def TransposeTyper (GetTensorType : DLTensor → Ty) (env : TVMOpEnv) :
    Except Err (List Ty × Ty) := do
  let y ← env.output 0
  let x0 ← env.input 0
  pure ([GetTensorType x0], GetTensorType y)

/-- The typer of `mnm.op.clip`. -/
def ClipTyper (GetTensorType : DLTensor → Ty) (env : TVMOpEnv) : Except Err (List Ty × Ty) := do
  let y ← env.output 0
  let x0 ← env.input 0
  pure ([GetTensorType x0], GetTensorType y)

/-- The typer of `mnm.op.cast`. -/
def CastTyper (GetTensorType : DLTensor → Ty) (env : TVMOpEnv) : Except Err (List Ty × Ty) := do
  let y ← env.output 0
  let x0 ← env.input 0
  pure ([GetTensorType x0], GetTensorType y)

/-- The typer of `mnm.op.squeeze`. -/
def SqueezeTyper (GetTensorType : DLTensor → Ty) (env : TVMOpEnv) : Except Err (List Ty × Ty) := do
  let y ← env.output 0
  let x0 ← env.input 0
  pure ([GetTensorType x0], GetTensorType y)

/-- The typer of `mnm.op.take`: `y_type` from `env->outputs[0]`, then
`param_types` from `env->inputs[0]` and `env->inputs[1]`. -/
def TakeTyper (GetTensorType : DLTensor → Ty) (env : TVMOpEnv) : Except Err (List Ty × Ty) := do
  let y ← env.output 0
  let x0 ← env.input 0
  let x1 ← env.input 1
  pure ([GetTensorType x0, GetTensorType x1], GetTensorType y)

/-- The typer of `mnm.op.sequence_mask`. -/
def SequenceMaskTyper (GetTensorType : DLTensor → Ty) (env : TVMOpEnv) :
    Except Err (List Ty × Ty) := do
  let y ← env.output 0
  let x0 ← env.input 0
  let x1 ← env.input 1
  pure ([GetTensorType x0, GetTensorType x1], GetTensorType y)

/-- The typer of `mnm.op.reverse_sequence`. -/
def ReverseSequenceTyper (GetTensorType : DLTensor → Ty) (env : TVMOpEnv) :
    Except Err (List Ty × Ty) := do
  let y ← env.output 0
  let x0 ← env.input 0
  let x1 ← env.input 1
  pure ([GetTensorType x0, GetTensorType x1], GetTensorType y)

/-- The typer of `mnm.op.broadcast_to_like`. -/
def BroadcastToLikeTyper (GetTensorType : DLTensor → Ty) (env : TVMOpEnv) :
    Except Err (List Ty × Ty) := do
  let y ← env.output 0
  let x0 ← env.input 0
  let x1 ← env.input 1
  pure ([GetTensorType x0, GetTensorType x1], GetTensorType y)

/-- The typer of `mnm.op.clip_dx`. -/
def ClipDxTyper (GetTensorType : DLTensor → Ty) (env : TVMOpEnv) : Except Err (List Ty × Ty) := do
  let y ← env.output 0
  let x0 ← env.input 0
  let x1 ← env.input 1
  pure ([GetTensorType x0, GetTensorType x1], GetTensorType y)

/-- The typer of `mnm.op.cast_like`. -/
def CastLikeTyper (GetTensorType : DLTensor → Ty) (env : TVMOpEnv) : Except Err (List Ty × Ty) := do
  let y ← env.output 0
  let x0 ← env.input 0
  let x1 ← env.input 1
  pure ([GetTensorType x0, GetTensorType x1], GetTensorType y)

/-- The typer of `mnm.op.gather_nd`. -/
def GatherNdTyper (GetTensorType : DLTensor → Ty) (env : TVMOpEnv) : Except Err (List Ty × Ty) := do
  let y ← env.output 0
  let x0 ← env.input 0
  let x1 ← env.input 1
  pure ([GetTensorType x0, GetTensorType x1], GetTensorType y)

/-- The typer of `mnm.op.transpose_dx`: three parameter types. -/
def TransposeDxTyper (GetTensorType : DLTensor → Ty) (env : TVMOpEnv) :
    Except Err (List Ty × Ty) := do
  let y ← env.output 0
  let x0 ← env.input 0
  let x1 ← env.input 1
  let x2 ← env.input 2
  pure ([GetTensorType x0, GetTensorType x1, GetTensorType x2], GetTensorType y)

/-- The typer of `mnm.op.gather_nd_dx`: three parameter types. -/
def GatherNdDxTyper (GetTensorType : DLTensor → Ty) (env : TVMOpEnv) :
    Except Err (List Ty × Ty) := do
  let y ← env.output 0
  let x0 ← env.input 0
  let x1 ← env.input 1
  let x2 ← env.input 2
  pure ([GetTensorType x0, GetTensorType x1, GetTensorType x2], GetTensorType y)

/-- The typer of `mnm.op.take_dx`: four parameter types. -/
def TakeDxTyper (GetTensorType : DLTensor → Ty) (env : TVMOpEnv) : Except Err (List Ty × Ty) := do
  let y ← env.output 0
  let x0 ← env.input 0
  let x1 ← env.input 1
  let x2 ← env.input 2
  let x3 ← env.input 3
  pure ([GetTensorType x0, GetTensorType x1, GetTensorType x2, GetTensorType x3], GetTensorType y)

/-- The typer of `mnm.op.split`: `y_type` is `GetTupleType(env->outputs)`. -/
def SplitTyper (GetTensorType : DLTensor → Ty) (env : TVMOpEnv) : Except Err (List Ty × Ty) := do
  let x0 ← env.input 0
  pure ([GetTensorType x0], GetTupleType GetTensorType env.outputs)

/-- The typer of `mnm.op.concatenate`: the loop pushes the type of every input. -/
def ConcatenateTyper (GetTensorType : DLTensor → Ty) (env : TVMOpEnv) :
    Except Err (List Ty × Ty) := do
  let y ← env.output 0
  pure (env.inputs.map GetTensorType, GetTensorType y)

/-- The typer of `mnm.op.stack`: the loop pushes the type of every input. -/
def StackTyper (GetTensorType : DLTensor → Ty) (env : TVMOpEnv) : Except Err (List Ty × Ty) := do
  let y ← env.output 0
  pure (env.inputs.map GetTensorType, GetTensorType y)

/-! ## `grad/reduce.cc` -/

/-- The gradient rule of `mnm.op.mean`.  `orig_call.as<CallNode>()` is not
checked, so `call->args` on an expression that is not a call goes through a
null pointer; `CHECK_GE(call->args.size(), 3)` guards the three reads. -/
def MeanGrad (orig_call : Expr) (y : Expr) (dy : Expr) : Except Err (List Expr) :=
  match orig_call with
  | .Call _ args _ =>
      match args with
      | x :: axis :: keepdims :: _ =>
          pure [.Call (.Op "mnm.op.mean_dx") [x, y, dy, axis, keepdims] none]
      | _ => .error .checkFailed
  | _ => .error .nullDereference

/-! ## `enum_base.h` -/

namespace enum_base_details

/-- The static method `collect<T, underlying, n>::c_str()`: the result for `n - 1`
with `T::_c_str(_integral_constant<n - 1>())` pushed at the back, and the empty
vector for `n = 0`.  `_c_str` gives the name that `ENUM_DEF_ENTRY_WITH_NAME`
declares for each entry value. -/
def collect.c_str (_c_str : Nat → String) : Nat → List String
  | 0 => []
  | n + 1 => collect.c_str _c_str n ++ [_c_str n]

/-- The static method `collect<T, underlying, n>::plain<plain_t>()`, built like
`c_str()` from the declared plain values `T::_plain`. -/
def collect.plain {plain_t : Type} (_plain : Nat → plain_t) : Nat → List plain_t
  | 0 => []
  | n + 1 => collect.plain _plain n ++ [_plain n]

/-- An `EnumBase` with `numel` entries: the field `v`, an `int`. -/
structure EnumBase (numel : Nat) where
  v : Int
deriving DecidableEq, Repr

/-- The constructor `EnumBase(_underlying _v) : v(_v)`: the argument, a value of
the underlying type, initialises the `int` field `v`, that is, it is reduced
modulo `2^32` into the range of a 32-bit signed integer; then
`CHECK(0 <= v && v < numel)` tests the field. -/
def EnumBase.make (numel : Nat) (_v : Int) : Except Err (EnumBase numel) :=
  let v : Int := (_v + 2147483648) % 4294967296 - 2147483648
  if 0 ≤ v ∧ v < numel then .ok { v := v } else .error .checkFailed

/-- The method `c_str()`: `c_strs[v]` in the collected names; an index past the
end is an error. -/
def EnumBase.c_str {numel : Nat} (_c_str : Nat → String) (e : EnumBase numel) :
    Except Err String :=
  match (collect.c_str _c_str numel).get? e.v.toNat with
  | some name => .ok name
  | none => .error .outOfRange

/-- The method `plain()`: `c_strs[v]` in the collected plain values; an index
past the end is an error. -/
def EnumBase.plain {numel : Nat} {plain_t : Type} (_plain : Nat → plain_t) (e : EnumBase numel) :
    Except Err plain_t :=
  match (collect.plain _plain numel).get? e.v.toNat with
  | some p => .ok p
  | none => .error .outOfRange

end enum_base_details

/-! ## Vocabulary of the properties of `RenameVars` -/

/-- What a traversal meets at a variable position: a use of a variable (a `Var`
node or a function parameter) or the binder of a `Let`. -/
inductive Event where
  | use (v : Var)
  | bind (v : Var)
deriving DecidableEq, Repr

/-- The variable of an event. -/
def Event.var : Event → Var
  | .use v => v
  | .bind v => v

/-- The same event on the image of its variable. -/
def Event.map (σ : Var → Var) : Event → Event
  | .use v => .use (σ v)
  | .bind v => .bind (σ v)

mutual
/-- The variable positions of an expression in the order in which the default
rules of `ExprMutator` reach them: a `Let` before its value, the value before
the body, children from left to right. -/
def Expr.events : Expr → List Event
  | .Var v => [.use v]
  | .Let var value body => .bind var :: (value.events ++ body.events)
  | .Constant _ => []
  | .GlobalVar _ => []
  | .Op _ => []
  | .Tuple fields => Expr.eventsList fields
  | .Call op args _ => op.events ++ Expr.eventsList args
  | .If c t f => c.events ++ (t.events ++ f.events)
  | .TupleGetItem t _ => t.events
  | .Function params body _ _ _ => params.map Event.use ++ body.events
  | .RefCreate v => v.events
  | .RefRead r => r.events
  | .RefWrite r v => r.events ++ v.events
/-- The variable positions of a list of expressions. -/
def Expr.eventsList : List Expr → List Event
  | [] => []
  | e :: es => e.events ++ Expr.eventsList es
end

mutual
/-- The variable positions of an expression in the order in which
`RenameVarsMutator` reaches them: a `Let` before its value and its body, the
body before the value when `body_first` holds and the value before the body
otherwise, the children of every other node from left to right. -/
def Expr.eventsIn (body_first : Bool) : Expr → List Event
  | .Var v => [.use v]
  | .Let var value body =>
      if body_first then .bind var :: (body.eventsIn body_first ++ value.eventsIn body_first)
      else .bind var :: (value.eventsIn body_first ++ body.eventsIn body_first)
  | .Constant _ => []
  | .GlobalVar _ => []
  | .Op _ => []
  | .Tuple fields => Expr.eventsInList body_first fields
  | .Call op args _ => op.eventsIn body_first ++ Expr.eventsInList body_first args
  | .If c t f => c.eventsIn body_first ++ (t.eventsIn body_first ++ f.eventsIn body_first)
  | .TupleGetItem t _ => t.eventsIn body_first
  | .Function params body _ _ _ => params.map Event.use ++ body.eventsIn body_first
  | .RefCreate v => v.eventsIn body_first
  | .RefRead r => r.eventsIn body_first
  | .RefWrite r v => r.eventsIn body_first ++ v.eventsIn body_first
/-- The variable positions of a list of expressions, in the order of
`RenameVarsMutator`. -/
def Expr.eventsInList (body_first : Bool) : List Expr → List Event
  | [] => []
  | e :: es => e.eventsIn body_first ++ Expr.eventsInList body_first es
end

mutual
/-- The expression with every variable occurrence (use, binder, parameter)
replaced by its image under `σ`; nothing else changes. -/
def Expr.rename (σ : mnm.Var → mnm.Var) : Expr → Expr
  | .Var v => .Var (σ v)
  | .Let var value body => .Let (σ var) (value.rename σ) (body.rename σ)
  | .Constant c => .Constant c
  | .GlobalVar g => .GlobalVar g
  | .Op o => .Op o
  | .Tuple fields => .Tuple (Expr.renameList σ fields)
  | .Call op args attrs => .Call (op.rename σ) (Expr.renameList σ args) attrs
  | .If c t f => .If (c.rename σ) (t.rename σ) (f.rename σ)
  | .TupleGetItem t i => .TupleGetItem (t.rename σ) i
  | .Function params body ret_type type_params attrs =>
      .Function (params.map σ) (body.rename σ) ret_type type_params attrs
  | .RefCreate v => .RefCreate (v.rename σ)
  | .RefRead r => .RefRead (r.rename σ)
  | .RefWrite r v => .RefWrite (r.rename σ) (v.rename σ)
/-- The renaming of each element of a list. -/
def Expr.renameList (σ : mnm.Var → mnm.Var) : List Expr → List Expr
  | [] => []
  | e :: es => e.rename σ :: Expr.renameList σ es
end

mutual
/-- The variables bound by the `Let` nodes of an expression, in binding order:
a `Let` comes before the `Let`s inside its value, and those before the `Let`s
inside its body. -/
def Expr.letVars : Expr → List mnm.Var
  | .Var _ => []
  | .Let var value body => var :: (value.letVars ++ body.letVars)
  | .Constant _ => []
  | .GlobalVar _ => []
  | .Op _ => []
  | .Tuple fields => Expr.letVarsList fields
  | .Call op args _ => op.letVars ++ Expr.letVarsList args
  | .If c t f => c.letVars ++ (t.letVars ++ f.letVars)
  | .TupleGetItem t _ => t.letVars
  | .Function _ body _ _ _ => body.letVars
  | .RefCreate v => v.letVars
  | .RefRead r => r.letVars
  | .RefWrite r v => r.letVars ++ v.letVars
/-- The let-bound variables of a list of expressions. -/
def Expr.letVarsList : List Expr → List mnm.Var
  | [] => []
  | e :: es => e.letVars ++ Expr.letVarsList es
end

mutual
/-- The number of `Let` nodes of an expression. -/
def Expr.numLets : Expr → Nat
  | .Var _ => 0
  | .Let _ value body => 1 + value.numLets + body.numLets
  | .Constant _ => 0
  | .GlobalVar _ => 0
  | .Op _ => 0
  | .Tuple fields => Expr.numLetsList fields
  | .Call op args _ => op.numLets + Expr.numLetsList args
  | .If c t f => c.numLets + t.numLets + f.numLets
  | .TupleGetItem t _ => t.numLets
  | .Function _ body _ _ _ => body.numLets
  | .RefCreate v => v.numLets
  | .RefRead r => r.numLets
  | .RefWrite r v => r.numLets + v.numLets
/-- The number of `Let` nodes of a list of expressions. -/
def Expr.numLetsList : List Expr → Nat
  | [] => 0
  | e :: es => e.numLets + Expr.numLetsList es
end

mutual
/-- Lexical scoping: every variable occurrence (a `Var` node or a function
parameter) is in `scope`, where the body of a `Let`, and only its body, adds
the bound variable to the scope. -/
def Expr.inScope (scope : List mnm.Var) : Expr → Bool
  | .Var v => decide (v ∈ scope)
  | .Let var value body => value.inScope scope && body.inScope (var :: scope)
  | .Constant _ => true
  | .GlobalVar _ => true
  | .Op _ => true
  | .Tuple fields => Expr.inScopeList scope fields
  | .Call op args _ => op.inScope scope && Expr.inScopeList scope args
  | .If c t f => c.inScope scope && t.inScope scope && f.inScope scope
  | .TupleGetItem t _ => t.inScope scope
  | .Function params body _ _ _ => params.all (fun p => decide (p ∈ scope)) && body.inScope scope
  | .RefCreate v => v.inScope scope
  | .RefRead r => r.inScope scope
  | .RefWrite r v => r.inScope scope && v.inScope scope
/-- Lexical scoping of every element of a list. -/
def Expr.inScopeList (scope : List mnm.Var) : List Expr → Bool
  | [] => true
  | e :: es => e.inScope scope && Expr.inScopeList scope es
end

/-- The reading of a map as a total renaming: a variable outside the map stays. -/
def VarMap.lookup (m : VarMap Var) (v : Var) : Var := (m v).getD v

/-- One step of a `RenameVarsMutator` at a variable position: the lookup of
`VisitExpr_(const VarNode*)`, or the check and the three updates of
`VisitExpr_(const LetNode*)`. -/
def RenameVarsMutator.step (st : RenameVarsMutator) : Event → Except Err RenameVarsMutator
  | .use v => match st.var_map v with
      | some _ => .ok st
      | none => .error .keyNotFound
  | .bind var =>
      if st.var_map.count var ≠ 0 then .error .bindTwice
      else .ok
        { num_bound_var := st.num_bound_var + 1
          var_map := st.var_map.Set var ⟨st.heap, "a" ++ toString (st.num_bound_var + 1)⟩
          heap := st.heap + 1 }

/-- The steps of a `RenameVarsMutator` along a sequence of variable positions. -/
def RenameVarsMutator.run : List Event → RenameVarsMutator → Except Err RenameVarsMutator
  | [], st => .ok st
  | ev :: evs, st =>
      match st.step ev with
      | .ok st1 => RenameVarsMutator.run evs st1
      | .error err => .error err

/-- The variables that a named-variable table lists. -/
def tableVars (named_vars : List (String × Var)) : List Var := named_vars.map Prod.snd

/-- The table for a second run on the output of a first run that started at
address `heap`: each name of the table goes to the node that the first run made
for that name (the entry at position `i` of the table got the node at address
`heap + i`). -/
def outputTable : List (String × Var) → Nat → List (String × Var)
  | [], _ => []
  | iter :: named_vars, heap => (iter.1, ⟨heap, iter.1⟩) :: outputTable named_vars (heap + 1)

/-- The expression with the address of every variable node forgotten: what is
left is its shape and the names of its variables. -/
def Expr.eraseVid (e : Expr) : Expr := e.rename (fun v => (⟨0, v.name_hint⟩ : mnm.Var))

/-! ## Vocabulary of the properties of `InplaceUpdate` -/

/-- The top-level let chain of an expression: the pairs `(variable, value)` of
the nested `Let`s from the root down to the first expression that is not a
`Let`. -/
def Expr.letChain : Expr → List (mnm.Var × Expr)
  | .Let var value body => (var, value) :: body.letChain
  | _ => []

/-- The tail of the top-level let chain. -/
def Expr.letTail : Expr → Expr
  | .Let _ _ body => body.letTail
  | e => e

/-- Whether the expression is a `TupleGetItem` node. -/
def Expr.isTupleGetItem : Expr → Bool
  | .TupleGetItem _ _ => true
  | _ => false

mutual
/-- The variable occurrences that the rewriter visits, in order: a `Let` whose
variable is a key of `vmap` is dropped and only its body is visited; a `Let`
that is kept is visited at its variable, its value and its body. -/
def Expr.traversed (vmap : VarMap (Option mnm.Var)) : Expr → List mnm.Var
  | .Let var value body =>
      if vmap.count var > 0 then body.traversed vmap
      else var :: (value.traversed vmap ++ body.traversed vmap)
  | .Var k => [k]
  | .Constant _ => []
  | .GlobalVar _ => []
  | .Op _ => []
  | .Tuple fields => Expr.traversedList vmap fields
  | .Call op args _ => op.traversed vmap ++ Expr.traversedList vmap args
  | .If c t f => c.traversed vmap ++ (t.traversed vmap ++ f.traversed vmap)
  | .TupleGetItem t _ => t.traversed vmap
  | .Function params body _ _ _ => params ++ body.traversed vmap
  | .RefCreate v => v.traversed vmap
  | .RefRead r => r.traversed vmap
  | .RefWrite r v => r.traversed vmap ++ v.traversed vmap
/-- The variable occurrences that the rewriter visits in a list of expressions. -/
def Expr.traversedList (vmap : VarMap (Option mnm.Var)) : List Expr → List mnm.Var
  | [] => []
  | e :: es => e.traversed vmap ++ Expr.traversedList vmap es
end

/-- The reading of `vmap` as a total renaming: a key with a defined target goes
to the target, every other variable stays. -/
def VarMap.subst (vmap : VarMap (Option Var)) (v : Var) : Var :=
  match vmap v with
  | some (some w) => w
  | _ => v

/-- The annotations of the examples: `t` may share `b`, `u` may share `c`. -/
def exampleShare : Var → Option Var := fun v =>
  if v = ⟨1, "t"⟩ then some ⟨9, "b"⟩ else if v = ⟨3, "u"⟩ then some ⟨10, "c"⟩ else none

/-- The function of the examples, with parameter `b` and body
`s = alloc_storage(); t = f(s); rest`. -/
def exampleFunction (rest : Expr) : Function :=
  { params := [⟨9, "b"⟩]
    body := .Let ⟨0, "s"⟩ (.Call alloc_storage_op [] none)
      (.Let ⟨1, "t"⟩ (.Call (.Op "f") [.Var ⟨0, "s"⟩] none) rest)
    ret_type := .Undefined, type_params := [], attrs := none }

mutual
/-- Well-scoped expressions: every `Var` node is in `scope`, where the body of
a `Let` adds the bound variable and the body of a `Function` adds the
parameters. -/
def Expr.wellScoped (scope : List mnm.Var) : Expr → Bool
  | .Var v => decide (v ∈ scope)
  | .Let var value body => value.wellScoped scope && body.wellScoped (var :: scope)
  | .Constant _ => true
  | .GlobalVar _ => true
  | .Op _ => true
  | .Tuple fields => Expr.wellScopedList scope fields
  | .Call op args _ => op.wellScoped scope && Expr.wellScopedList scope args
  | .If c t f => c.wellScoped scope && t.wellScoped scope && f.wellScoped scope
  | .TupleGetItem t _ => t.wellScoped scope
  | .Function params body _ _ _ => body.wellScoped (params ++ scope)
  | .RefCreate v => v.wellScoped scope
  | .RefRead r => r.wellScoped scope
  | .RefWrite r v => r.wellScoped scope && v.wellScoped scope
/-- Well-scoped lists of expressions. -/
def Expr.wellScopedList (scope : List mnm.Var) : List Expr → Bool
  | [] => true
  | e :: es => e.wellScoped scope && Expr.wellScopedList scope es
end

/-- A well-scoped function: every variable use in the body is a parameter or
lies in the scope of a `Let` (or of an inner function) that binds it. -/
def Function.wellScoped (func : Function) : Bool := func.body.wellScoped func.params

/-- The decimal value of a list of digit characters, most significant first. -/
def decimalValue (digits : List Char) : Nat :=
  digits.foldl (fun acc c => acc * 10 + (c.toNat - 48)) 0

/-- The annotations of the chained example: `x` may share the parameter `p`, and
`z` may share `x`. -/
def chainedShare : Var → Option Var := fun v =>
  if v = ⟨1, "x"⟩ then some ⟨9, "p"⟩ else if v = ⟨3, "z"⟩ then some ⟨1, "x"⟩ else none

/-- The function of the chained example, with parameter `p` and body
`s1 = alloc_storage(); x = f(s1); s2 = alloc_storage(); z = g(s2); z`. -/
def chainedFunction : Function :=
  { params := [⟨9, "p"⟩]
    body := .Let ⟨0, "s1"⟩ (.Call alloc_storage_op [] none)
      (.Let ⟨1, "x"⟩ (.Call (.Op "f") [.Var ⟨0, "s1"⟩] none)
        (.Let ⟨2, "s2"⟩ (.Call alloc_storage_op [] none)
          (.Let ⟨3, "z"⟩ (.Call (.Op "g") [.Var ⟨2, "s2"⟩] none) (.Var ⟨3, "z"⟩))))
    ret_type := .Undefined, type_params := [], attrs := none }

/-- The annotation that marks the one variable `v` as sharing the parameter `p`. -/
def onlyShare (v : Var) : Var → Option Var := fun w =>
  if w = v then some ⟨9, "p"⟩ else none

/-- The function of the copy example, with parameter `p` and body
`s = alloc_storage(); a = f(s); b = a; c = b; c`. -/
def copyChainFunction : Function :=
  { params := [⟨9, "p"⟩]
    body := .Let ⟨0, "s"⟩ (.Call alloc_storage_op [] none)
      (.Let ⟨1, "a"⟩ (.Call (.Op "f") [.Var ⟨0, "s"⟩] none)
        (.Let ⟨2, "b"⟩ (.Var ⟨1, "a"⟩)
          (.Let ⟨3, "c"⟩ (.Var ⟨2, "b"⟩) (.Var ⟨3, "c"⟩))))
    ret_type := .Undefined, type_params := [], attrs := none }

/-- The annotations of the projection example: `y` may share `p`, `z` may share
`q`. -/
def projectionShare : Var → Option Var := fun v =>
  if v = ⟨3, "y"⟩ then some ⟨9, "p"⟩ else if v = ⟨4, "z"⟩ then some ⟨10, "q"⟩ else none

/-- The function of the projection example, with parameters `p`, `q` and body
`s = alloc_storage(); a = f(s); t = (a); y = TupleGetItem(t, 0); rest`. -/
def projectionFunction (rest : Expr) : Function :=
  { params := [⟨9, "p"⟩, ⟨10, "q"⟩]
    body := .Let ⟨0, "s"⟩ (.Call alloc_storage_op [] none)
      (.Let ⟨1, "a"⟩ (.Call (.Op "f") [.Var ⟨0, "s"⟩] none)
        (.Let ⟨2, "t"⟩ (.Tuple [.Var ⟨1, "a"⟩])
          (.Let ⟨3, "y"⟩ (.TupleGetItem (.Var ⟨2, "t"⟩) 0) rest)))
    ret_type := .Undefined, type_params := [], attrs := none }

/-- The annotation of the own-storage example: `x` may share `s`. -/
def ownStorageShare : Var → Option Var := fun v =>
  if v = ⟨1, "x"⟩ then some ⟨0, "s"⟩ else none

/-- The function of the own-storage example, without parameters and with body
`s = alloc_storage(); x = f(s); x`. -/
def ownStorageFunction : Function :=
  { params := []
    body := .Let ⟨0, "s"⟩ (.Call alloc_storage_op [] none)
      (.Let ⟨1, "x"⟩ (.Call (.Op "f") [.Var ⟨0, "s"⟩] none) (.Var ⟨1, "x"⟩))
    ret_type := .Undefined, type_params := [], attrs := none }

/-- The function of the non-allocation example, with parameter `p` and body
`a = g(); x = f(a); x`. -/
def notAllocFunction : Function :=
  { params := [⟨9, "p"⟩]
    body := .Let ⟨0, "a"⟩ (.Call (.Op "g") [] none)
      (.Let ⟨1, "x"⟩ (.Call (.Op "f") [.Var ⟨0, "a"⟩] none) (.Var ⟨1, "x"⟩))
    ret_type := .Undefined, type_params := [], attrs := none }

/-- The names of an example enumeration with three entries. -/
def exampleNames : Nat → String := fun i =>
  if i = 0 then "UNKNOWN" else if i = 1 then "CPU" else "CUDA"

/-- The plain values of the example enumeration. -/
def examplePlains : Nat → Nat := fun i => 10 * i

/-- The function of the nested example, with parameter `p` and body
`a = (n = g(); n); a`. -/
def nestedFunction : Function :=
  { params := [⟨9, "p"⟩]
    body := .Let ⟨0, "a"⟩ (.Let ⟨1, "n"⟩ (.Call (.Op "g") [] none) (.Var ⟨1, "n"⟩)) (.Var ⟨0, "a"⟩)
    ret_type := .Undefined, type_params := [], attrs := none }

/-- The twenty registrations `MNM_TVMJIT` of `transform.cc`, each with the
argument record of its operator. -/
inductive TransformArgs where
  | Repeat (args : RepeatArgs)
  | Take (args : TakeArgs)
  | TakeDx (args : TakeDxArgs)
  | SequenceMask (args : SequenceMaskArgs)
  | Reverse (args : ReverseArgs)
  | ReverseSequence (args : ReverseSequenceArgs)
  | BroadcastTo (args : BroadcastToArgs)
  | Transpose (args : TransposeArgs)
  | TransposeDx (args : TransposeDxArgs)
  | BroadcastToLike (args : BroadcastToLikeArgs)
  | Split (args : SplitArgs)
  | Concatenate (args : ConcatenateArgs)
  | Stack (args : StackArgs)
  | Clip (args : ClipArgs)
  | ClipDx (args : ClipDxArgs)
  | Cast (args : CastArgs)
  | CastLike (args : CastLikeArgs)
  | GatherNd (args : GatherNdArgs)
  | GatherNdDx (args : GatherNdDxArgs)
  | Squeeze (args : SqueezeArgs)

/-- The environment that the normalizer registered for the operator leaves. -/
def TransformArgs.Normalizer {DLDataType : Type} (GetDLTensor : Value → DLTensor)
    (String2DLDataType : String → Except Err DLDataType) (env : TVMOpEnv) :
    TransformArgs → Except Err TVMOpEnv
  | .Repeat args => Prod.fst <$> RepeatNormalizer GetDLTensor env args
  | .Take args => Prod.fst <$> TakeNormalizer GetDLTensor env args
  | .TakeDx args => Prod.fst <$> TakeDxNormalizer GetDLTensor env args
  | .SequenceMask args => Prod.fst <$> SequenceMaskNormalizer GetDLTensor env args
  | .Reverse args => Prod.fst <$> ReverseNormalizer GetDLTensor env args
  | .ReverseSequence args => Prod.fst <$> ReverseSequenceNormalizer GetDLTensor env args
  | .BroadcastTo args => Prod.fst <$> BroadcastToNormalizer GetDLTensor env args
  | .Transpose args => Prod.fst <$> TransposeNormalizer GetDLTensor env args
  | .TransposeDx args => Prod.fst <$> TransposeDxNormalizer GetDLTensor env args
  | .BroadcastToLike args => Prod.fst <$> BroadcastToLikeNormalizer GetDLTensor env args
  | .Split args => Prod.fst <$> SplitNormalizer GetDLTensor env args
  | .Concatenate args => Prod.fst <$> ConcatenateNormalizer GetDLTensor env args
  | .Stack args => Prod.fst <$> StackNormalizer GetDLTensor env args
  | .Clip args => Prod.fst <$> ClipNormalizer GetDLTensor env args
  | .ClipDx args => Prod.fst <$> ClipDxNormalizer GetDLTensor env args
  | .Cast args => Prod.fst <$> CastNormalizer GetDLTensor String2DLDataType env args
  | .CastLike args => Prod.fst <$> CastLikeNormalizer GetDLTensor env args
  | .GatherNd args => Prod.fst <$> GatherNdNormalizer GetDLTensor env args
  | .GatherNdDx args => Prod.fst <$> GatherNdDxNormalizer GetDLTensor env args
  | .Squeeze args => Prod.fst <$> SqueezeNormalizer GetDLTensor env args

/-- The typer registered for the operator. -/
def TransformArgs.Typer (GetTensorType : DLTensor → Ty) (env : TVMOpEnv) :
    TransformArgs → Except Err (List Ty × Ty)
  | .Repeat _ => RepeatTyper GetTensorType env
  | .Take _ => TakeTyper GetTensorType env
  | .TakeDx _ => TakeDxTyper GetTensorType env
  | .SequenceMask _ => SequenceMaskTyper GetTensorType env
  | .Reverse _ => ReverseTyper GetTensorType env
  | .ReverseSequence _ => ReverseSequenceTyper GetTensorType env
  | .BroadcastTo _ => BroadcastToTyper GetTensorType env
  | .Transpose _ => TransposeTyper GetTensorType env
  | .TransposeDx _ => TransposeDxTyper GetTensorType env
  | .BroadcastToLike _ => BroadcastToLikeTyper GetTensorType env
  | .Split _ => SplitTyper GetTensorType env
  | .Concatenate _ => ConcatenateTyper GetTensorType env
  | .Stack _ => StackTyper GetTensorType env
  | .Clip _ => ClipTyper GetTensorType env
  | .ClipDx _ => ClipDxTyper GetTensorType env
  | .Cast _ => CastTyper GetTensorType env
  | .CastLike _ => CastLikeTyper GetTensorType env
  | .GatherNd _ => GatherNdTyper GetTensorType env
  | .GatherNdDx _ => GatherNdDxTyper GetTensorType env
  | .Squeeze _ => SqueezeTyper GetTensorType env

/-- The tensor arguments of the operator in the order in which they are to
stand in the input list. -/
def TransformArgs.tensors : TransformArgs → List Value
  | .Repeat args => [args.x]
  | .Take args => [args.x, args.indices]
  | .TakeDx args => [args.x, args.y, args.dy, args.indices]
  | .SequenceMask args => [args.x, args.sequence_length]
  | .Reverse args => [args.x]
  | .ReverseSequence args => [args.x, args.sequence_length]
  | .BroadcastTo args => [args.x]
  | .Transpose args => [args.x]
  | .TransposeDx args => [args.x, args.y, args.dy]
  | .BroadcastToLike args => [args.x, args.broadcast_type]
  | .Split args => [args.x]
  | .Concatenate args => args.x
  | .Stack args => args.x
  | .Clip args => [args.x]
  | .ClipDx args => [args.x, args.dy]
  | .Cast args => [args.data]
  | .CastLike args => [args.data, args.dtype_like]
  | .GatherNd args => [args.data, args.indices]
  | .GatherNdDx args => [args.data, args.indices, args.dy]
  | .Squeeze args => [args.x]

/-- Whether the registration is the one of `mnm.op.split`. -/
def TransformArgs.isSplit : TransformArgs → Bool
  | .Split _ => true
  | _ => false

/-- An example of `GetDLTensor`: the tensor of handle `h` has shape `[h]`. -/
def exampleGetDLTensor : Value → DLTensor
  | .TensorValue handle => { shape := [(handle : Int)], dtype := "float32" }
  | _ => { shape := [], dtype := "" }

/-- An example of `GetTensorType`: the tensor type of the shape and the dtype. -/
def exampleGetTensorType : DLTensor → Ty := fun t => .TensorType t.shape t.dtype

/-- The registration and the arguments of the example: `take_dx` on the
tensors of handles 0, 1, 2, 3, without axis. -/
def exampleTakeDx : TransformArgs :=
  .TakeDx
    { x := .TensorValue 0
      y := .TensorValue 1
      dy := .TensorValue 2
      indices := .TensorValue 3
      axis := none }

/-- The environment of the example before the normalizer: no input, one output. -/
def exampleEnv : TVMOpEnv :=
  { inputs := [], outputs := [{ shape := [7], dtype := "float32" }] }

/-- The environment of the example after the normalizer of `take_dx`. -/
def exampleTakeDxEnv : TVMOpEnv :=
  { inputs := [{ shape := [0], dtype := "float32" }, { shape := [1], dtype := "float32" },
               { shape := [2], dtype := "float32" }, { shape := [3], dtype := "float32" }]
    outputs := [{ shape := [7], dtype := "float32" }] }

/-- The function of the copied tuple example, with parameters `p`, `q` and body
`a = (p, q); b = a; c = b; y = TupleGetItem(c, 0); y`. -/
def copiedTupleFunction : Function :=
  { params := [⟨9, "p"⟩, ⟨10, "q"⟩]
    body := .Let ⟨1, "a"⟩ (.Tuple [.Var ⟨9, "p"⟩, .Var ⟨10, "q"⟩])
      (.Let ⟨2, "b"⟩ (.Var ⟨1, "a"⟩)
        (.Let ⟨3, "c"⟩ (.Var ⟨2, "b"⟩)
          (.Let ⟨4, "y"⟩ (.TupleGetItem (.Var ⟨3, "c"⟩) 0) (.Var ⟨4, "y"⟩))))
    ret_type := .Undefined, type_params := [], attrs := none }

/-- The function of the direct projection example, with parameters `p`, `q` and
body `a = (p, q); y = TupleGetItem(a, 0); y`. -/
def directTupleFunction : Function :=
  { params := [⟨9, "p"⟩, ⟨10, "q"⟩]
    body := .Let ⟨1, "a"⟩ (.Tuple [.Var ⟨9, "p"⟩, .Var ⟨10, "q"⟩])
      (.Let ⟨4, "y"⟩ (.TupleGetItem (.Var ⟨1, "a"⟩) 0) (.Var ⟨4, "y"⟩))
    ret_type := .Undefined, type_params := [], attrs := none }

/-- The state in which the analysis of the copied tuple example ends when `c`
is annotated. -/
def copiedTupleState : InplaceVisitor :=
  match InplaceVisitor.call (onlyShare ⟨3, "c"⟩) InplaceVisitor.init copiedTupleFunction with
  | .ok st => st
  | .error _ => InplaceVisitor.init

/-- The variable of a `Let` binder event, nothing for a use. -/
def Event.bound : Event → Option Var
  | .use _ => none
  | .bind v => some v

/-- The variables bound by the `Let` nodes of an expression, in the order in
which `RenameVarsMutator` reaches the `Let`s. -/
def Expr.letVarsIn (body_first : Bool) (e : Expr) : List mnm.Var :=
  (e.eventsIn body_first).filterMap Event.bound

/-- The map `m'` has every entry of `m`. -/
def VarMap.Extends {α : Type} (m m' : VarMap α) : Prop :=
  ∀ k x, m k = some x → m' k = some x

/-! ## Theorems -/

/-- Simultaneous induction over expressions and lists of expressions. -/
theorem Expr.induct {P : Expr → Prop} {Q : List Expr → Prop}
    (hVar : ∀ v, P (.Var v))
    (hConstant : ∀ c, P (.Constant c))
    (hGlobalVar : ∀ g, P (.GlobalVar g))
    (hOp : ∀ o, P (.Op o))
    (hTuple : ∀ fields, Q fields → P (.Tuple fields))
    (hCall : ∀ op args attrs, P op → Q args → P (.Call op args attrs))
    (hLet : ∀ var value body, P value → P body → P (.Let var value body))
    (hIf : ∀ c t f, P c → P t → P f → P (.If c t f))
    (hTupleGetItem : ∀ t i, P t → P (.TupleGetItem t i))
    (hFunction : ∀ params body ret_type type_params attrs, P body →
      P (.Function params body ret_type type_params attrs))
    (hRefCreate : ∀ v, P v → P (.RefCreate v))
    (hRefRead : ∀ r, P r → P (.RefRead r))
    (hRefWrite : ∀ r v, P r → P v → P (.RefWrite r v))
    (hNil : Q [])
    (hCons : ∀ e es, P e → Q es → Q (e :: es)) :
    (∀ e, P e) ∧ (∀ es, Q es) :=
  ⟨fun e => @Expr.rec P Q hVar hConstant hGlobalVar hOp hTuple hCall hLet hIf hTupleGetItem
      hFunction hRefCreate hRefRead hRefWrite hNil hCons e,
   fun es => @Expr.rec_1 P Q hVar hConstant hGlobalVar hOp hTuple hCall hLet hIf hTupleGetItem
      hFunction hRefCreate hRefRead hRefWrite hNil hCons es⟩

/-! ### Maps -/

theorem VarMap.Extends.refl {α : Type} (m : VarMap α) : m.Extends m := fun _ _ h => h

theorem VarMap.Extends.trans {α : Type} {m₁ m₂ m₃ : VarMap α} (h₁ : m₁.Extends m₂)
    (h₂ : m₂.Extends m₃) : m₁.Extends m₃ := fun k x h => h₂ k x (h₁ k x h)

theorem VarMap.Set_self {α : Type} (m : VarMap α) (k : Var) (x : α) : m.Set k x k = some x := by
  simp [VarMap.Set]

theorem VarMap.Set_other {α : Type} (m : VarMap α) (k k' : Var) (x : α) (h : k' ≠ k) :
    m.Set k x k' = m k' := by
  simp [VarMap.Set, h]

theorem VarMap.Extends_Set {α : Type} (m : VarMap α) (k : Var) (x : α) (h : m k = none) :
    m.Extends (m.Set k x) := by
  intro k' y hk
  by_cases e : k' = k
  · subst e; rw [h] at hk; cases hk
  · rw [VarMap.Set_other _ _ _ _ e]; exact hk

theorem VarMap.count_ne_zero {α : Type} (m : VarMap α) (k : Var) :
    m.count k ≠ 0 ↔ (m k).isSome = true := by
  unfold VarMap.count
  split <;> simp_all

theorem VarMap.count_eq_zero {α : Type} (m : VarMap α) (k : Var) :
    ¬ (m.count k ≠ 0) ↔ m k = none := by
  rw [VarMap.count_ne_zero]
  cases m k <;> simp

theorem VarMap.lookup_of_eq {m : VarMap Var} {v w : Var} (h : m v = some w) : m.lookup v = w := by
  simp [VarMap.lookup, h]

theorem bind_ok_inv {ε α β : Type} {x : Except ε α} {f : α → Except ε β} {y : β}
    (h : (x >>= f) = .ok y) : ∃ a, x = .ok a ∧ f a = .ok y := by
  cases x with
  | error err => cases h
  | ok a => exact ⟨a, rfl, h⟩

theorem map_ok_inv {ε α β : Type} {x : Except ε α} {f : α → β} {y : β}
    (h : x.map f = .ok y) : ∃ a, x = .ok a ∧ f a = y := by
  cases x with
  | error err => cases h
  | ok a => cases h; exact ⟨a, rfl, rfl⟩

/-! ### Structural facts about expressions -/

theorem Expr.letVars_rename_both (σ : mnm.Var → mnm.Var) :
    (∀ e : Expr, (e.rename σ).letVars = e.letVars.map σ) ∧
    (∀ es : List Expr, Expr.letVarsList (Expr.renameList σ es) = (Expr.letVarsList es).map σ) := by
  apply Expr.induct <;> intros <;>
    simp_all [Expr.rename, Expr.letVars, Expr.renameList, Expr.letVarsList]

theorem Expr.letVars_rename (σ : mnm.Var → mnm.Var) (e : Expr) :
    (e.rename σ).letVars = e.letVars.map σ := (Expr.letVars_rename_both σ).1 e

theorem Expr.length_letVars_both :
    (∀ e : Expr, e.letVars.length = e.numLets) ∧
    (∀ es : List Expr, (Expr.letVarsList es).length = Expr.numLetsList es) := by
  apply Expr.induct <;> intros <;>
    simp_all [Expr.numLets, Expr.letVars, Expr.numLetsList, Expr.letVarsList] <;> omega

theorem Expr.length_letVars (e : Expr) : e.letVars.length = e.numLets :=
  Expr.length_letVars_both.1 e

theorem Expr.events_rename_both (σ : mnm.Var → mnm.Var) :
    (∀ e : Expr, (e.rename σ).events = e.events.map (Event.map σ)) ∧
    (∀ es : List Expr,
      Expr.eventsList (Expr.renameList σ es) = (Expr.eventsList es).map (Event.map σ)) := by
  apply Expr.induct <;> intros <;>
    simp_all [Expr.rename, Expr.events, Expr.renameList, Expr.eventsList, Event.map,
      Function.comp_def]

theorem Expr.events_rename (σ : mnm.Var → mnm.Var) (e : Expr) :
    (e.rename σ).events = e.events.map (Event.map σ) := (Expr.events_rename_both σ).1 e

theorem Expr.letVars_events_both :
    (∀ e : Expr, e.letVars = e.events.filterMap Event.bound) ∧
    (∀ es : List Expr, Expr.letVarsList es = (Expr.eventsList es).filterMap Event.bound) := by
  apply Expr.induct <;> intros <;>
    simp_all [Expr.events, Expr.letVars, Expr.eventsList, Expr.letVarsList, Event.bound,
      List.filterMap_append, List.filterMap_map, Function.comp_def]

theorem Expr.letVars_events (e : Expr) : e.letVars = e.events.filterMap Event.bound :=
  Expr.letVars_events_both.1 e

theorem Expr.rename_congr_both (σ τ : mnm.Var → mnm.Var) :
    (∀ e : Expr, (∀ ev ∈ e.events, σ ev.var = τ ev.var) → e.rename σ = e.rename τ) ∧
    (∀ es : List Expr, (∀ ev ∈ Expr.eventsList es, σ ev.var = τ ev.var) →
      Expr.renameList σ es = Expr.renameList τ es) := by
  apply Expr.induct
  case hVar =>
    intro v h
    have hv := h (.use v) (by simp [Expr.events])
    simp only [Event.var] at hv
    simp only [Expr.rename, hv]
  case hConstant => intros; rfl
  case hGlobalVar => intros; rfl
  case hOp => intros; rfl
  case hTuple => intro fields ih h; simp only [Expr.rename, ih h]
  case hCall =>
    intro op args attrs ihop ihargs h
    simp only [Expr.events, List.mem_append] at h
    simp only [Expr.rename, ihop (fun ev hev => h ev (Or.inl hev)),
      ihargs (fun ev hev => h ev (Or.inr hev))]
  case hLet =>
    intro var value body ihv ihb h
    simp only [Expr.events, List.mem_cons, List.mem_append] at h
    have hvar := h (.bind var) (Or.inl rfl)
    simp only [Event.var] at hvar
    simp only [Expr.rename, hvar, ihv (fun ev hev => h ev (Or.inr (Or.inl hev))),
      ihb (fun ev hev => h ev (Or.inr (Or.inr hev)))]
  case hIf =>
    intro c t f ihc iht ihf h
    simp only [Expr.events, List.mem_append] at h
    simp only [Expr.rename, ihc (fun ev hev => h ev (Or.inl hev)),
      iht (fun ev hev => h ev (Or.inr (Or.inl hev))),
      ihf (fun ev hev => h ev (Or.inr (Or.inr hev)))]
  case hTupleGetItem => intro t i ih h; simp only [Expr.rename, ih h]
  case hFunction =>
    intro params body ret_type type_params attrs ih h
    simp only [Expr.events, List.mem_append, List.mem_map] at h
    have hp0 : ∀ p ∈ params, σ p = τ p := fun p hp => h (.use p) (Or.inl ⟨p, hp, rfl⟩)
    have hp : params.map σ = params.map τ := List.map_congr_left hp0
    simp only [Expr.rename, hp, ih (fun ev hev => h ev (Or.inr hev))]
  case hRefCreate => intro v ih h; simp only [Expr.rename, ih h]
  case hRefRead => intro r ih h; simp only [Expr.rename, ih h]
  case hRefWrite =>
    intro r v ihr ihv h
    simp only [Expr.events, List.mem_append] at h
    simp only [Expr.rename, ihr (fun ev hev => h ev (Or.inl hev)),
      ihv (fun ev hev => h ev (Or.inr hev))]
  case hNil => intros; rfl
  case hCons =>
    intro e es ihe ihes h
    simp only [Expr.eventsList, List.mem_append] at h
    simp only [Expr.renameList, ihe (fun ev hev => h ev (Or.inl hev)),
      ihes (fun ev hev => h ev (Or.inr hev))]

theorem Expr.rename_congr {σ τ : mnm.Var → mnm.Var} {e : Expr}
    (h : ∀ ev ∈ e.events, σ ev.var = τ ev.var) : e.rename σ = e.rename τ :=
  (Expr.rename_congr_both σ τ).1 e h

theorem Expr.rename_rename_both (σ τ : mnm.Var → mnm.Var) :
    (∀ e : Expr, (e.rename σ).rename τ = e.rename (fun v => τ (σ v))) ∧
    (∀ es : List Expr,
      Expr.renameList τ (Expr.renameList σ es) = Expr.renameList (fun v => τ (σ v)) es) := by
  apply Expr.induct <;> intros <;>
    simp_all [Expr.rename, Expr.renameList, Function.comp_def]

theorem Expr.rename_rename (σ τ : mnm.Var → mnm.Var) (e : Expr) :
    (e.rename σ).rename τ = e.rename (fun v => τ (σ v)) := (Expr.rename_rename_both σ τ).1 e

theorem Expr.eventsIn_false_both :
    (∀ e : Expr, e.eventsIn false = e.events) ∧
    (∀ es : List Expr, Expr.eventsInList false es = Expr.eventsList es) := by
  apply Expr.induct <;> intros <;>
    simp_all [Expr.eventsIn, Expr.events, Expr.eventsInList, Expr.eventsList]

theorem Expr.eventsIn_false (e : Expr) : e.eventsIn false = e.events :=
  Expr.eventsIn_false_both.1 e

/-- The positions reached in either order are the same positions. -/
theorem Expr.eventsIn_perm_both (o : Bool) :
    (∀ e : Expr, (e.eventsIn o).Perm e.events) ∧
    (∀ es : List Expr, (Expr.eventsInList o es).Perm (Expr.eventsList es)) := by
  apply Expr.induct
  case hVar => intro v; exact List.Perm.refl _
  case hConstant => intro c; exact List.Perm.refl _
  case hGlobalVar => intro g; exact List.Perm.refl _
  case hOp => intro name; exact List.Perm.refl _
  case hTuple => intro fields ih; exact ih
  case hCall => intro op args attrs ihop ihargs; exact ihop.append ihargs
  case hLet =>
    intro var value body ihv ihb
    cases o with
    | false =>
      simp only [Expr.eventsIn, Expr.events, Bool.false_eq_true, if_false]
      exact (ihv.append ihb).cons _
    | true =>
      simp only [Expr.eventsIn, Expr.events, if_true]
      exact (List.perm_append_comm.trans (ihv.append ihb)).cons _
  case hIf => intro c t f ihc iht ihf; exact ihc.append (iht.append ihf)
  case hTupleGetItem => intro t i ih; exact ih
  case hFunction =>
    intro params body ret_type type_params attrs ih
    exact (List.Perm.refl _).append ih
  case hRefCreate => intro v ih; exact ih
  case hRefRead => intro r ih; exact ih
  case hRefWrite => intro r v ihr ihv; exact ihr.append ihv
  case hNil => exact List.Perm.refl _
  case hCons => intro e es ihe ihes; exact ihe.append ihes

theorem Expr.mem_eventsIn (o : Bool) (e : Expr) (ev : Event) :
    ev ∈ e.eventsIn o ↔ ev ∈ e.events := ((Expr.eventsIn_perm_both o).1 e).mem_iff

theorem Expr.eventsIn_rename_both (o : Bool) (σ : mnm.Var → mnm.Var) :
    (∀ e : Expr, (e.rename σ).eventsIn o = (e.eventsIn o).map (Event.map σ)) ∧
    (∀ es : List Expr, Expr.eventsInList o (Expr.renameList σ es) =
      (Expr.eventsInList o es).map (Event.map σ)) := by
  apply Expr.induct <;> intros <;> cases o <;>
    simp_all [Expr.rename, Expr.eventsIn, Expr.renameList, Expr.eventsInList, Event.map,
      Function.comp_def]

theorem Expr.eventsIn_rename (o : Bool) (σ : mnm.Var → mnm.Var) (e : Expr) :
    (e.rename σ).eventsIn o = (e.eventsIn o).map (Event.map σ) :=
  (Expr.eventsIn_rename_both o σ).1 e

theorem Event.filterMap_bound_map (σ : Var → Var) (l : List Event) :
    (l.map (Event.map σ)).filterMap Event.bound = (l.filterMap Event.bound).map σ := by
  induction l with
  | nil => rfl
  | cons ev l ih => cases ev <;> simp [Event.map, Event.bound, ih]

theorem Expr.letVarsIn_false (e : Expr) : e.letVarsIn false = e.letVars := by
  rw [Expr.letVarsIn, Expr.eventsIn_false, Expr.letVars_events]

theorem Expr.letVarsIn_perm (o : Bool) (e : Expr) : (e.letVarsIn o).Perm e.letVars := by
  rw [Expr.letVarsIn, Expr.letVars_events]
  exact ((Expr.eventsIn_perm_both o).1 e).filterMap _

theorem Expr.length_letVarsIn (o : Bool) (e : Expr) : (e.letVarsIn o).length = e.numLets := by
  rw [(Expr.letVarsIn_perm o e).length_eq, Expr.length_letVars]

theorem Expr.letVarsIn_rename (o : Bool) (σ : mnm.Var → mnm.Var) (e : Expr) :
    (e.rename σ).letVarsIn o = (e.letVarsIn o).map σ := by
  rw [Expr.letVarsIn, Expr.eventsIn_rename, Event.filterMap_bound_map]
  rfl

/-! ### `RenameVarsMutator`: the run along the variable positions -/

namespace RenameVarsMutator

theorem run_append (a b : List Event) (st : RenameVarsMutator) :
    run (a ++ b) st = (run a st).bind (run b) := by
  induction a generalizing st with
  | nil => rfl
  | cons ev evs ih =>
    simp only [List.cons_append, run]
    cases st.step ev with
    | error err => rfl
    | ok st1 => exact ih st1

theorem step_extends {st st1 : RenameVarsMutator} {ev : Event} (h : st.step ev = .ok st1) :
    st.var_map.Extends st1.var_map := by
  cases ev with
  | use v =>
    simp only [step] at h
    split at h
    · cases h; exact VarMap.Extends.refl _
    · cases h
  | bind v =>
    simp only [step] at h
    split at h
    · cases h
    · rename_i hc
      cases h
      exact VarMap.Extends_Set _ _ _ ((VarMap.count_eq_zero _ _).1 hc)

theorem run_extends {evs : List Event} {st st1 : RenameVarsMutator} (h : run evs st = .ok st1) :
    st.var_map.Extends st1.var_map := by
  induction evs generalizing st with
  | nil => cases h; exact VarMap.Extends.refl _
  | cons ev evs ih =>
    simp only [run] at h
    cases hs : st.step ev with
    | error err => rw [hs] at h; cases h
    | ok st2 =>
      rw [hs] at h
      exact (step_extends hs).trans (ih h)

theorem step_covers {st st1 : RenameVarsMutator} {ev : Event} (h : st.step ev = .ok st1) :
    ∃ w, st1.var_map ev.var = some w := by
  cases ev with
  | use v =>
    simp only [step] at h
    split at h
    · rename_i w hw; cases h; exact ⟨w, hw⟩
    · cases h
  | bind v =>
    simp only [step] at h
    split at h
    · cases h
    · cases h
      exact ⟨_, VarMap.Set_self _ _ _⟩

theorem run_covers {evs : List Event} {st st1 : RenameVarsMutator} (h : run evs st = .ok st1) :
    ∀ ev ∈ evs, ∃ w, st1.var_map ev.var = some w := by
  induction evs generalizing st with
  | nil => intro ev hev; cases hev
  | cons ev evs ih =>
    simp only [run] at h
    cases hs : st.step ev with
    | error err => rw [hs] at h; cases h
    | ok st2 =>
      rw [hs] at h
      intro ev' hev'
      rcases List.mem_cons.1 hev' with rfl | hmem
      · obtain ⟨w, hw⟩ := step_covers hs
        exact ⟨w, run_extends h _ _ hw⟩
      · exact ih h ev' hmem

theorem MutateParams_state (st : RenameVarsMutator) (ps : List Var) :
    (st.MutateParams ps).map (fun _ => st) = run (ps.map Event.use) st := by
  induction ps with
  | nil => rfl
  | cons p ps ih =>
    simp only [MutateParams, List.map_cons, run, step, VisitVar, VarMap.at]
    cases hp : st.var_map p with
    | none => rfl
    | some w =>
      simp only [bind, Except.bind]
      rw [← ih]
      cases st.MutateParams ps <;> rfl

theorem MutateParams_output {st : RenameVarsMutator} {ps ps' : List Var}
    (h : st.MutateParams ps = .ok ps') (m : VarMap Var) (hm : st.var_map.Extends m) :
    ps' = ps.map m.lookup := by
  induction ps generalizing ps' with
  | nil => cases h; rfl
  | cons p ps ih =>
    simp only [MutateParams, VisitVar, VarMap.at] at h
    cases hp : st.var_map p with
    | none => rw [hp] at h; cases h
    | some w =>
      rw [hp] at h
      simp only [bind, Except.bind] at h
      cases hq : st.MutateParams ps with
      | error err => rw [hq] at h; cases h
      | ok qs =>
        rw [hq] at h
        cases h
        simp only [List.map_cons, pure, Except.pure]
        rw [← ih hq, VarMap.lookup_of_eq (hm _ _ hp)]

/-- The state that `Mutate` returns, and the error it throws, are those of the
run along the variable positions of the expression. -/
theorem Mutate_state_both (o : Bool) :
    (∀ (e : Expr) (st : RenameVarsMutator), (Mutate o e st).map Prod.snd = run (e.eventsIn o) st) ∧
    (∀ (es : List Expr) (st : RenameVarsMutator),
      (MutateList o es st).map Prod.snd = run (Expr.eventsInList o es) st) := by
  apply Expr.induct
  case hVar =>
    intro v st
    simp only [Mutate, VisitVar, VarMap.at, Expr.eventsIn, run, step]
    cases st.var_map v <;> rfl
  case hConstant => intro c st; rfl
  case hGlobalVar => intro g st; rfl
  case hOp => intro name st; rfl
  case hTuple =>
    intro fields ih st
    simp only [Mutate, Expr.eventsIn]
    rw [← ih st]
    cases MutateList o fields st <;> rfl
  case hCall =>
    intro op args attrs ihop ihargs st
    simp only [Mutate, Expr.eventsIn, run_append]
    rw [← ihop st]
    cases Mutate o op st with
    | error err => rfl
    | ok p =>
      obtain ⟨op', st1⟩ := p
      simp only [bind, Except.bind, Except.map]
      rw [← ihargs st1]
      cases MutateList o args st1 <;> rfl
  case hLet =>
    intro var value body ihv ihb st
    cases o with
    | false =>
      simp only [Mutate, Expr.eventsIn, run, step, Bool.false_eq_true, if_false]
      split
      · rfl
      · simp only [run_append]
        rw [← ihv]
        cases Mutate false value _ with
        | error err => rfl
        | ok p =>
          obtain ⟨value', st2⟩ := p
          simp only [bind, Except.bind, Except.map]
          rw [← ihb st2]
          cases Mutate false body st2 <;> rfl
    | true =>
      simp only [Mutate, Expr.eventsIn, run, step, if_true]
      split
      · rfl
      · simp only [run_append]
        rw [← ihb]
        cases Mutate true body _ with
        | error err => rfl
        | ok p =>
          obtain ⟨body', st2⟩ := p
          simp only [bind, Except.bind, Except.map]
          rw [← ihv st2]
          cases Mutate true value st2 <;> rfl
  case hIf =>
    intro c t f ihc iht ihf st
    simp only [Mutate, Expr.eventsIn, run_append]
    rw [← ihc st]
    cases Mutate o c st with
    | error err => rfl
    | ok p =>
      obtain ⟨c', st1⟩ := p
      simp only [bind, Except.bind, Except.map]
      rw [run_append, ← iht st1]
      cases Mutate o t st1 with
      | error err => rfl
      | ok p =>
        obtain ⟨t', st2⟩ := p
        simp only [bind, Except.bind, Except.map]
        rw [← ihf st2]
        cases Mutate o f st2 <;> rfl
  case hTupleGetItem =>
    intro t i ih st
    simp only [Mutate, Expr.eventsIn]
    rw [← ih st]
    cases Mutate o t st <;> rfl
  case hFunction =>
    intro params body ret_type type_params attrs ih st
    simp only [Mutate, Expr.eventsIn, run_append]
    rw [← MutateParams_state]
    cases st.MutateParams params with
    | error err => rfl
    | ok ps =>
      simp only [bind, Except.bind, Except.map]
      rw [← ih st]
      cases Mutate o body st <;> rfl
  case hRefCreate =>
    intro v ih st
    simp only [Mutate, Expr.eventsIn]
    rw [← ih st]
    cases Mutate o v st <;> rfl
  case hRefRead =>
    intro r ih st
    simp only [Mutate, Expr.eventsIn]
    rw [← ih st]
    cases Mutate o r st <;> rfl
  case hRefWrite =>
    intro r v ihr ihv st
    simp only [Mutate, Expr.eventsIn, run_append]
    rw [← ihr st]
    cases Mutate o r st with
    | error err => rfl
    | ok p =>
      obtain ⟨r', st1⟩ := p
      simp only [bind, Except.bind, Except.map]
      rw [← ihv st1]
      cases Mutate o v st1 <;> rfl
  case hNil => intro st; rfl
  case hCons =>
    intro e es ihe ihes st
    simp only [MutateList, Expr.eventsInList, run_append]
    rw [← ihe st]
    cases Mutate o e st with
    | error err => rfl
    | ok p =>
      obtain ⟨e', st1⟩ := p
      simp only [bind, Except.bind, Except.map]
      rw [← ihes st1]
      cases MutateList o es st1 <;> rfl

theorem Mutate_state (o : Bool) (e : Expr) (st : RenameVarsMutator) :
    (Mutate o e st).map Prod.snd = run (e.eventsIn o) st := (Mutate_state_both o).1 e st

theorem Mutate_run {o : Bool} {e e' : Expr} {st st' : RenameVarsMutator} (h : Mutate o e st = .ok (e', st')) :
    run (e.eventsIn o) st = .ok st' := by
  rw [← Mutate_state, h]; rfl

theorem MutateList_run {o : Bool} {es es' : List Expr} {st st' : RenameVarsMutator}
    (h : MutateList o es st = .ok (es', st')) : run (Expr.eventsInList o es) st = .ok st' := by
  rw [← (Mutate_state_both o).2, h]; rfl

theorem Mutate_extends {o : Bool} {e e' : Expr} {st st' : RenameVarsMutator}
    (h : Mutate o e st = .ok (e', st')) : st.var_map.Extends st'.var_map :=
  run_extends (Mutate_run h)

theorem MutateList_extends {o : Bool} {es es' : List Expr} {st st' : RenameVarsMutator}
    (h : MutateList o es st = .ok (es', st')) : st.var_map.Extends st'.var_map :=
  run_extends (MutateList_run h)

/-- The expression that `Mutate` returns is the input renamed by the map of any
later state. -/
theorem Mutate_output_both (o : Bool) :
    (∀ (e : Expr) (st : RenameVarsMutator) (e' : Expr) (st' : RenameVarsMutator),
      Mutate o e st = .ok (e', st') → ∀ m : VarMap Var, st'.var_map.Extends m →
        e' = e.rename m.lookup) ∧
    (∀ (es : List Expr) (st : RenameVarsMutator) (es' : List Expr) (st' : RenameVarsMutator),
      MutateList o es st = .ok (es', st') → ∀ m : VarMap Var, st'.var_map.Extends m →
        es' = Expr.renameList m.lookup es) := by
  apply Expr.induct
  case hVar =>
    intro v st e' st' h m hm
    simp only [Mutate, VisitVar, VarMap.at] at h
    cases hv : st.var_map v with
    | none => rw [hv] at h; cases h
    | some w =>
      rw [hv] at h
      cases h
      simp only [Expr.rename, VarMap.lookup_of_eq (hm _ _ hv)]
  case hConstant => intro c st e' st' h m hm; cases h; rfl
  case hGlobalVar => intro g st e' st' h m hm; cases h; rfl
  case hOp => intro name st e' st' h m hm; cases h; rfl
  case hTuple =>
    intro fields ih st e' st' h m hm
    simp only [Mutate] at h
    obtain ⟨⟨fs', st1⟩, h1, h⟩ := bind_ok_inv h
    cases h
    simp only [Expr.rename, ih st _ _ h1 m hm]
  case hCall =>
    intro op args attrs ihop ihargs st e' st' h m hm
    simp only [Mutate] at h
    obtain ⟨⟨op', st1⟩, h1, h⟩ := bind_ok_inv h
    obtain ⟨⟨args', st2⟩, h2, h⟩ := bind_ok_inv h
    cases h
    simp only [Expr.rename, ihop st _ _ h1 m ((MutateList_extends h2).trans hm),
      ihargs st1 _ _ h2 m hm]
  case hLet =>
    intro var value body ihv ihb st e' st' h m hm
    cases o with
    | false =>
      simp only [Mutate, Bool.false_eq_true, if_false] at h
      split at h
      · cases h
      · obtain ⟨⟨value', st2⟩, h1, h⟩ := bind_ok_inv h
        obtain ⟨⟨body', st3⟩, h2, h⟩ := bind_ok_inv h
        cases h
        have e23 := (Mutate_extends h2).trans hm
        have e13 := (Mutate_extends h1).trans e23
        simp only [Expr.rename, ihv _ _ _ h1 m e23, ihb _ _ _ h2 m hm,
          VarMap.lookup_of_eq (e13 _ _ (VarMap.Set_self _ _ _))]
    | true =>
      simp only [Mutate, if_true] at h
      split at h
      · cases h
      · obtain ⟨⟨body', st2⟩, h1, h⟩ := bind_ok_inv h
        obtain ⟨⟨value', st3⟩, h2, h⟩ := bind_ok_inv h
        cases h
        have e23 := (Mutate_extends h2).trans hm
        have e13 := (Mutate_extends h1).trans e23
        simp only [Expr.rename, ihb _ _ _ h1 m e23, ihv _ _ _ h2 m hm,
          VarMap.lookup_of_eq (e13 _ _ (VarMap.Set_self _ _ _))]
  case hIf =>
    intro c t f ihc iht ihf st e' st' h m hm
    simp only [Mutate] at h
    obtain ⟨⟨c', st1⟩, h1, h⟩ := bind_ok_inv h
    obtain ⟨⟨t', st2⟩, h2, h⟩ := bind_ok_inv h
    obtain ⟨⟨f', st3⟩, h3, h⟩ := bind_ok_inv h
    cases h
    have e2 := (Mutate_extends h3).trans hm
    have e1 := (Mutate_extends h2).trans e2
    simp only [Expr.rename, ihc _ _ _ h1 m e1, iht _ _ _ h2 m e2, ihf _ _ _ h3 m hm]
  case hTupleGetItem =>
    intro t i ih st e' st' h m hm
    simp only [Mutate] at h
    obtain ⟨⟨t', st1⟩, h1, h⟩ := bind_ok_inv h
    cases h
    simp only [Expr.rename, ih st _ _ h1 m hm]
  case hFunction =>
    intro params body ret_type type_params attrs ih st e' st' h m hm
    simp only [Mutate] at h
    obtain ⟨ps', h1, h⟩ := bind_ok_inv h
    obtain ⟨⟨body', st1⟩, h2, h⟩ := bind_ok_inv h
    cases h
    simp only [Expr.rename, ih st _ _ h2 m hm,
      MutateParams_output h1 m ((Mutate_extends h2).trans hm)]
  case hRefCreate =>
    intro v ih st e' st' h m hm
    simp only [Mutate] at h
    obtain ⟨⟨v', st1⟩, h1, h⟩ := bind_ok_inv h
    cases h
    simp only [Expr.rename, ih st _ _ h1 m hm]
  case hRefRead =>
    intro r ih st e' st' h m hm
    simp only [Mutate] at h
    obtain ⟨⟨r', st1⟩, h1, h⟩ := bind_ok_inv h
    cases h
    simp only [Expr.rename, ih st _ _ h1 m hm]
  case hRefWrite =>
    intro r v ihr ihv st e' st' h m hm
    simp only [Mutate] at h
    obtain ⟨⟨r', st1⟩, h1, h⟩ := bind_ok_inv h
    obtain ⟨⟨v', st2⟩, h2, h⟩ := bind_ok_inv h
    cases h
    simp only [Expr.rename, ihr _ _ _ h1 m ((Mutate_extends h2).trans hm), ihv _ _ _ h2 m hm]
  case hNil => intro st es' st' h m hm; cases h; rfl
  case hCons =>
    intro e es ihe ihes st es' st' h m hm
    simp only [MutateList] at h
    obtain ⟨⟨e', st1⟩, h1, h⟩ := bind_ok_inv h
    obtain ⟨⟨es1, st2⟩, h2, h⟩ := bind_ok_inv h
    cases h
    simp only [Expr.renameList, ihe _ _ _ h1 m ((MutateList_extends h2).trans hm),
      ihes _ _ _ h2 m hm]

theorem Mutate_output {o : Bool} {e e' : Expr} {st st' : RenameVarsMutator}
    (h : Mutate o e st = .ok (e', st')) : e' = e.rename st'.var_map.lookup :=
  (Mutate_output_both o).1 e st e' st' h _ (VarMap.Extends.refl _)

end RenameVarsMutator

/-- The result of `RenameVars`, when there is one, is the input renamed by the
final `var_map`, and the final state is that of the run along the variable
positions. -/
theorem RenameVars_ok {o : Bool} {e e' : Expr} {T : List (String × Var)} {heap : Nat}
    (h : RenameVars o e T heap = .ok e') :
    ∃ st', RenameVarsMutator.run (e.eventsIn o) (RenameVarsMutator.new T heap) = .ok st' ∧
      e' = e.rename st'.var_map.lookup := by
  unfold RenameVars at h
  obtain ⟨⟨e1, st'⟩, h1, h2⟩ := map_ok_inv h
  cases h2
  exact ⟨st', RenameVarsMutator.Mutate_run h1, RenameVarsMutator.Mutate_output h1⟩

/-- The pass `RenameVars` fails exactly when the run along the variable positions does,
and with the same error. -/
theorem RenameVars_error {o : Bool} {e : Expr} {T : List (String × Var)} {heap : Nat} {err : Err} :
    RenameVars o e T heap = .error err ↔
      RenameVarsMutator.run (e.eventsIn o) (RenameVarsMutator.new T heap) = .error err := by
  unfold RenameVars
  rw [← RenameVarsMutator.Mutate_state]
  cases RenameVarsMutator.Mutate o e (RenameVarsMutator.new T heap) with
  | error e1 => simp [Except.map]
  | ok p => simp [Except.map]

/-! ### The constructor of `RenameVarsMutator` -/

namespace RenameVarsMutator

/-- The constructor loop from an arbitrary state. -/
theorem new_foldl_fields (T : List (String × Var)) (st0 : RenameVarsMutator) :
    (T.foldl (fun st iter =>
        ({ st with var_map := st.var_map.Set iter.2 ⟨st.heap, iter.1⟩, heap := st.heap + 1 } :
          RenameVarsMutator)) st0).num_bound_var = st0.num_bound_var ∧
    (T.foldl (fun st iter =>
        ({ st with var_map := st.var_map.Set iter.2 ⟨st.heap, iter.1⟩, heap := st.heap + 1 } :
          RenameVarsMutator)) st0).heap = st0.heap + T.length := by
  induction T generalizing st0 with
  | nil => exact ⟨rfl, rfl⟩
  | cons x T ih =>
    simp only [List.foldl_cons, List.length_cons]
    obtain ⟨h1, h2⟩ := ih { st0 with var_map := st0.var_map.Set x.2 ⟨st0.heap, x.1⟩,
                                     heap := st0.heap + 1 }
    refine ⟨h1, ?_⟩
    rw [h2]
    simp only
    omega

theorem new_num_bound_var (T : List (String × Var)) (heap : Nat) :
    (new T heap).num_bound_var = 0 := (new_foldl_fields T _).1

theorem new_heap (T : List (String × Var)) (heap : Nat) :
    (new T heap).heap = heap + T.length := (new_foldl_fields T _).2

theorem new_foldl_some (T : List (String × Var)) (st0 : RenameVarsMutator) (v w : Var)
    (h : (T.foldl (fun st iter =>
        ({ st with var_map := st.var_map.Set iter.2 ⟨st.heap, iter.1⟩, heap := st.heap + 1 } :
          RenameVarsMutator)) st0).var_map v = some w) :
    st0.var_map v = some w ∨
      ((w.name_hint, v) ∈ T ∧ (w.name_hint, w) ∈ outputTable T st0.heap) := by
  induction T generalizing st0 with
  | nil => exact Or.inl h
  | cons x T ih =>
    simp only [List.foldl_cons] at h
    rcases ih _ h with h1 | ⟨h1, h2⟩
    · simp only [VarMap.Set] at h1
      split at h1
      · rename_i hv
        cases h1
        subst hv
        right
        exact ⟨List.mem_cons_self _ _, by simp [outputTable]⟩
      · exact Or.inl h1
    · right
      exact ⟨List.mem_cons_of_mem _ h1, by simp only [outputTable]; exact List.mem_cons_of_mem _ h2⟩

theorem new_foldl_dom (T : List (String × Var)) (st0 : RenameVarsMutator) (v : Var)
    (h : (st0.var_map v).isSome = true ∨ v ∈ tableVars T) :
    ((T.foldl (fun st iter =>
        ({ st with var_map := st.var_map.Set iter.2 ⟨st.heap, iter.1⟩, heap := st.heap + 1 } :
          RenameVarsMutator)) st0).var_map v).isSome = true := by
  induction T generalizing st0 with
  | nil =>
    rcases h with h | h
    · exact h
    · cases h
  | cons x T ih =>
    simp only [List.foldl_cons]
    apply ih
    rcases h with h | h
    · left
      simp only [VarMap.Set]
      split
      · rfl
      · exact h
    · simp only [tableVars, List.map_cons, List.mem_cons] at h
      rcases h with h | h
      · left; subst h; simp [VarMap.Set]
      · right; exact h

/-- An entry of the initial `var_map` comes from a table entry: the key is the
listed variable and the value the node made for that entry, which carries the
entry's name. -/
theorem new_some {T : List (String × Var)} {heap : Nat} {v w : Var}
    (h : (new T heap).var_map v = some w) :
    (w.name_hint, v) ∈ T ∧ (w.name_hint, w) ∈ outputTable T heap := by
  rcases new_foldl_some T _ v w h with h1 | h1
  · cases h1
  · exact h1

/-- Every listed variable is a key of the initial `var_map`. -/
theorem new_dom {T : List (String × Var)} (heap : Nat) {v : Var} (h : v ∈ tableVars T) :
    ((new T heap).var_map v).isSome = true :=
  new_foldl_dom T _ v (Or.inr h)

theorem new_none {T : List (String × Var)} {heap : Nat} {v : Var} (h : v ∉ tableVars T) :
    (new T heap).var_map v = none := by
  cases hv : (new T heap).var_map v with
  | none => rfl
  | some w =>
    exfalso
    apply h
    have := (new_some hv).1
    exact List.mem_map.2 ⟨_, this, rfl⟩

end RenameVarsMutator

theorem outputTable_mem {T : List (String × Var)} {heap : Nat} {s : String} {w : Var}
    (h : (s, w) ∈ outputTable T heap) :
    w.name_hint = s ∧ heap ≤ w.vid ∧ w.vid < heap + T.length := by
  induction T generalizing heap with
  | nil => cases h
  | cons x T ih =>
    simp only [outputTable, List.mem_cons, Prod.mk.injEq] at h
    rcases h with ⟨h1, h2⟩ | h
    · subst h2
      simp [h1]
    · obtain ⟨a, b, c⟩ := ih h
      refine ⟨a, by omega, ?_⟩
      simp only [List.length_cons]
      omega

/-! ### Runs: names, duplicate binders, unbound uses -/

namespace RenameVarsMutator

theorem step_use {st st1 : RenameVarsMutator} {v : Var} (h : st.step (.use v) = .ok st1) :
    st1 = st ∧ (st.var_map v).isSome = true := by
  simp only [step] at h
  split at h
  · rename_i w hw; cases h; exact ⟨rfl, by simp [hw]⟩
  · cases h

theorem step_bind {st st1 : RenameVarsMutator} {v : Var} (h : st.step (.bind v) = .ok st1) :
    st.var_map v = none ∧
    st1 = { num_bound_var := st.num_bound_var + 1
            var_map := st.var_map.Set v ⟨st.heap, "a" ++ toString (st.num_bound_var + 1)⟩
            heap := st.heap + 1 } := by
  simp only [step] at h
  split at h
  · cases h
  · rename_i hc
    cases h
    exact ⟨(VarMap.count_eq_zero _ _).1 hc, rfl⟩

theorem run_cons_ok {ev : Event} {evs : List Event} {st st' : RenameVarsMutator}
    (h : run (ev :: evs) st = .ok st') : ∃ st1, st.step ev = .ok st1 ∧ run evs st1 = .ok st' := by
  simp only [run] at h
  cases hs : st.step ev with
  | error err => rw [hs] at h; cases h
  | ok st1 => rw [hs] at h; exact ⟨st1, rfl, h⟩

/-- Along a run the binders get the names `a(n+1)`, `a(n+2)`, ... in order,
where `n` is the counter at the start. -/
theorem run_names {evs : List Event} {st st' : RenameVarsMutator} (h : run evs st = .ok st') :
    (evs.filterMap Event.bound).map (fun v => (st'.var_map.lookup v).name_hint) =
      (List.range (evs.filterMap Event.bound).length).map
        (fun k => "a" ++ toString (st.num_bound_var + (k + 1))) := by
  induction evs generalizing st with
  | nil => rfl
  | cons ev evs ih =>
    obtain ⟨st1, hs, hr⟩ := run_cons_ok h
    cases ev with
    | use v =>
      obtain ⟨h1, _⟩ := step_use hs
      subst h1
      simpa [Event.bound] using ih hr
    | bind v =>
      obtain ⟨_, h1⟩ := step_bind hs
      have hv : st1.var_map v = some ⟨st.heap, "a" ++ toString (st.num_bound_var + 1)⟩ := by
        rw [h1]; exact VarMap.Set_self _ _ _
      have hl := VarMap.lookup_of_eq (run_extends hr _ _ hv)
      have ih' := ih hr
      simp only [List.filterMap_cons, Event.bound, List.map_cons, List.length_cons,
        List.range_succ_eq_map, hl, ih']
      simp only [List.map_map, List.cons.injEq, true_and, Nat.zero_add]
      apply List.map_congr_left
      intro k _
      simp only [Function.comp, h1]
      congr 2
      omega

/-- A run that goes through binds each variable once, and none that was in the
map at the start. -/
theorem run_ok_nodup {evs : List Event} {st st' : RenameVarsMutator} (h : run evs st = .ok st') :
    (evs.filterMap Event.bound).Nodup ∧ ∀ v ∈ evs.filterMap Event.bound, st.var_map v = none := by
  induction evs generalizing st with
  | nil => exact ⟨List.nodup_nil, fun v hv => by cases hv⟩
  | cons ev evs ih =>
    obtain ⟨st1, hs, hr⟩ := run_cons_ok h
    cases ev with
    | use v =>
      obtain ⟨h1, _⟩ := step_use hs
      subst h1
      simpa [Event.bound] using ih hr
    | bind v =>
      obtain ⟨hn, h1⟩ := step_bind hs
      obtain ⟨ihn, ihd⟩ := ih hr
      have hv : st1.var_map v = some ⟨st.heap, "a" ++ toString (st.num_bound_var + 1)⟩ := by
        rw [h1]; exact VarMap.Set_self _ _ _
      have hnot : v ∉ evs.filterMap Event.bound := by
        intro hmem
        rw [ihd v hmem] at hv
        cases hv
      simp only [List.filterMap_cons, Event.bound]
      refine ⟨List.nodup_cons.2 ⟨hnot, ihn⟩, ?_⟩
      intro v' hv'
      rcases List.mem_cons.1 hv' with rfl | hmem
      · exact hn
      · have := ihd v' hmem
        rw [h1] at this
        have hne : v' ≠ v := fun e => hnot (e ▸ hmem)
        simpa [VarMap.Set, hne] using this

/-- A run throws the duplicate-binding error only when a variable is bound
twice, or is bound while it is in the map at the start. -/
theorem run_bindTwice {evs : List Event} {st : RenameVarsMutator}
    (h : run evs st = .error .bindTwice) :
    ¬ (evs.filterMap Event.bound).Nodup ∨
      ∃ v ∈ evs.filterMap Event.bound, (st.var_map v).isSome = true := by
  induction evs generalizing st with
  | nil => cases h
  | cons ev evs ih =>
    simp only [run] at h
    cases hs : st.step ev with
    | error err =>
      rw [hs] at h
      cases ev with
      | use v =>
        simp only [step] at hs
        split at hs
        · cases hs
        · cases hs; cases h
      | bind v =>
        simp only [step] at hs
        split at hs
        · rename_i hc
          right
          exact ⟨v, by simp [Event.bound], (VarMap.count_ne_zero _ _).1 hc⟩
        · cases hs
    | ok st1 =>
      rw [hs] at h
      cases ev with
      | use v =>
        obtain ⟨h1, _⟩ := step_use hs
        subst h1
        simpa [Event.bound] using ih h
      | bind v =>
        obtain ⟨hn, h1⟩ := step_bind hs
        simp only [List.filterMap_cons, Event.bound, List.nodup_cons, List.mem_cons]
        rcases ih h with hd | ⟨v', hv', hsome⟩
        · left; exact fun hh => hd hh.2
        · by_cases e : v' = v
          · left; subst e; exact fun hh => hh.1 hv'
          · right
            refine ⟨v', Or.inr hv', ?_⟩
            rw [h1] at hsome
            simpa [VarMap.Set, e] using hsome

/-- In a run that goes through, every use of a variable comes after a binder
of the variable, unless the variable was in the map at the start. -/
theorem run_ok_use {evs : List Event} {st st' : RenameVarsMutator} (h : run evs st = .ok st')
    (pre post : List Event) (v : Var) (hsplit : evs = pre ++ Event.use v :: post) :
    (st.var_map v).isSome = true ∨ Event.bind v ∈ pre := by
  induction evs generalizing st pre with
  | nil => cases pre <;> cases hsplit
  | cons ev evs ih =>
    obtain ⟨st1, hs, hr⟩ := run_cons_ok h
    cases pre with
    | nil =>
      simp only [List.nil_append, List.cons.injEq] at hsplit
      obtain ⟨rfl, _⟩ := hsplit
      exact Or.inl (step_use hs).2
    | cons ev' pre' =>
      simp only [List.cons_append, List.cons.injEq] at hsplit
      obtain ⟨rfl, hrest⟩ := hsplit
      rcases ih hr pre' hrest with h1 | h1
      · cases ev with
        | use u =>
          obtain ⟨e1, _⟩ := step_use hs
          subst e1
          exact Or.inl h1
        | bind u =>
          obtain ⟨_, e1⟩ := step_bind hs
          by_cases e : v = u
          · subst e; exact Or.inr (List.mem_cons_self _ _)
          · left
            rw [e1] at h1
            simpa [VarMap.Set, e] using h1
      · exact Or.inr (List.mem_cons_of_mem _ h1)

end RenameVarsMutator

/-! ### A second run on the output of a first run -/

namespace RenameVarsMutator

/-- A run that goes through can be replayed on the renamed positions from a
state that has the same counter, knows the image of every variable the first
state knows, and knows only nodes made before the first state. -/
theorem run_rerun {evs : List Event} {st st' : RenameVarsMutator} (h : run evs st = .ok st')
    (σ : Var → Var) (hσ : ∀ v w, st'.var_map v = some w → σ v = w)
    (st2 : RenameVarsMutator) (hnum : st2.num_bound_var = st.num_bound_var)
    (hmap : ∀ v w, st.var_map v = some w →
      ∃ w2, st2.var_map w = some w2 ∧ w2.name_hint = w.name_hint)
    (hdom : ∀ w, (st2.var_map w).isSome = true → w.vid < st.heap) :
    ∃ st2', run (evs.map (Event.map σ)) st2 = .ok st2' ∧
      ∀ v w, st'.var_map v = some w →
        ∃ w2, st2'.var_map w = some w2 ∧ w2.name_hint = w.name_hint := by
  induction evs generalizing st st2 with
  | nil =>
    cases h
    exact ⟨st2, rfl, hmap⟩
  | cons ev evs ih =>
    obtain ⟨st1, hs, hr⟩ := run_cons_ok h
    cases ev with
    | use v =>
      obtain ⟨e1, hsome⟩ := step_use hs
      subst e1
      cases hv : st1.var_map v with
      | none => rw [hv] at hsome; cases hsome
      | some w =>
        have hσv : σ v = w := hσ v w (run_extends hr _ _ hv)
        obtain ⟨w2, hw2, _⟩ := hmap v w hv
        obtain ⟨st2', hrun2, hfin⟩ := ih hr st2 hnum hmap hdom
        refine ⟨st2', ?_, hfin⟩
        simp only [List.map_cons, Event.map, run, step, hσv, hw2]
        exact hrun2
    | bind v =>
      obtain ⟨hn, e1⟩ := step_bind hs
      have hv : st1.var_map v = some ⟨st.heap, "a" ++ toString (st.num_bound_var + 1)⟩ := by
        rw [e1]; exact VarMap.Set_self _ _ _
      have hσv : σ v = ⟨st.heap, "a" ++ toString (st.num_bound_var + 1)⟩ :=
        hσ v _ (run_extends hr _ _ hv)
      have hfresh : st2.var_map ⟨st.heap, "a" ++ toString (st.num_bound_var + 1)⟩ = none := by
        cases hq : st2.var_map ⟨st.heap, "a" ++ toString (st.num_bound_var + 1)⟩ with
        | none => rfl
        | some w2 =>
          have := hdom ⟨st.heap, "a" ++ toString (st.num_bound_var + 1)⟩ (by simp [hq])
          simp at this
      have hstep2 : st2.step (.bind ⟨st.heap, "a" ++ toString (st.num_bound_var + 1)⟩) =
          .ok { num_bound_var := st2.num_bound_var + 1
                var_map := st2.var_map.Set ⟨st.heap, "a" ++ toString (st.num_bound_var + 1)⟩
                  ⟨st2.heap, "a" ++ toString (st2.num_bound_var + 1)⟩
                heap := st2.heap + 1 } := by
        simp only [step]
        rw [if_neg ((VarMap.count_eq_zero _ _).2 hfresh)]
      obtain ⟨st2', hrun2, hfin⟩ := ih hr
        { num_bound_var := st2.num_bound_var + 1
          var_map := st2.var_map.Set ⟨st.heap, "a" ++ toString (st.num_bound_var + 1)⟩
            ⟨st2.heap, "a" ++ toString (st2.num_bound_var + 1)⟩
          heap := st2.heap + 1 }
        (by rw [e1]; simp [hnum])
        (by
          intro v' w' hv'
          rw [e1] at hv'
          simp only [VarMap.Set] at hv'
          split at hv'
          · cases hv'
            exact ⟨_, VarMap.Set_self _ _ _, by simp [hnum]⟩
          · obtain ⟨w2, hw2, hname⟩ := hmap v' w' hv'
            refine ⟨w2, ?_, hname⟩
            have hlt := hdom w' (by simp [hw2])
            have hne : w' ≠ ⟨st.heap, "a" ++ toString (st.num_bound_var + 1)⟩ := by
              intro e
              rw [e] at hlt
              simp at hlt
            show (st2.var_map.Set _ _) w' = some w2
            rw [VarMap.Set_other _ _ _ _ hne]
            exact hw2)
        (by
          intro w hw
          rw [e1]
          simp only [VarMap.Set] at hw
          split at hw
          · rename_i e
            rw [e]
            simp
          · have := hdom w hw
            simp only
            omega)
      refine ⟨st2', ?_, hfin⟩
      simp only [List.map_cons, Event.map, run, hσv, hstep2]
      exact hrun2

theorem Mutate_of_run {o : Bool} {e : Expr} {st st' : RenameVarsMutator} (h : run (e.eventsIn o) st = .ok st') :
    Mutate o e st = .ok (e.rename st'.var_map.lookup, st') := by
  rw [← Mutate_state] at h
  cases hm : Mutate o e st with
  | error err => rw [hm] at h; cases h
  | ok p =>
    obtain ⟨e1, s1⟩ := p
    rw [hm] at h
    cases h
    rw [Mutate_output hm]

end RenameVarsMutator

/-! ### `RenameVars`: the claims -/

/-- C3 as stated fails: when the compiled code evaluates the body of a `Let`
before its value (the order of g++), `let x = (let y = 1; y); let z = 2; z`
comes back with the `Let` inside the value named `a3` and the `Let` of the body
named `a2`: in the binding order of the claim the names are `a1`, `a3`, `a2`. -/
theorem RenameVars_let_names_counterexample :
    RenameVars true
        (.Let ⟨7, "x"⟩ (.Let ⟨8, "y"⟩ (.Constant 1) (.Var ⟨8, "y"⟩))
          (.Let ⟨9, "z"⟩ (.Constant 2) (.Var ⟨9, "z"⟩))) [] 0 =
      .ok (.Let ⟨0, "a1"⟩ (.Let ⟨2, "a3"⟩ (.Constant 1) (.Var ⟨2, "a3"⟩))
        (.Let ⟨1, "a2"⟩ (.Constant 2) (.Var ⟨1, "a2"⟩))) ∧
    (Expr.Let ⟨0, "a1"⟩ (.Let ⟨2, "a3"⟩ (.Constant 1) (.Var ⟨2, "a3"⟩))
        (.Let ⟨1, "a2"⟩ (.Constant 2) (.Var ⟨1, "a2"⟩))).letVars.map Var.name_hint =
      ["a1", "a3", "a2"] ∧
    (List.range (Expr.Let ⟨7, "x"⟩ (.Let ⟨8, "y"⟩ (.Constant 1) (.Var ⟨8, "y"⟩))
        (.Let ⟨9, "z"⟩ (.Constant 2) (.Var ⟨9, "z"⟩))).numLets).map
          (fun k => "a" ++ toString (k + 1)) = ["a1", "a2", "a3"] :=
  ⟨rfl, rfl, rfl⟩

/-- C3, amended: when `RenameVars` succeeds, in either order of evaluation, the
let-bound variables of the output, taken in the order in which the mutator
reaches their `Let`s, are named `a1`, `a2`, ..., `an`, where `n` is the number
of `Let` nodes of the input; so in the binding order of the claim their names
are a rearrangement of `a1`, ..., `an`, and they are `a1`, ..., `an` in that very
order when the value is evaluated before the body. -/
theorem RenameVars_let_names (body_first : Bool) (e e' : Expr) (T : List (String × Var))
    (heap : Nat) (h : RenameVars body_first e T heap = .ok e') :
    (e'.letVarsIn body_first).map Var.name_hint =
      (List.range e.numLets).map (fun k => "a" ++ toString (k + 1)) ∧
    (e'.letVars.map Var.name_hint).Perm
      ((List.range e.numLets).map (fun k => "a" ++ toString (k + 1))) ∧
    (body_first = false →
      e'.letVars.map Var.name_hint =
        (List.range e.numLets).map (fun k => "a" ++ toString (k + 1))) := by
  obtain ⟨st', hrun, he'⟩ := RenameVars_ok h
  have hn := RenameVarsMutator.run_names hrun
  rw [RenameVarsMutator.new_num_bound_var] at hn
  have hlen : ((e.eventsIn body_first).filterMap Event.bound).length = e.numLets :=
    Expr.length_letVarsIn body_first e
  rw [hlen] at hn
  have key : (e'.letVarsIn body_first).map Var.name_hint =
      (List.range e.numLets).map (fun k => "a" ++ toString (k + 1)) := by
    rw [he', Expr.letVarsIn_rename, List.map_map]
    simpa [Function.comp_def, Expr.letVarsIn] using hn
  refine ⟨key, ?_, ?_⟩
  · rw [← key]
    exact ((Expr.letVarsIn_perm body_first e').map _).symm
  · intro hb
    subst hb
    rw [← key, Expr.letVarsIn_false]

/-- C3 amended, on `let x = (let y = 1; y); let z = 2; z` with the body
evaluated before the value: the mutator reaches `x`, `z`, `y` in this order. -/
theorem RenameVars_let_names_witness :
    ((Expr.Let ⟨0, "a1"⟩ (.Let ⟨2, "a3"⟩ (.Constant 1) (.Var ⟨2, "a3"⟩))
        (.Let ⟨1, "a2"⟩ (.Constant 2) (.Var ⟨1, "a2"⟩))).letVarsIn true).map Var.name_hint =
      (List.range (Expr.Let ⟨7, "x"⟩ (.Let ⟨8, "y"⟩ (.Constant 1) (.Var ⟨8, "y"⟩))
        (.Let ⟨9, "z"⟩ (.Constant 2) (.Var ⟨9, "z"⟩))).numLets).map
          (fun k => "a" ++ toString (k + 1)) ∧
    ((Expr.Let ⟨0, "a1"⟩ (.Let ⟨2, "a3"⟩ (.Constant 1) (.Var ⟨2, "a3"⟩))
        (.Let ⟨1, "a2"⟩ (.Constant 2) (.Var ⟨1, "a2"⟩))).letVars.map Var.name_hint).Perm
      ((List.range (Expr.Let ⟨7, "x"⟩ (.Let ⟨8, "y"⟩ (.Constant 1) (.Var ⟨8, "y"⟩))
        (.Let ⟨9, "z"⟩ (.Constant 2) (.Var ⟨9, "z"⟩))).numLets).map
          (fun k => "a" ++ toString (k + 1))) ∧
    (true = false →
      (Expr.Let ⟨0, "a1"⟩ (.Let ⟨2, "a3"⟩ (.Constant 1) (.Var ⟨2, "a3"⟩))
        (.Let ⟨1, "a2"⟩ (.Constant 2) (.Var ⟨1, "a2"⟩))).letVars.map Var.name_hint =
      (List.range (Expr.Let ⟨7, "x"⟩ (.Let ⟨8, "y"⟩ (.Constant 1) (.Var ⟨8, "y"⟩))
        (.Let ⟨9, "z"⟩ (.Constant 2) (.Var ⟨9, "z"⟩))).numLets).map
          (fun k => "a" ++ toString (k + 1))) :=
  RenameVars_let_names true
    (.Let ⟨7, "x"⟩ (.Let ⟨8, "y"⟩ (.Constant 1) (.Var ⟨8, "y"⟩))
      (.Let ⟨9, "z"⟩ (.Constant 2) (.Var ⟨9, "z"⟩))) _ [] 0 rfl

/-- C4 as stated fails: the table lists the variable under the names `x` and
`y`.  Its occurrence is replaced by a variable named `y`, not `x`; and when the
iteration over the table meets the entries in the other order, by a variable
named `x`, not `y`. -/
theorem RenameVars_named_counterexample :
    (("x", (⟨5, "p"⟩ : Var)) ∈ [("x", (⟨5, "p"⟩ : Var)), ("y", ⟨5, "p"⟩)] ∧
      RenameVars true (.Var ⟨5, "p"⟩) [("x", ⟨5, "p"⟩), ("y", ⟨5, "p"⟩)] 0 =
        .ok (.Var ⟨1, "y"⟩) ∧
      (⟨1, "y"⟩ : Var).name_hint ≠ "x") ∧
    (("y", (⟨5, "p"⟩ : Var)) ∈ [("y", (⟨5, "p"⟩ : Var)), ("x", ⟨5, "p"⟩)] ∧
      RenameVars true (.Var ⟨5, "p"⟩) [("y", ⟨5, "p"⟩), ("x", ⟨5, "p"⟩)] 0 =
        .ok (.Var ⟨1, "x"⟩) ∧
      (⟨1, "x"⟩ : Var).name_hint ≠ "y") :=
  ⟨⟨by simp, rfl, by decide⟩, ⟨by simp, rfl, by decide⟩⟩

/-- C4, amended: when `RenameVars` succeeds, the output is the input renamed by
one map `σ`; a variable that the table lists under the name `s`, and under no
other name, goes to a variable named exactly `s`; and no table variable gets a
canonical name from the pass: no `Let` of the input binds it and its image is
the node that the constructor made for it. -/
theorem RenameVars_named (body_first : Bool) (e e' : Expr) (T : List (String × Var))
    (heap : Nat) (h : RenameVars body_first e T heap = .ok e') :
    ∃ σ : Var → Var, e' = e.rename σ ∧
      (∀ s v, (s, v) ∈ T → (∀ s', (s', v) ∈ T → s' = s) → (σ v).name_hint = s) ∧
      (∀ v ∈ tableVars T,
        v ∉ e.letVars ∧ some (σ v) = (RenameVarsMutator.new T heap).var_map v) := by
  obtain ⟨st', hrun, he'⟩ := RenameVars_ok h
  have hext := RenameVarsMutator.run_extends hrun
  have key : ∀ v ∈ tableVars T,
      some (st'.var_map.lookup v) = (RenameVarsMutator.new T heap).var_map v := by
    intro v hv
    have hd := RenameVarsMutator.new_dom heap hv
    cases hw : (RenameVarsMutator.new T heap).var_map v with
    | none => rw [hw] at hd; cases hd
    | some w => rw [VarMap.lookup_of_eq (hext _ _ hw)]
  refine ⟨st'.var_map.lookup, he', ?_, ?_⟩
  · intro s v hmem huniq
    have hk := key v (List.mem_map.2 ⟨_, hmem, rfl⟩)
    exact huniq _ (RenameVarsMutator.new_some hk.symm).1
  · intro v hv
    refine ⟨?_, key v hv⟩
    intro hlet
    have hnone := (RenameVarsMutator.run_ok_nodup hrun).2 v
      ((Expr.letVarsIn_perm body_first e).mem_iff.2 hlet)
    have hd := RenameVarsMutator.new_dom heap hv
    rw [hnone] at hd
    cases hd

/-- C4 amended, on `add(p, p)` with the table `p ↦ p`. -/
theorem RenameVars_named_witness :
    ∃ σ : Var → Var,
      Expr.Call (.Op "add") [.Var ⟨0, "p"⟩, .Var ⟨0, "p"⟩] none =
        (Expr.Call (.Op "add") [.Var ⟨5, "q"⟩, .Var ⟨5, "q"⟩] none).rename σ ∧
      (∀ s v, (s, v) ∈ [("p", (⟨5, "q"⟩ : Var))] →
        (∀ s', (s', v) ∈ [("p", (⟨5, "q"⟩ : Var))] → s' = s) → (σ v).name_hint = s) ∧
      (∀ v ∈ tableVars [("p", (⟨5, "q"⟩ : Var))],
        v ∉ (Expr.Call (.Op "add") [.Var ⟨5, "q"⟩, .Var ⟨5, "q"⟩] none).letVars ∧
        some (σ v) = (RenameVarsMutator.new [("p", (⟨5, "q"⟩ : Var))] 0).var_map v) :=
  RenameVars_named true (.Call (.Op "add") [.Var ⟨5, "q"⟩, .Var ⟨5, "q"⟩] none) _
    [("p", ⟨5, "q"⟩)] 0 rfl

/-- C5: `RenameVars` fails on every expression in which two `Let` nodes bind the
same variable, and it does not throw the duplicate-binding error on an
expression in which no variable is bound by two `Let`s and no `Let` binds a
variable of the table. -/
theorem RenameVars_duplicate_binding (body_first : Bool) (e : Expr) (T : List (String × Var))
    (heap : Nat) :
    (¬ e.letVars.Nodup → ∃ err, RenameVars body_first e T heap = .error err) ∧
    (e.letVars.Nodup → (∀ v ∈ e.letVars, v ∉ tableVars T) →
      RenameVars body_first e T heap ≠ .error .bindTwice) := by
  have hperm := Expr.letVarsIn_perm body_first e
  constructor
  · intro hdup
    cases hr : RenameVars body_first e T heap with
    | error err => exact ⟨err, rfl⟩
    | ok e' =>
      exfalso
      obtain ⟨st', hrun, _⟩ := RenameVars_ok hr
      apply hdup
      exact hperm.nodup_iff.1 (RenameVarsMutator.run_ok_nodup hrun).1
  · intro hnd hT herr
    rw [RenameVars_error] at herr
    rcases RenameVarsMutator.run_bindTwice herr with h1 | ⟨v, hv, hsome⟩
    · exact h1 (hperm.nodup_iff.2 hnd)
    · rw [RenameVarsMutator.new_none (hT v (hperm.mem_iff.1 hv))] at hsome
      cases hsome

/-- C5, on `let x = 1; let x = 2; x` (bound twice) and on `let x = 1; x`. -/
theorem RenameVars_duplicate_binding_witness :
    (∃ err, RenameVars true
      (.Let ⟨7, "x"⟩ (.Constant 1) (.Let ⟨7, "x"⟩ (.Constant 2) (.Var ⟨7, "x"⟩)))
      [] 0 = .error err) ∧
    RenameVars true (.Let ⟨7, "x"⟩ (.Constant 1) (.Var ⟨7, "x"⟩)) [("p", ⟨1, "p"⟩)] 0
      ≠ .error .bindTwice :=
  ⟨(RenameVars_duplicate_binding true
      (.Let ⟨7, "x"⟩ (.Constant 1) (.Let ⟨7, "x"⟩ (.Constant 2) (.Var ⟨7, "x"⟩))) [] 0).1
      (by decide),
   (RenameVars_duplicate_binding true (.Let ⟨7, "x"⟩ (.Constant 1) (.Var ⟨7, "x"⟩))
      [("p", ⟨1, "p"⟩)] 0).2 (by decide) (by decide)⟩

/-- C6: when `RenameVars` succeeds, the output is the input with every variable
occurrence (binder, use, parameter) replaced by its image under one map from
input variables to output variables; nothing else changes, and in particular
the number of `Let` nodes is the same. -/
theorem RenameVars_shape (body_first : Bool) (e e' : Expr) (T : List (String × Var))
    (heap : Nat) (h : RenameVars body_first e T heap = .ok e') :
    ∃ σ : Var → Var, e' = e.rename σ ∧ e'.numLets = e.numLets := by
  obtain ⟨st', _, he'⟩ := RenameVars_ok h
  refine ⟨st'.var_map.lookup, he', ?_⟩
  rw [← Expr.length_letVars, ← Expr.length_letVars, he', Expr.letVars_rename, List.length_map]

/-- C6, on `let x = add(p, p); x` with the table `p ↦ p`. -/
theorem RenameVars_shape_witness :
    ∃ σ : Var → Var,
      Expr.Let ⟨1, "a1"⟩ (.Call (.Op "add") [.Var ⟨0, "p"⟩, .Var ⟨0, "p"⟩] none) (.Var ⟨1, "a1"⟩) =
        (Expr.Let ⟨7, "x"⟩ (.Call (.Op "add") [.Var ⟨5, "q"⟩, .Var ⟨5, "q"⟩] none)
          (.Var ⟨7, "x"⟩)).rename σ ∧
      (Expr.Let ⟨1, "a1"⟩ (.Call (.Op "add") [.Var ⟨0, "p"⟩, .Var ⟨0, "p"⟩] none)
          (.Var ⟨1, "a1"⟩)).numLets =
        (Expr.Let ⟨7, "x"⟩ (.Call (.Op "add") [.Var ⟨5, "q"⟩, .Var ⟨5, "q"⟩] none)
          (.Var ⟨7, "x"⟩)).numLets :=
  RenameVars_shape true
    (.Let ⟨7, "x"⟩ (.Call (.Op "add") [.Var ⟨5, "q"⟩, .Var ⟨5, "q"⟩] none) (.Var ⟨7, "x"⟩)) _
    [("p", ⟨5, "q"⟩)] 0 rfl

/-- C8 as stated fails: in `(let x = 0; x, x)` the second `x` is outside the
body of the `Let` that binds it and is not in the (empty) table, and
`RenameVars` succeeds, in either order of evaluation; and when the compiled
code evaluates the body of a `Let` before its value (the order of g++),
`let y = x; let x = 1; y`, where `x` is used before its binding, succeeds
too, while it fails when the value is evaluated first. -/
theorem RenameVars_unbound_counterexample :
    (Expr.Tuple [.Let ⟨7, "x"⟩ (.Constant 0) (.Var ⟨7, "x"⟩), .Var ⟨7, "x"⟩]).inScope
        (tableVars []) = false ∧
    RenameVars false (.Tuple [.Let ⟨7, "x"⟩ (.Constant 0) (.Var ⟨7, "x"⟩), .Var ⟨7, "x"⟩]) [] 0
      = .ok (.Tuple [.Let ⟨0, "a1"⟩ (.Constant 0) (.Var ⟨0, "a1"⟩), .Var ⟨0, "a1"⟩]) ∧
    RenameVars true (.Tuple [.Let ⟨7, "x"⟩ (.Constant 0) (.Var ⟨7, "x"⟩), .Var ⟨7, "x"⟩]) [] 0
      = .ok (.Tuple [.Let ⟨0, "a1"⟩ (.Constant 0) (.Var ⟨0, "a1"⟩), .Var ⟨0, "a1"⟩]) ∧
    (Expr.Let ⟨8, "y"⟩ (.Var ⟨7, "x"⟩) (.Let ⟨7, "x"⟩ (.Constant 1) (.Var ⟨8, "y"⟩))).inScope
        (tableVars []) = false ∧
    RenameVars true
        (.Let ⟨8, "y"⟩ (.Var ⟨7, "x"⟩) (.Let ⟨7, "x"⟩ (.Constant 1) (.Var ⟨8, "y"⟩))) [] 0
      = .ok (.Let ⟨0, "a1"⟩ (.Var ⟨1, "a2"⟩) (.Let ⟨1, "a2"⟩ (.Constant 1) (.Var ⟨0, "a1"⟩))) ∧
    RenameVars false
        (.Let ⟨8, "y"⟩ (.Var ⟨7, "x"⟩) (.Let ⟨7, "x"⟩ (.Constant 1) (.Var ⟨8, "y"⟩))) [] 0
      = .error .keyNotFound :=
  ⟨by decide, rfl, rfl, by decide, rfl, rfl⟩

/-- C8, amended: in either order of evaluation, `RenameVars` fails on every
expression with a variable occurrence that is not listed in the table and that
no `Let` binding the variable precedes in the order in which the mutator
traverses the expression (a use that the traversal reaches after the `Let`,
even outside its body, does not make the pass fail). -/
theorem RenameVars_unbound (body_first : Bool) (e : Expr) (T : List (String × Var)) (heap : Nat)
    (pre post : List Event) (v : Var)
    (hsplit : e.eventsIn body_first = pre ++ Event.use v :: post)
    (hT : v ∉ tableVars T) (hpre : Event.bind v ∉ pre) :
    ∃ err, RenameVars body_first e T heap = .error err := by
  cases hr : RenameVars body_first e T heap with
  | error err => exact ⟨err, rfl⟩
  | ok e' =>
    exfalso
    obtain ⟨st', hrun, _⟩ := RenameVars_ok hr
    rcases RenameVarsMutator.run_ok_use hrun pre post v hsplit with h1 | h1
    · rw [RenameVarsMutator.new_none hT] at h1
      cases h1
    · exact hpre h1

/-- C8 amended, on `let y = (let x = 1; x); x` with the body evaluated before
the value: the traversal reaches the use of `x` in the body before the `Let`
of `x` in the value. -/
theorem RenameVars_unbound_witness :
    ∃ err, RenameVars true
      (.Let ⟨8, "y"⟩ (.Let ⟨7, "x"⟩ (.Constant 1) (.Var ⟨7, "x"⟩)) (.Var ⟨7, "x"⟩))
      [] 0 = .error err :=
  RenameVars_unbound true
    (.Let ⟨8, "y"⟩ (.Let ⟨7, "x"⟩ (.Constant 1) (.Var ⟨7, "x"⟩)) (.Var ⟨7, "x"⟩)) [] 0
    [.bind ⟨8, "y"⟩] [.bind ⟨7, "x"⟩, .use ⟨7, "x"⟩] ⟨7, "x"⟩ rfl (by decide) (by decide)

/-- C7: when `RenameVars` succeeds on `e` with the table `T` and returns `e'`,
a second run on `e'`, with the table that sends each name of `T` to the node
that the first run made for that name, succeeds too, and its output has the
shape and the variable names of `e'` (the two differ at most in the addresses of
their variable nodes). -/
theorem RenameVars_rerun (body_first : Bool) (e e' : Expr) (T : List (String × Var))
    (heap : Nat) (h : RenameVars body_first e T heap = .ok e') (heap2 : Nat) :
    ∃ e'', RenameVars body_first e' (outputTable T heap) heap2 = .ok e'' ∧
      e''.eraseVid = e'.eraseVid := by
  obtain ⟨st', hrun, he'⟩ := RenameVars_ok h
  have hσ : ∀ v w, st'.var_map v = some w → st'.var_map.lookup v = w :=
    fun v w hv => VarMap.lookup_of_eq hv
  obtain ⟨st2', hrun2, hfin⟩ := RenameVarsMutator.run_rerun hrun st'.var_map.lookup hσ
    (RenameVarsMutator.new (outputTable T heap) heap2)
    (by rw [RenameVarsMutator.new_num_bound_var, RenameVarsMutator.new_num_bound_var])
    (by
      intro v w hv
      have hw := (RenameVarsMutator.new_some hv).2
      have hd := RenameVarsMutator.new_dom heap2
        (List.mem_map.2 ⟨_, hw, rfl⟩ : w ∈ tableVars (outputTable T heap))
      cases hq : (RenameVarsMutator.new (outputTable T heap) heap2).var_map w with
      | none => rw [hq] at hd; cases hd
      | some w2 =>
        refine ⟨w2, rfl, ?_⟩
        exact (outputTable_mem (RenameVarsMutator.new_some hq).1).1.symm)
    (by
      intro w hw
      cases hq : (RenameVarsMutator.new (outputTable T heap) heap2).var_map w with
      | none => rw [hq] at hw; cases hw
      | some w2 =>
        rw [RenameVarsMutator.new_heap]
        exact (outputTable_mem (RenameVarsMutator.new_some hq).1).2.2)
  rw [← Expr.eventsIn_rename, ← he'] at hrun2
  have hm := RenameVarsMutator.Mutate_of_run hrun2
  refine ⟨e'.rename st2'.var_map.lookup, ?_, ?_⟩
  · unfold RenameVars
    rw [hm]
    rfl
  · unfold Expr.eraseVid
    rw [Expr.rename_rename]
    apply Expr.rename_congr
    intro ev hev
    rw [he', Expr.events_rename] at hev
    obtain ⟨ev0, hev0, rfl⟩ := List.mem_map.1 hev
    obtain ⟨w, hw⟩ := RenameVarsMutator.run_covers hrun ev0
      ((Expr.mem_eventsIn body_first e ev0).2 hev0)
    obtain ⟨w2, hw2, hname⟩ := hfin _ _ hw
    have hvar : (Event.map st'.var_map.lookup ev0).var = w := by
      cases ev0 <;> simpa [Event.map, Event.var] using hσ _ _ hw
    rw [hvar, VarMap.lookup_of_eq hw2, hname]

/-- C7, on `let x = add(p, p); x` with the table `p ↦ p`: the first run starts
at address 0, the second at address 10. -/
theorem RenameVars_rerun_witness :
    ∃ e'', RenameVars true
        (.Let ⟨1, "a1"⟩ (.Call (.Op "add") [.Var ⟨0, "p"⟩, .Var ⟨0, "p"⟩] none) (.Var ⟨1, "a1"⟩))
        (outputTable [("p", ⟨5, "q"⟩)] 0) 10 = .ok e'' ∧
      e''.eraseVid =
        (Expr.Let ⟨1, "a1"⟩ (.Call (.Op "add") [.Var ⟨0, "p"⟩, .Var ⟨0, "p"⟩] none)
          (.Var ⟨1, "a1"⟩)).eraseVid :=
  RenameVars_rerun true
    (.Let ⟨7, "x"⟩ (.Call (.Op "add") [.Var ⟨5, "q"⟩, .Var ⟨5, "q"⟩] none) (.Var ⟨7, "x"⟩)) _
    [("p", ⟨5, "q"⟩)] 0 rfl 10

/-! ### `InplaceRewriter`: the rewrite -/

namespace InplaceRewriter

theorem VisitVar_ok {vmap : VarMap (Option Var)} {k v : Var} (h : VisitVar vmap k = .ok v) :
    vmap k ≠ some none ∧ v = vmap.subst k := by
  unfold VisitVar VarMap.count VarMap.at at h
  unfold VarMap.subst
  cases hk : vmap k with
  | none => simp [hk] at h; cases h; simp
  | some t =>
    cases t with
    | none => simp [hk, bind, Except.bind] at h
    | some w =>
      simp [hk, bind, Except.bind, pure, Except.pure] at h
      simp [h]

theorem VisitVar_of_alive {vmap : VarMap (Option Var)} {k : Var} (h : vmap k ≠ some none) :
    VisitVar vmap k = .ok (vmap.subst k) := by
  unfold VisitVar VarMap.count VarMap.at VarMap.subst
  cases hk : vmap k with
  | none => simp [pure, Except.pure]
  | some t =>
    cases t with
    | none => exact absurd hk h
    | some w => simp [bind, Except.bind, pure, Except.pure]

theorem VisitParams_ok {vmap : VarMap (Option Var)} {ps ps' : List Var}
    (h : VisitParams vmap ps = .ok ps') : ∀ v ∈ ps, vmap v ≠ some none := by
  induction ps generalizing ps' with
  | nil => intro v hv; cases hv
  | cons p ps ih =>
    simp only [VisitParams] at h
    obtain ⟨p', h1, h⟩ := bind_ok_inv h
    obtain ⟨qs, h2, h⟩ := bind_ok_inv h
    intro v hv
    rcases List.mem_cons.1 hv with rfl | hmem
    · exact (VisitVar_ok h1).1
    · exact ih h2 v hmem

theorem VisitParams_of_alive {vmap : VarMap (Option Var)} {ps : List Var}
    (h : ∀ v ∈ ps, vmap v ≠ some none) : VisitParams vmap ps = .ok (ps.map vmap.subst) := by
  induction ps with
  | nil => rfl
  | cons p ps ih =>
    simp only [VisitParams, VisitVar_of_alive (h p (List.mem_cons_self _ _)),
      ih (fun v hv => h v (List.mem_cons_of_mem _ hv))]
    rfl

/-- When the rewrite goes through, no variable at a visited position is a dead
allocation. -/
theorem VisitExpr_ok_both (vmap : VarMap (Option Var)) :
    (∀ (e e' : Expr), VisitExpr vmap e = .ok e' → ∀ v ∈ e.traversed vmap, vmap v ≠ some none) ∧
    (∀ (es es' : List Expr), VisitList vmap es = .ok es' →
      ∀ v ∈ Expr.traversedList vmap es, vmap v ≠ some none) := by
  apply Expr.induct
  case hVar =>
    intro k e' h v hv
    simp only [VisitExpr] at h
    obtain ⟨w, h1, _⟩ := bind_ok_inv h
    simp only [Expr.traversed, List.mem_singleton] at hv
    subst hv
    exact (VisitVar_ok h1).1
  case hConstant => intro c e' h v hv; simp [Expr.traversed] at hv
  case hGlobalVar => intro c e' h v hv; simp [Expr.traversed] at hv
  case hOp => intro c e' h v hv; simp [Expr.traversed] at hv
  case hTuple =>
    intro fields ih e' h v hv
    simp only [VisitExpr] at h
    obtain ⟨fs', h1, _⟩ := bind_ok_inv h
    exact ih _ h1 v hv
  case hCall =>
    intro op args attrs ihop ihargs e' h v hv
    simp only [VisitExpr] at h
    obtain ⟨op', h1, h⟩ := bind_ok_inv h
    obtain ⟨args', h2, _⟩ := bind_ok_inv h
    simp only [Expr.traversed, List.mem_append] at hv
    rcases hv with hv | hv
    · exact ihop _ h1 v hv
    · exact ihargs _ h2 v hv
  case hLet =>
    intro var value body ihv ihb e' h v hv
    simp only [VisitExpr] at h
    simp only [Expr.traversed] at hv
    split at h
    · rename_i hc
      rw [if_pos hc] at hv
      exact ihb _ h v hv
    · rename_i hc
      rw [if_neg hc] at hv
      obtain ⟨var', h0, h⟩ := bind_ok_inv h
      obtain ⟨value', h1, h⟩ := bind_ok_inv h
      obtain ⟨body', h2, _⟩ := bind_ok_inv h
      simp only [List.mem_cons, List.mem_append] at hv
      rcases hv with rfl | hv | hv
      · exact (VisitVar_ok h0).1
      · exact ihv _ h1 v hv
      · exact ihb _ h2 v hv
  case hIf =>
    intro c t f ihc iht ihf e' h v hv
    simp only [VisitExpr] at h
    obtain ⟨c', h1, h⟩ := bind_ok_inv h
    obtain ⟨t', h2, h⟩ := bind_ok_inv h
    obtain ⟨f', h3, _⟩ := bind_ok_inv h
    simp only [Expr.traversed, List.mem_append] at hv
    rcases hv with hv | hv | hv
    · exact ihc _ h1 v hv
    · exact iht _ h2 v hv
    · exact ihf _ h3 v hv
  case hTupleGetItem =>
    intro t i ih e' h v hv
    simp only [VisitExpr] at h
    obtain ⟨t', h1, _⟩ := bind_ok_inv h
    exact ih _ h1 v hv
  case hFunction =>
    intro params body ret_type type_params attrs ih e' h v hv
    simp only [VisitExpr] at h
    obtain ⟨ps', h1, h⟩ := bind_ok_inv h
    obtain ⟨body', h2, _⟩ := bind_ok_inv h
    simp only [Expr.traversed, List.mem_append] at hv
    rcases hv with hv | hv
    · exact VisitParams_ok h1 v hv
    · exact ih _ h2 v hv
  case hRefCreate =>
    intro x ih e' h v hv
    simp only [VisitExpr] at h
    obtain ⟨x', h1, _⟩ := bind_ok_inv h
    exact ih _ h1 v hv
  case hRefRead =>
    intro x ih e' h v hv
    simp only [VisitExpr] at h
    obtain ⟨x', h1, _⟩ := bind_ok_inv h
    exact ih _ h1 v hv
  case hRefWrite =>
    intro r x ihr ihx e' h v hv
    simp only [VisitExpr] at h
    obtain ⟨r', h1, h⟩ := bind_ok_inv h
    obtain ⟨x', h2, _⟩ := bind_ok_inv h
    simp only [Expr.traversed, List.mem_append] at hv
    rcases hv with hv | hv
    · exact ihr _ h1 v hv
    · exact ihx _ h2 v hv
  case hNil => intro es' h v hv; simp [Expr.traversedList] at hv
  case hCons =>
    intro e es ihe ihes es' h v hv
    simp only [VisitList] at h
    obtain ⟨e1, h1, h⟩ := bind_ok_inv h
    obtain ⟨es1, h2, _⟩ := bind_ok_inv h
    simp only [Expr.traversedList, List.mem_append] at hv
    rcases hv with hv | hv
    · exact ihe _ h1 v hv
    · exact ihes _ h2 v hv

/-- On an expression none of whose `Let`s binds a key of `vmap` and none of
whose variable occurrences is a dead allocation, the rewrite goes through and
returns the expression renamed by `vmap`. -/
theorem VisitExpr_rename_both (vmap : VarMap (Option Var)) :
    (∀ e : Expr, (∀ v ∈ e.letVars, vmap v = none) →
      (∀ ev ∈ e.events, vmap ev.var ≠ some none) →
        VisitExpr vmap e = .ok (e.rename vmap.subst)) ∧
    (∀ es : List Expr, (∀ v ∈ Expr.letVarsList es, vmap v = none) →
      (∀ ev ∈ Expr.eventsList es, vmap ev.var ≠ some none) →
        VisitList vmap es = .ok (Expr.renameList vmap.subst es)) := by
  apply Expr.induct
  case hVar =>
    intro k _ h
    have hk : vmap k ≠ some none := h (.use k) (by simp [Expr.events])
    simp only [VisitExpr, VisitVar_of_alive hk, Expr.rename]
    rfl
  case hConstant => intros; rfl
  case hGlobalVar => intros; rfl
  case hOp => intros; rfl
  case hTuple =>
    intro fields ih hl h
    simp only [VisitExpr, ih hl h, Expr.rename]
    rfl
  case hCall =>
    intro op args attrs ihop ihargs hl h
    simp only [Expr.letVars, List.mem_append] at hl
    simp only [Expr.events, List.mem_append] at h
    simp only [VisitExpr, Expr.rename,
      ihop (fun v hv => hl v (Or.inl hv)) (fun ev hev => h ev (Or.inl hev)),
      ihargs (fun v hv => hl v (Or.inr hv)) (fun ev hev => h ev (Or.inr hev))]
    rfl
  case hLet =>
    intro var value body ihv ihb hl h
    simp only [Expr.letVars, List.mem_cons, List.mem_append] at hl
    simp only [Expr.events, List.mem_cons, List.mem_append] at h
    have hvar : vmap var = none := hl var (Or.inl rfl)
    have hc : ¬ (vmap.count var > 0) := by simp [VarMap.count, hvar]
    have hs : vmap.subst var = var := by simp [VarMap.subst, hvar]
    have ha : vmap var ≠ some none := by simp [hvar]
    simp only [VisitExpr, if_neg hc, Expr.rename, VisitVar_of_alive ha, hs,
      ihv (fun v hv => hl v (Or.inr (Or.inl hv))) (fun ev hev => h ev (Or.inr (Or.inl hev))),
      ihb (fun v hv => hl v (Or.inr (Or.inr hv))) (fun ev hev => h ev (Or.inr (Or.inr hev)))]
    rfl
  case hIf =>
    intro c t f ihc iht ihf hl h
    simp only [Expr.letVars, List.mem_append] at hl
    simp only [Expr.events, List.mem_append] at h
    simp only [VisitExpr, Expr.rename,
      ihc (fun v hv => hl v (Or.inl hv)) (fun ev hev => h ev (Or.inl hev)),
      iht (fun v hv => hl v (Or.inr (Or.inl hv))) (fun ev hev => h ev (Or.inr (Or.inl hev))),
      ihf (fun v hv => hl v (Or.inr (Or.inr hv))) (fun ev hev => h ev (Or.inr (Or.inr hev)))]
    rfl
  case hTupleGetItem =>
    intro t i ih hl h
    simp only [VisitExpr, ih hl h, Expr.rename]
    rfl
  case hFunction =>
    intro params body ret_type type_params attrs ih hl h
    simp only [Expr.events, List.mem_append, List.mem_map] at h
    have hp : ∀ v ∈ params, vmap v ≠ some none :=
      fun v hv => h (.use v) (Or.inl ⟨v, hv, rfl⟩)
    simp only [VisitExpr, Expr.rename, VisitParams_of_alive hp,
      ih hl (fun ev hev => h ev (Or.inr hev))]
    rfl
  case hRefCreate =>
    intro x ih hl h
    simp only [VisitExpr, ih hl h, Expr.rename]
    rfl
  case hRefRead =>
    intro x ih hl h
    simp only [VisitExpr, ih hl h, Expr.rename]
    rfl
  case hRefWrite =>
    intro r x ihr ihx hl h
    simp only [Expr.letVars, List.mem_append] at hl
    simp only [Expr.events, List.mem_append] at h
    simp only [VisitExpr, Expr.rename,
      ihr (fun v hv => hl v (Or.inl hv)) (fun ev hev => h ev (Or.inl hev)),
      ihx (fun v hv => hl v (Or.inr hv)) (fun ev hev => h ev (Or.inr hev))]
    rfl
  case hNil => intros; rfl
  case hCons =>
    intro e es ihe ihes hl h
    simp only [Expr.letVarsList, List.mem_append] at hl
    simp only [Expr.eventsList, List.mem_append] at h
    simp only [VisitList, Expr.renameList,
      ihe (fun v hv => hl v (Or.inl hv)) (fun ev hev => h ev (Or.inl hev)),
      ihes (fun v hv => hl v (Or.inr hv)) (fun ev hev => h ev (Or.inr hev))]
    rfl

end InplaceRewriter

/-! ### `InplaceVisitor`: the analysis -/

theorem Expr.letChain_sublist_both :
    (∀ e : Expr, (e.letChain.map Prod.fst).Sublist e.letVars) ∧
    (∀ _es : List Expr, True) := by
  apply Expr.induct
  case hLet =>
    intro var value body _ ihb
    simp only [Expr.letChain, Expr.letVars, List.map_cons]
    exact List.Sublist.cons₂ _ (ihb.trans (List.sublist_append_right _ _))
  all_goals intros
  all_goals first | trivial | simp [Expr.letChain]

theorem Expr.letChain_sublist (e : Expr) : (e.letChain.map Prod.fst).Sublist e.letVars :=
  Expr.letChain_sublist_both.1 e

theorem ExplicitLetList.make_of_nodup_both :
    (∀ e : Expr, (e.letChain.map Prod.fst).Nodup →
      ExplicitLetList.make e =
        .ok { vars := e.letChain.map Prod.fst, exprs := e.letChain.map Prod.snd,
              ret := e.letTail }) ∧
    (∀ _es : List Expr, True) := by
  apply Expr.induct
  case hLet =>
    intro var value body _ ihb hnd
    simp only [Expr.letChain, List.map_cons, List.nodup_cons] at hnd
    simp only [ExplicitLetList.make, ihb hnd.2, bind, Except.bind, if_neg hnd.1, Expr.letChain,
      List.map_cons, Expr.letTail]
    rfl
  all_goals intros
  all_goals trivial

theorem ExplicitLetList.make_of_nodup {e : Expr} (h : (e.letChain.map Prod.fst).Nodup) :
    ExplicitLetList.make e =
      .ok { vars := e.letChain.map Prod.fst, exprs := e.letChain.map Prod.snd,
            ret := e.letTail } :=
  ExplicitLetList.make_of_nodup_both.1 e h

theorem zip_map_fst_snd {α β : Type} (L : List (α × β)) :
    (L.map Prod.fst).zip (L.map Prod.snd) = L := by
  induction L with
  | nil => rfl
  | cons x L ih => simp [ih]

namespace InplaceVisitor

theorem VisitExpr_plain (st : InplaceVisitor) (lv : Var) (e : Expr)
    (h : e.isTupleGetItem = false) :
    ∃ st', st.VisitExpr lv e = .ok st' ∧ st'.vmap = st.vmap ∧ st'.binding_ = st.binding_ ∧
      ∀ v, v ≠ lv → st'.simplify_ v = st.simplify_ v := by
  cases e
  case TupleGetItem t i => simp [Expr.isTupleGetItem] at h
  case Var v =>
    refine ⟨_, rfl, rfl, rfl, ?_⟩
    intro v' hv'
    exact VarMap.Set_other _ _ _ _ hv'
  all_goals exact ⟨st, rfl, rfl, rfl, fun _ _ => rfl⟩

/-- The first loop on a chain without `TupleGetItem` values goes through; it
leaves `vmap` alone, and `simplify_` and `binding_` at every variable that the
chain does not bind. -/
theorem loop1_plain (L : List (Var × Expr)) (st : InplaceVisitor)
    (h : ∀ p ∈ L, p.2.isTupleGetItem = false) :
    ∃ st', loop1 L st = .ok st' ∧ st'.vmap = st.vmap ∧
      ∀ v, v ∉ L.map Prod.fst →
        st'.simplify_ v = st.simplify_ v ∧ st'.binding_ v = st.binding_ v := by
  induction L generalizing st with
  | nil => exact ⟨st, rfl, rfl, fun _ _ => ⟨rfl, rfl⟩⟩
  | cons p L ih =>
    obtain ⟨var, expr⟩ := p
    obtain ⟨st2, h2, hv2, hb2, hs2⟩ := VisitExpr_plain
      { st with simplify_ := st.simplify_.Set var var, binding_ := st.binding_.Set var expr }
      var expr (h (var, expr) (List.mem_cons_self _ _))
    obtain ⟨st', h', hv', hrest⟩ := ih st2 (fun q hq => h q (List.mem_cons_of_mem _ hq))
    refine ⟨st', ?_, ?_, ?_⟩
    · simp only [loop1, h2, bind, Except.bind]
      exact h'
    · rw [hv', hv2]
    · intro v hv
      simp only [List.map_cons, List.mem_cons, not_or] at hv
      obtain ⟨a, c⟩ := hrest v hv.2
      rw [a, c, hs2 v hv.1, hb2]
      exact ⟨VarMap.Set_other _ _ _ _ hv.1, VarMap.Set_other _ _ _ _ hv.1⟩

/-- The second loop does nothing on variables without a may-share annotation. -/
theorem loop2_none (may_share : Var → Option Var) (L : List Var) (st : InplaceVisitor)
    (h : ∀ v ∈ L, may_share v = none) : loop2 may_share L st = .ok st := by
  induction L with
  | nil => rfl
  | cons v L ih =>
    simp only [loop2, share, h v (List.mem_cons_self _ _), bind, Except.bind, pure, Except.pure]
    exact ih (fun w hw => h w (List.mem_cons_of_mem _ hw))

/-- The analysis of `%0 = alloc_storage(...); %1 = f(%0, ...); rest`, where only
`%1` carries a may-share annotation and the chain of `rest` has no
`TupleGetItem` value: `vmap` sends `%1` to its target and marks `%0` dead. -/
theorem call_sharing (may_share : Var → Option Var) (params : List Var) (ret_type : Ty)
    (type_params : List Ty) (attrs : Attrs) (v0 v1 b : Var) (allocArgs : List Expr)
    (allocAttrs : Attrs) (f : Expr) (args : List Expr) (fAttrs : Attrs) (rest : Expr)
    (hshare : may_share v1 = some b) (h0 : may_share v0 = none) (h01 : v0 ≠ v1)
    (hv0 : v0 ∉ rest.letChain.map Prod.fst) (hv1 : v1 ∉ rest.letChain.map Prod.fst)
    (hnd : (rest.letChain.map Prod.fst).Nodup)
    (hchain : ∀ p ∈ rest.letChain, may_share p.1 = none ∧ p.2.isTupleGetItem = false) :
    ∃ st, call may_share init
        { params := params
          body := .Let v0 (.Call alloc_storage_op allocArgs allocAttrs)
            (.Let v1 (.Call f (.Var v0 :: args) fAttrs) rest)
          ret_type := ret_type, type_params := type_params, attrs := attrs } = .ok st ∧
      st.vmap = ((VarMap.empty.Set v1 (some b)).Set v0 none) := by
  have hmake : ExplicitLetList.make
      (.Let v0 (.Call alloc_storage_op allocArgs allocAttrs)
        (.Let v1 (.Call f (.Var v0 :: args) fAttrs) rest)) =
      .ok { vars := v0 :: v1 :: rest.letChain.map Prod.fst
            exprs := .Call alloc_storage_op allocArgs allocAttrs ::
              .Call f (.Var v0 :: args) fAttrs :: rest.letChain.map Prod.snd
            ret := rest.letTail } := by
    have hnd2 : ((Expr.Let v0 (.Call alloc_storage_op allocArgs allocAttrs)
        (.Let v1 (.Call f (.Var v0 :: args) fAttrs) rest)).letChain.map Prod.fst).Nodup := by
      simp only [Expr.letChain, List.map_cons, List.nodup_cons, List.mem_cons, not_or]
      exact ⟨⟨h01, hv0⟩, hv1, hnd⟩
    rw [ExplicitLetList.make_of_nodup hnd2]
    rfl
  obtain ⟨stC, hC, hvC, hkeep⟩ := loop1_plain rest.letChain
    { vmap := VarMap.empty
      binding_ := (VarMap.empty.Set v0 (.Call alloc_storage_op allocArgs allocAttrs)).Set v1
        (.Call f (.Var v0 :: args) fAttrs)
      simplify_ := (VarMap.empty.Set v0 v0).Set v1 v1 }
    (fun p hp => (hchain p hp).2)
  obtain ⟨hs0, hb0⟩ := hkeep v0 hv0
  obtain ⟨hs1, hb1⟩ := hkeep v1 hv1
  simp only at hs0 hb0 hs1 hb1 hvC
  rw [VarMap.Set_other _ _ _ _ h01, VarMap.Set_self] at hs0 hb0
  rw [VarMap.Set_self] at hs1 hb1
  have hloop1 : loop1
      ((v0 :: v1 :: rest.letChain.map Prod.fst).zip
        (.Call alloc_storage_op allocArgs allocAttrs ::
          .Call f (.Var v0 :: args) fAttrs :: rest.letChain.map Prod.snd)) init = .ok stC := by
    have hz : (v0 :: v1 :: rest.letChain.map Prod.fst).zip
        (.Call alloc_storage_op allocArgs allocAttrs ::
          .Call f (.Var v0 :: args) fAttrs :: rest.letChain.map Prod.snd) =
        (v0, .Call alloc_storage_op allocArgs allocAttrs) ::
          (v1, .Call f (.Var v0 :: args) fAttrs) ::
            (rest.letChain.map Prod.fst).zip (rest.letChain.map Prod.snd) := rfl
    rw [hz, zip_map_fst_snd]
    exact hC
  have hloop2 : loop2 may_share (v0 :: v1 :: rest.letChain.map Prod.fst) stC =
      .ok { stC with vmap := (stC.vmap.Set v1 (some b)).Set v0 none } := by
    have hshare0 : share may_share stC v0 = .ok stC := by
      simp only [share, h0]; rfl
    have hshare1 : share may_share stC v1 =
        .ok { stC with vmap := (stC.vmap.Set v1 (some b)).Set v0 none } := by
      simp only [share, hshare, VarMap.at, hs1, hb1, hs0, hb0, bind, Except.bind, pure,
        Except.pure, List.get?, DowncastVar, alloc_storage_op, isAllocStorageOp]
      simp
    simp only [loop2, hshare0, hshare1, bind, Except.bind]
    apply loop2_none
    intro v hv
    obtain ⟨p, hp, rfl⟩ := List.mem_map.1 hv
    exact (hchain p hp).1
  refine ⟨{ stC with vmap := (stC.vmap.Set v1 (some b)).Set v0 none }, ?_, ?_⟩
  · simp only [call, hmake, bind, Except.bind, List.length_cons, List.length_map]
    simp only [ne_eq, not_true_eq_false, if_false, hloop1]
    exact hloop2
  · simp only [hvC]

end InplaceVisitor

/-! ### `InplaceUpdate`: the loop over the module -/

theorem InplaceUpdate_single (may_share : Var → Option Var) (g : String) (func func' : Function)
    (h : InplaceRewriter.call may_share func = .ok func') :
    InplaceUpdate may_share [(g, func)] = .ok [(g, func')] := by
  simp only [InplaceUpdate, h, bind, Except.bind, pure, Except.pure]

theorem InplaceUpdate_ok_mem {may_share : Var → Option Var} {mod mod' : Module}
    (h : InplaceUpdate may_share mod = .ok mod') :
    ∀ kv ∈ mod, ∃ func', InplaceRewriter.call may_share kv.2 = .ok func' := by
  induction mod generalizing mod' with
  | nil => intro kv hkv; cases hkv
  | cons kv0 rest ih =>
    simp only [InplaceUpdate] at h
    obtain ⟨f0, h0, h⟩ := bind_ok_inv h
    obtain ⟨rest', h1, _⟩ := bind_ok_inv h
    intro kv hkv
    rcases List.mem_cons.1 hkv with rfl | hmem
    · exact ⟨f0, h0⟩
    · exact ih h1 kv hmem

/-! ### `InplaceUpdate`: the claims -/

/-- C1 as stated fails: in `s = alloc_storage(); t = f(s); u = g(t); u`, where `t`
may share `b` and `u` may share `c`, the rest `u = g(t); u` does not mention `s`
and `b` is not let-bound, and the pass fails: the first argument `t` of the
second annotated call is not bound to an `alloc_storage` call. -/
theorem InplaceUpdate_sharing_counterexample :
    exampleShare ⟨1, "t"⟩ = some ⟨9, "b"⟩ ∧
    (⟨9, "b"⟩ : Var) ∉ (exampleFunction
      (.Let ⟨3, "u"⟩ (.Call (.Op "g") [.Var ⟨1, "t"⟩] none) (.Var ⟨3, "u"⟩))).body.letVars ∧
    (∀ ev ∈ (Expr.Let ⟨3, "u"⟩ (.Call (.Op "g") [.Var ⟨1, "t"⟩] none) (.Var ⟨3, "u"⟩)).events,
      ev.var ≠ ⟨0, "s"⟩) ∧
    InplaceUpdate exampleShare [("main", exampleFunction
      (.Let ⟨3, "u"⟩ (.Call (.Op "g") [.Var ⟨1, "t"⟩] none) (.Var ⟨3, "u"⟩)))] =
        .error .checkFailed :=
  ⟨by decide, by decide, by decide, rfl⟩

/-- C1, amended: for a function whose body is `%0 = alloc_storage(...);
%1 = f(%0, ...); rest`, in which no variable is let-bound twice, `%1` may share
`%b`, `%b` is not let-bound, `rest` does not mention `%0`, `%0` carries no
annotation, and the top-level chain of `rest` binds no annotated variable and no
`TupleGetItem` value, the pass succeeds and returns the function whose body is
`rest` with `%1` replaced by `%b` everywhere and nothing else changed; neither
`%0` nor `%1` occurs in that body. -/
theorem InplaceUpdate_sharing (may_share : Var → Option Var) (params : List Var)
    (ret_type : Ty) (type_params : List Ty) (attrs : Attrs) (v0 v1 b : Var)
    (allocArgs : List Expr) (allocAttrs : Attrs) (f : Expr) (args : List Expr)
    (fAttrs : Attrs) (rest : Expr)
    (hshare : may_share v1 = some b)
    (hb : b ∉ (Expr.Let v0 (.Call alloc_storage_op allocArgs allocAttrs)
      (.Let v1 (.Call f (.Var v0 :: args) fAttrs) rest)).letVars)
    (hrest : ∀ ev ∈ rest.events, ev.var ≠ v0)
    (hnodup : (Expr.Let v0 (.Call alloc_storage_op allocArgs allocAttrs)
      (.Let v1 (.Call f (.Var v0 :: args) fAttrs) rest)).letVars.Nodup)
    (h0 : may_share v0 = none)
    (hchain : ∀ p ∈ rest.letChain, may_share p.1 = none ∧ p.2.isTupleGetItem = false) :
    (∀ g : String, InplaceUpdate may_share
        [(g, { params := params
               body := .Let v0 (.Call alloc_storage_op allocArgs allocAttrs)
                 (.Let v1 (.Call f (.Var v0 :: args) fAttrs) rest)
               ret_type := ret_type, type_params := type_params, attrs := attrs })] =
      .ok [(g, { params := params
                 body := rest.rename (fun v => if v = v1 then b else v)
                 ret_type := ret_type, type_params := type_params, attrs := attrs })]) ∧
    ∀ ev ∈ (rest.rename (fun v => if v = v1 then b else v)).events,
      ev.var ≠ v0 ∧ ev.var ≠ v1 := by
  simp only [Expr.letVars] at hnodup hb
  have hn1 := List.nodup_cons.1 hnodup
  have hn2 := List.nodup_cons.1 hn1.2.of_append_right
  have h01 : v0 ≠ v1 := fun e => hn1.1 (by simp [e])
  have hv0r : v0 ∉ rest.letVars := fun hm => hn1.1 (by simp [hm])
  have hv1r : v1 ∉ rest.letVars := fun hm => hn2.1 (by simp [hm])
  have hndr : rest.letVars.Nodup := hn2.2.of_append_right
  have hb0 : b ≠ v0 := fun e => hb (by simp [e])
  have hb1 : b ≠ v1 := fun e => hb (by simp [e])
  have hsub := Expr.letChain_sublist rest
  obtain ⟨st, hst, hvmap⟩ := InplaceVisitor.call_sharing may_share params ret_type type_params
    attrs v0 v1 b allocArgs allocAttrs f args fAttrs rest hshare h0 h01
    (fun hm => hv0r (hsub.subset hm)) (fun hm => hv1r (hsub.subset hm)) (hndr.sublist hsub)
    hchain
  have hm0 : st.vmap v0 = some none := by rw [hvmap]; exact VarMap.Set_self _ _ _
  have hm1 : st.vmap v1 = some (some b) := by
    rw [hvmap, VarMap.Set_other _ _ _ _ h01.symm]; exact VarMap.Set_self _ _ _
  have hmo : ∀ v, v ≠ v0 → v ≠ v1 → st.vmap v = none := by
    intro v hv0 hv1
    rw [hvmap, VarMap.Set_other _ _ _ _ hv0, VarMap.Set_other _ _ _ _ hv1]
    rfl
  have hlet : ∀ v ∈ rest.letVars, st.vmap v = none :=
    fun v hv => hmo v (fun e => hv0r (e ▸ hv)) (fun e => hv1r (e ▸ hv))
  have halive : ∀ ev ∈ rest.events, st.vmap ev.var ≠ some none := by
    intro ev hev
    by_cases e1 : ev.var = v1
    · rw [e1, hm1]; simp
    · rw [hmo _ (hrest ev hev) e1]; simp
  have hrw := (InplaceRewriter.VisitExpr_rename_both st.vmap).1 rest hlet halive
  have hcongr : rest.rename st.vmap.subst = rest.rename (fun v => if v = v1 then b else v) := by
    apply Expr.rename_congr
    intro ev hev
    by_cases e1 : ev.var = v1
    · simp [VarMap.subst, e1, hm1]
    · simp [VarMap.subst, e1, hmo _ (hrest ev hev) e1]
  have hc0 : st.vmap.count v0 > 0 := by simp [VarMap.count, hm0]
  have hc1 : st.vmap.count v1 > 0 := by simp [VarMap.count, hm1]
  constructor
  · intro g
    apply InplaceUpdate_single
    simp only [InplaceRewriter.call, hst, bind, Except.bind, InplaceRewriter.VisitExpr, if_pos hc0,
      if_pos hc1, hrw, hcongr]
    rfl
  · intro ev hev
    rw [Expr.events_rename] at hev
    obtain ⟨ev0, hev0, rfl⟩ := List.mem_map.1 hev
    have hvar : (Event.map (fun v => if v = v1 then b else v) ev0).var =
        if ev0.var = v1 then b else ev0.var := by
      cases ev0 <;> rfl
    rw [hvar]
    by_cases e1 : ev0.var = v1
    · simp only [if_pos e1]; exact ⟨hb0, hb1⟩
    · simp only [if_neg e1]; exact ⟨hrest ev0 hev0, e1⟩

/-- C1 amended, on `s = alloc_storage(); t = f(s); r = g(t); r`, where `t` may
share `b`: the result is `r = g(b); r`. -/
theorem InplaceUpdate_sharing_witness :
    (∀ g : String, InplaceUpdate exampleShare
        [(g, { params := [⟨9, "b"⟩]
               body := .Let ⟨0, "s"⟩ (.Call alloc_storage_op [] none)
                 (.Let ⟨1, "t"⟩ (.Call (.Op "f") [.Var ⟨0, "s"⟩] none)
                   (.Let ⟨2, "r"⟩ (.Call (.Op "g") [.Var ⟨1, "t"⟩] none) (.Var ⟨2, "r"⟩)))
               ret_type := .Undefined, type_params := [], attrs := none })] =
      .ok [(g, { params := [⟨9, "b"⟩]
                 body := (Expr.Let ⟨2, "r"⟩ (.Call (.Op "g") [.Var ⟨1, "t"⟩] none)
                   (.Var ⟨2, "r"⟩)).rename (fun v => if v = ⟨1, "t"⟩ then ⟨9, "b"⟩ else v)
                 ret_type := .Undefined, type_params := [], attrs := none })]) ∧
    ∀ ev ∈ ((Expr.Let ⟨2, "r"⟩ (.Call (.Op "g") [.Var ⟨1, "t"⟩] none)
        (.Var ⟨2, "r"⟩)).rename (fun v => if v = ⟨1, "t"⟩ then ⟨9, "b"⟩ else v)).events,
      ev.var ≠ ⟨0, "s"⟩ ∧ ev.var ≠ ⟨1, "t"⟩ :=
  InplaceUpdate_sharing exampleShare [⟨9, "b"⟩] .Undefined [] none ⟨0, "s"⟩ ⟨1, "t"⟩ ⟨9, "b"⟩
    [] none (.Op "f") [] none
    (.Let ⟨2, "r"⟩ (.Call (.Op "g") [.Var ⟨1, "t"⟩] none) (.Var ⟨2, "r"⟩))
    (by decide) (by decide) (by decide) (by decide) (by decide) (by decide)

/-- C2 as stated fails: in `s = alloc_storage(); t = f(s); u = g(s); (t, u)`, where
`t` may share `b` and `u` may share `c`, the allocation `s` is the first
argument of the annotated call `f(s)` and is referenced a second time, as the
argument of the second annotated call `g(s)`; the pass succeeds and returns the
body `(b, c)`. -/
theorem InplaceUpdate_second_reference_counterexample :
    InplaceUpdate exampleShare [("main", exampleFunction
        (.Let ⟨3, "u"⟩ (.Call (.Op "g") [.Var ⟨0, "s"⟩] none)
          (.Tuple [.Var ⟨1, "t"⟩, .Var ⟨3, "u"⟩])))] =
      .ok [("main", { params := [⟨9, "b"⟩]
                      body := .Tuple [.Var ⟨9, "b"⟩, .Var ⟨10, "c"⟩]
                      ret_type := .Undefined, type_params := [], attrs := none })] := by
  rfl

/-- C2, amended: the pass fails on every function in which a variable that the
analysis marks as a dead allocation (the first argument of a may-share-annotated
call, mapped to the undefined variable) occurs at a position that the rewrite
visits, that is, in the tail or in a binding that is kept.  An occurrence in the
value of a binding that the rewrite drops is not visited. -/
theorem InplaceUpdate_dead_reference (may_share : Var → Option Var) (mod : Module)
    (g : String) (func : Function) (st : InplaceVisitor) (v : Var)
    (hmem : (g, func) ∈ mod)
    (hvis : InplaceVisitor.call may_share InplaceVisitor.init func = .ok st)
    (hdead : st.vmap v = some none)
    (hocc : v ∈ func.body.traversed st.vmap) :
    ∃ err, InplaceUpdate may_share mod = .error err := by
  cases hr : InplaceUpdate may_share mod with
  | error err => exact ⟨err, rfl⟩
  | ok mod' =>
    exfalso
    obtain ⟨func', hcall⟩ := InplaceUpdate_ok_mem hr (g, func) hmem
    simp only [InplaceRewriter.call, hvis, bind, Except.bind] at hcall
    cases hb : InplaceRewriter.VisitExpr st.vmap func.body with
    | error err => rw [hb] at hcall; cases hcall
    | ok body' => exact (InplaceRewriter.VisitExpr_ok_both st.vmap).1 _ _ hb v hocc hdead

/-- C2 amended, on `s = alloc_storage(); t = f(s); r = g(s); r`, where `t` may
share `b`: the binding of `r` is kept and its value mentions `s`. -/
theorem InplaceUpdate_dead_reference_witness :
    ∃ err, InplaceUpdate exampleShare [("main", exampleFunction
      (.Let ⟨2, "r"⟩ (.Call (.Op "g") [.Var ⟨0, "s"⟩] none) (.Var ⟨2, "r"⟩)))] = .error err :=
  InplaceUpdate_dead_reference exampleShare _ "main"
    (exampleFunction (.Let ⟨2, "r"⟩ (.Call (.Op "g") [.Var ⟨0, "s"⟩] none) (.Var ⟨2, "r"⟩)))
    { vmap := (VarMap.empty.Set ⟨1, "t"⟩ (some ⟨9, "b"⟩)).Set ⟨0, "s"⟩ none
      binding_ := ((VarMap.empty.Set ⟨0, "s"⟩ (.Call alloc_storage_op [] none)).Set ⟨1, "t"⟩
        (.Call (.Op "f") [.Var ⟨0, "s"⟩] none)).Set ⟨2, "r"⟩
          (.Call (.Op "g") [.Var ⟨0, "s"⟩] none)
      simplify_ := ((VarMap.empty.Set ⟨0, "s"⟩ ⟨0, "s"⟩).Set ⟨1, "t"⟩ ⟨1, "t"⟩).Set
        ⟨2, "r"⟩ ⟨2, "r"⟩ }
    ⟨0, "s"⟩ (List.mem_singleton.2 rfl) (by rfl) (by rfl) (by decide)

/-! ### Hashers: the claims -/

theorem HashKey.lshift_ne_self (key : HashKey) (v : Int) : key.lshift v ≠ key := by
  intro h
  have := congrArg (fun k => k.items.length) h
  simp [HashKey.lshift] at this

theorem HashKey.lshift_inj (key : HashKey) (v w : Int) : key.lshift v = key.lshift w ↔ v = w := by
  constructor
  · intro h
    have := congrArg HashKey.items h
    simpa [HashKey.lshift] using this
  · intro h; rw [h]

/-- C9: for the same parameter types and output type, and two `Take` argument
records whose axis is absent or an integer, `TakeHasher` returns two keys, and
the keys are equal exactly when the two axis attributes are equal (both absent,
or both the same integer). -/
theorem TakeHasher_axis (GenericHasher : List Ty → Ty → HashKey) (param_types : List Ty)
    (y_type : Ty) (a₁ a₂ : TakeArgs)
    (h₁ : a₁.axis = none ∨ ∃ n, a₁.axis = some (.IntValue n))
    (h₂ : a₂.axis = none ∨ ∃ n, a₂.axis = some (.IntValue n)) :
    ∃ k₁ k₂, TakeHasher GenericHasher param_types y_type a₁ = .ok k₁ ∧
      TakeHasher GenericHasher param_types y_type a₂ = .ok k₂ ∧
      (k₁ = k₂ ↔ a₁.axis = a₂.axis) := by
  rcases h₁ with h₁ | ⟨n₁, h₁⟩ <;> rcases h₂ with h₂ | ⟨n₂, h₂⟩
  · exact ⟨_, _, by simp only [TakeHasher, h₁]; rfl, by simp only [TakeHasher, h₂]; rfl,
      by simp [h₁, h₂]⟩
  · refine ⟨_, _, by simp only [TakeHasher, h₁]; rfl, by simp only [TakeHasher, h₂]; rfl, ?_⟩
    simp only [h₁, h₂]
    constructor
    · intro h; exact absurd h.symm (HashKey.lshift_ne_self _ _)
    · intro h; cases h
  · refine ⟨_, _, by simp only [TakeHasher, h₁]; rfl, by simp only [TakeHasher, h₂]; rfl, ?_⟩
    simp only [h₁, h₂]
    constructor
    · intro h; exact absurd h (HashKey.lshift_ne_self _ _)
    · intro h; cases h
  · refine ⟨_, _, by simp only [TakeHasher, h₁]; rfl, by simp only [TakeHasher, h₂]; rfl, ?_⟩
    simp only [h₁, h₂, HashKey.lshift_inj]
    constructor
    · intro h; rw [h]
    · intro h; cases h; rfl

/-- C9, on `take(x, idx, axis=0)` and `take(x, idx, axis=1)` with the same
types: two keys, equal exactly when `0 = 1` as axis attributes. -/
theorem TakeHasher_axis_witness :
    ∃ k₁ k₂,
      TakeHasher (fun _ _ => { items := [] }) [.TensorType [4, 5] "float32"]
        (.TensorType [2, 5] "float32")
        { x := .TensorValue 0, indices := .TensorValue 1, axis := some (.IntValue 0) } = .ok k₁ ∧
      TakeHasher (fun _ _ => { items := [] }) [.TensorType [4, 5] "float32"]
        (.TensorType [2, 5] "float32")
        { x := .TensorValue 0, indices := .TensorValue 1, axis := some (.IntValue 1) } = .ok k₂ ∧
      (k₁ = k₂ ↔ some (Value.IntValue 0) = some (Value.IntValue 1)) :=
  TakeHasher_axis (fun _ _ => { items := [] }) [.TensorType [4, 5] "float32"]
    (.TensorType [2, 5] "float32")
    { x := .TensorValue 0, indices := .TensorValue 1, axis := some (.IntValue 0) }
    { x := .TensorValue 0, indices := .TensorValue 1, axis := some (.IntValue 1) }
    (Or.inr ⟨0, rfl⟩) (Or.inr ⟨1, rfl⟩)

/-- C10 as stated fails: for the same types and the same axis, the section
count `2` and the index tuple `(5)` get the same key from `SplitHasher`, which
does not read `indices_or_sections`. -/
theorem SplitHasher_indices_counterexample :
    (Value.IntValue 2 ≠ Value.TupleValue [.IntValue 5]) ∧
    SplitHasher (fun _ _ => { items := [] }) [.TensorType [10] "float32"]
        (.TupleType [.TensorType [5] "float32", .TensorType [5] "float32"])
        { x := .TensorValue 0, indices_or_sections := .IntValue 2, axis := 0 } =
      SplitHasher (fun _ _ => { items := [] }) [.TensorType [10] "float32"]
        (.TupleType [.TensorType [5] "float32", .TensorType [5] "float32"])
        { x := .TensorValue 0, indices_or_sections := .TupleValue [.IntValue 5], axis := 0 } :=
  ⟨(fun h => by cases h), rfl⟩

/-- C10, amended: the key of `SplitHasher` is the generic key of the parameter
types and the output type with the axis folded in, and nothing else: for the
same types, two `Split` records get the same key exactly when their axes are
equal, whatever their `indices_or_sections` are. -/
theorem SplitHasher_axis (GenericHasher : List Ty → Ty → HashKey) (param_types : List Ty)
    (y_type : Ty) (a b : SplitArgs) :
    SplitHasher GenericHasher param_types y_type a =
      (GenericHasher param_types y_type).lshift a.axis ∧
    (SplitHasher GenericHasher param_types y_type a =
      SplitHasher GenericHasher param_types y_type b ↔ a.axis = b.axis) := by
  refine ⟨rfl, ?_⟩
  unfold SplitHasher
  constructor
  · intro h
    have h1 := congrArg HashKey.items h
    simp only [HashKey.lshift] at h1
    exact (by simpa using (List.append_inj' h1 rfl).2)
  · intro h
    rw [h]

theorem HashKey.lshift_lshift_ne (key : HashKey) (u v w : Int) :
    (key.lshift u).lshift v ≠ key.lshift w := by
  intro h
  have := congrArg (fun k => k.items.length) h
  simp [HashKey.lshift] at this

theorem HashKey.lshift_eq_iff (k₁ k₂ : HashKey) (v w : Int) :
    k₁.lshift v = k₂.lshift w ↔ k₁ = k₂ ∧ v = w := by
  constructor
  · intro h
    have h1 := congrArg HashKey.items h
    simp only [HashKey.lshift] at h1
    obtain ⟨a, b⟩ := List.append_inj' h1 rfl
    refine ⟨?_, by simpa using b⟩
    cases k₁; cases k₂; simp_all
  · rintro ⟨rfl, rfl⟩; rfl

/-- C11: for the same parameter types and output type, `RepeatHasher` returns
equal keys on two `Repeat` records (with an axis that is absent or an integer)
exactly when they have the same repeats and the same axis; and
`ReverseSequenceHasher` returns equal keys exactly when `seq_axis` and
`batch_axis` both agree, so that swapping two different values of `seq_axis` and
`batch_axis` changes the key. -/
theorem Hashers_repeat_reverse_sequence (GenericHasher : List Ty → Ty → HashKey)
    (param_types : List Ty) (y_type : Ty) (a₁ a₂ : RepeatArgs) (r₁ r₂ : ReverseSequenceArgs)
    (h₁ : a₁.axis = none ∨ ∃ n, a₁.axis = some (.IntValue n))
    (h₂ : a₂.axis = none ∨ ∃ n, a₂.axis = some (.IntValue n)) :
    (∃ k₁ k₂, RepeatHasher GenericHasher param_types y_type a₁ = .ok k₁ ∧
      RepeatHasher GenericHasher param_types y_type a₂ = .ok k₂ ∧
      (k₁ = k₂ ↔ a₁.repeats = a₂.repeats ∧ a₁.axis = a₂.axis)) ∧
    (ReverseSequenceHasher GenericHasher param_types y_type r₁ =
        ReverseSequenceHasher GenericHasher param_types y_type r₂ ↔
      r₁.seq_axis = r₂.seq_axis ∧ r₁.batch_axis = r₂.batch_axis) ∧
    (r₁.seq_axis ≠ r₁.batch_axis →
      ReverseSequenceHasher GenericHasher param_types y_type r₁ ≠
        ReverseSequenceHasher GenericHasher param_types y_type
          { r₁ with seq_axis := r₁.batch_axis, batch_axis := r₁.seq_axis }) := by
  have hrs : ∀ r r' : ReverseSequenceArgs,
      (ReverseSequenceHasher GenericHasher param_types y_type r =
        ReverseSequenceHasher GenericHasher param_types y_type r' ↔
      r.seq_axis = r'.seq_axis ∧ r.batch_axis = r'.batch_axis) := by
    intro r r'
    simp only [ReverseSequenceHasher, HashKey.lshift_eq_iff, true_and]
  refine ⟨?_, hrs r₁ r₂, ?_⟩
  · rcases h₁ with h₁ | ⟨n₁, h₁⟩ <;> rcases h₂ with h₂ | ⟨n₂, h₂⟩
    · refine ⟨_, _, by simp only [RepeatHasher, h₁]; rfl, by simp only [RepeatHasher, h₂]; rfl, ?_⟩
      simp [h₁, h₂, HashKey.lshift_eq_iff]
    · refine ⟨_, _, by simp only [RepeatHasher, h₁]; rfl, by simp only [RepeatHasher, h₂]; rfl, ?_⟩
      simp only [h₁, h₂]
      constructor
      · intro h; exact absurd h.symm (HashKey.lshift_lshift_ne _ _ _ _)
      · rintro ⟨_, h⟩; cases h
    · refine ⟨_, _, by simp only [RepeatHasher, h₁]; rfl, by simp only [RepeatHasher, h₂]; rfl, ?_⟩
      simp only [h₁, h₂]
      constructor
      · intro h; exact absurd h (HashKey.lshift_lshift_ne _ _ _ _)
      · rintro ⟨_, h⟩; cases h
    · refine ⟨_, _, by simp only [RepeatHasher, h₁]; rfl, by simp only [RepeatHasher, h₂]; rfl, ?_⟩
      simp only [h₁, h₂, HashKey.lshift_eq_iff, true_and]
      constructor
      · rintro ⟨a, b⟩; exact ⟨a, by rw [b]⟩
      · rintro ⟨a, b⟩; cases b; exact ⟨a, rfl⟩
  · intro hne h
    have := (hrs r₁ { r₁ with seq_axis := r₁.batch_axis, batch_axis := r₁.seq_axis }).1 h
    exact hne this.1

/-- C11, on `repeat(x, 2, axis=0)` against `repeat(x, 2)` and on
`reverse_sequence` with `seq_axis = 1`, `batch_axis = 0` against the same record
and its swap. -/
theorem Hashers_repeat_reverse_sequence_witness :
    (∃ k₁ k₂,
      RepeatHasher (fun _ _ => { items := [] }) [] .Undefined
        { x := .TensorValue 0, repeats := 2, axis := some (.IntValue 0) } = .ok k₁ ∧
      RepeatHasher (fun _ _ => { items := [] }) [] .Undefined
        { x := .TensorValue 0, repeats := 2, axis := none } = .ok k₂ ∧
      (k₁ = k₂ ↔ (2 : Int) = 2 ∧ some (Value.IntValue 0) = none)) ∧
    (ReverseSequenceHasher (fun _ _ => { items := [] }) [] .Undefined
        { x := .TensorValue 0, sequence_length := .TensorValue 1, seq_axis := 1, batch_axis := 0 } =
      ReverseSequenceHasher (fun _ _ => { items := [] }) [] .Undefined
        { x := .TensorValue 0, sequence_length := .TensorValue 1, seq_axis := 1, batch_axis := 0 } ↔
      (1 : Int) = 1 ∧ (0 : Int) = 0) ∧
    ((1 : Int) ≠ 0 →
      ReverseSequenceHasher (fun _ _ => { items := [] }) [] .Undefined
        { x := .TensorValue 0, sequence_length := .TensorValue 1, seq_axis := 1, batch_axis := 0 } ≠
      ReverseSequenceHasher (fun _ _ => { items := [] }) [] .Undefined
        { x := .TensorValue 0, sequence_length := .TensorValue 1, seq_axis := 0, batch_axis := 1 }) :=
  Hashers_repeat_reverse_sequence (fun _ _ => { items := [] }) [] .Undefined
    { x := .TensorValue 0, repeats := 2, axis := some (.IntValue 0) }
    { x := .TensorValue 0, repeats := 2, axis := none }
    { x := .TensorValue 0, sequence_length := .TensorValue 1, seq_axis := 1, batch_axis := 0 }
    { x := .TensorValue 0, sequence_length := .TensorValue 1, seq_axis := 1, batch_axis := 0 }
    (Or.inr ⟨0, rfl⟩) (Or.inl rfl)

/-! ### Normalizers and the gradient rule: the claims -/

theorem Integer_of_int (n : Int) (hlo : -2147483648 ≤ n) (hhi : n < 2147483648) :
    Integer n = n := by
  unfold Integer
  omega

/-- C12 as stated fails: the axis `2^32 + 1` comes back as the axis `1` in the
attribute record. -/
theorem TakeNormalizer_axis_counterexample :
    TakeNormalizer (fun _ => { shape := [4], dtype := "float32" })
        { inputs := [], outputs := [{ shape := [2], dtype := "float32" }] }
        { x := .TensorValue 0, indices := .TensorValue 1, axis := some (.IntValue 4294967297) } =
      .ok ({ inputs := [{ shape := [4], dtype := "float32" }, { shape := [4], dtype := "float32" }],
             outputs := [{ shape := [2], dtype := "float32" }] },
           { axis := some 1, mode := "clip" }) ∧
    (1 : Int) ≠ 4294967297 :=
  ⟨rfl, by decide⟩

/-- C12, amended: on a `Take` record with one output and an axis that is absent
or an integer, `TakeNormalizer` succeeds, the input list becomes exactly
`[x, indices]`, and the attribute record has the mode `"clip"` and as axis the
null value when the axis is absent, the given integer converted to `int` when
it is present: the given integer itself when it lies in the range of a 32-bit
signed integer. -/
theorem TakeNormalizer_ok (GetDLTensor : Value → DLTensor) (env : TVMOpEnv) (args : TakeArgs)
    (hout : env.outputs.length = 1)
    (haxis : args.axis = none ∨ ∃ n, args.axis = some (.IntValue n)) :
    ∃ attrs, TakeNormalizer GetDLTensor env args =
        .ok ({ inputs := [GetDLTensor args.x, GetDLTensor args.indices],
               outputs := env.outputs }, attrs) ∧
      attrs.mode = "clip" ∧
      (args.axis = none → attrs.axis = none) ∧
      (∀ n, args.axis = some (.IntValue n) →
        attrs.axis = some (Integer n) ∧
        (-2147483648 ≤ n → n < 2147483648 → attrs.axis = some n)) := by
  rcases haxis with h | ⟨n, h⟩
  · refine ⟨{ axis := none, mode := "clip" }, ?_, rfl, fun _ => rfl, ?_⟩
    · simp only [TakeNormalizer, hout, h]; rfl
    · intro m hm; rw [h] at hm; cases hm
  · refine ⟨{ axis := some (Integer n), mode := "clip" }, ?_, rfl, ?_, ?_⟩
    · simp only [TakeNormalizer, hout, h]; rfl
    · intro hn; rw [h] at hn; cases hn
    · intro m hm; rw [h] at hm; cases hm
      exact ⟨rfl, fun hlo hhi => by rw [Integer_of_int n hlo hhi]⟩

/-- C12 amended, on `take(x, idx, axis=1)` with one output. -/
theorem TakeNormalizer_ok_witness :
    ∃ attrs, TakeNormalizer (fun _ => { shape := [4], dtype := "float32" })
        { inputs := [], outputs := [{ shape := [2], dtype := "float32" }] }
        { x := .TensorValue 0, indices := .TensorValue 1, axis := some (.IntValue 1) } =
        .ok ({ inputs := [{ shape := [4], dtype := "float32" }, { shape := [4], dtype := "float32" }],
               outputs := [{ shape := [2], dtype := "float32" }] }, attrs) ∧
      attrs.mode = "clip" ∧
      (some (Value.IntValue 1) = none → attrs.axis = none) ∧
      (∀ n, some (Value.IntValue 1) = some (.IntValue n) →
        attrs.axis = some (Integer n) ∧
        (-2147483648 ≤ n → n < 2147483648 → attrs.axis = some n)) :=
  TakeNormalizer_ok (fun _ => { shape := [4], dtype := "float32" })
    { inputs := [], outputs := [{ shape := [2], dtype := "float32" }] }
    { x := .TensorValue 0, indices := .TensorValue 1, axis := some (.IntValue 1) }
    rfl (Or.inr ⟨1, rfl⟩)

/-- C13, the code at the failing input: on a record whose `indices_or_sections`
is a string, `SplitNormalizer` returns normally, with `indices_or_sections`
unset in the attribute record. -/
theorem SplitNormalizer_unset (GetDLTensor : Value → DLTensor) (env : TVMOpEnv) (x : Value)
    (axis : Int) :
    SplitNormalizer GetDLTensor env
        { x := x, indices_or_sections := .StringValue "two", axis := axis } =
      .ok ({ inputs := [GetDLTensor x], outputs := env.outputs },
           { indices_or_sections := none, axis := axis }) :=
  rfl

/-- C14: for a forward call with the arguments `x, axis, keepdims, ...`, an
output `y` and an output gradient `dy`, `MeanGrad` returns exactly one
expression, the call of `mnm.op.mean_dx` on `x, y, dy, axis, keepdims`. -/
theorem MeanGrad_ok (op : Expr) (x axis keepdims : Expr) (more : List Expr) (attrs : Attrs)
    (y dy : Expr) :
    MeanGrad (.Call op (x :: axis :: keepdims :: more) attrs) y dy =
      .ok [.Call (.Op "mnm.op.mean_dx") [x, y, dy, axis, keepdims] none] :=
  rfl

/-! ### `InplaceUpdate`: the module, scoping, projections of a parameter -/

theorem InplaceRewriter.call_frame {may_share : Var → Option Var} {func func' : Function}
    (h : InplaceRewriter.call may_share func = .ok func') :
    func'.params = func.params ∧ func'.ret_type = func.ret_type ∧
      func'.type_params = func.type_params ∧ func'.attrs = func.attrs := by
  simp only [InplaceRewriter.call] at h
  obtain ⟨st, _, h⟩ := bind_ok_inv h
  obtain ⟨body, _, h⟩ := bind_ok_inv h
  cases h
  exact ⟨rfl, rfl, rfl, rfl⟩

/-- C15: when `InplaceUpdate` succeeds, the output module has the names of the
input module, in the same order, and under each name the function that
`InplaceRewriter` returns for the input function of that name alone; that
function has the parameters, return type, type parameters and attributes of the
input function. -/
theorem InplaceUpdate_frame (may_share : Var → Option Var) (mod mod' : Module)
    (h : InplaceUpdate may_share mod = .ok mod') :
    mod'.map Prod.fst = mod.map Prod.fst ∧
    List.Forall₂ (fun kv kv' =>
      kv'.1 = kv.1 ∧ InplaceRewriter.call may_share kv.2 = .ok kv'.2 ∧
      kv'.2.params = kv.2.params ∧ kv'.2.ret_type = kv.2.ret_type ∧
      kv'.2.type_params = kv.2.type_params ∧ kv'.2.attrs = kv.2.attrs) mod mod' := by
  induction mod generalizing mod' with
  | nil =>
    cases h
    exact ⟨rfl, List.Forall₂.nil⟩
  | cons kv rest ih =>
    simp only [InplaceUpdate] at h
    obtain ⟨f, h0, h⟩ := bind_ok_inv h
    obtain ⟨rest', h1, h⟩ := bind_ok_inv h
    cases h
    obtain ⟨ih1, ih2⟩ := ih rest' h1
    obtain ⟨a, b, c, d⟩ := InplaceRewriter.call_frame h0
    refine ⟨?_, List.Forall₂.cons ⟨rfl, h0, a, b, c, d⟩ ih2⟩
    simp only [List.map_cons, ih1]

/-- C15, on the module with the one function `s = alloc_storage(); t = f(s);
r = g(t); r`. -/
theorem InplaceUpdate_frame_witness :
    [("main", ({ params := [⟨9, "b"⟩]
                 body := .Let ⟨2, "r"⟩ (.Call (.Op "g") [.Var ⟨9, "b"⟩] none) (.Var ⟨2, "r"⟩)
                 ret_type := .Undefined, type_params := [], attrs := none } : Function))].map
        Prod.fst =
      [("main", exampleFunction
        (.Let ⟨2, "r"⟩ (.Call (.Op "g") [.Var ⟨1, "t"⟩] none) (.Var ⟨2, "r"⟩)))].map Prod.fst ∧
    List.Forall₂ (fun kv kv' =>
      kv'.1 = kv.1 ∧ InplaceRewriter.call exampleShare kv.2 = .ok kv'.2 ∧
      kv'.2.params = kv.2.params ∧ kv'.2.ret_type = kv.2.ret_type ∧
      kv'.2.type_params = kv.2.type_params ∧ kv'.2.attrs = kv.2.attrs)
      [("main", exampleFunction
        (.Let ⟨2, "r"⟩ (.Call (.Op "g") [.Var ⟨1, "t"⟩] none) (.Var ⟨2, "r"⟩)))]
      [("main", ({ params := [⟨9, "b"⟩]
                   body := .Let ⟨2, "r"⟩ (.Call (.Op "g") [.Var ⟨9, "b"⟩] none) (.Var ⟨2, "r"⟩)
                   ret_type := .Undefined, type_params := [], attrs := none } : Function))] :=
  InplaceUpdate_frame exampleShare _ _ rfl

/-- C16, the code at the failing input: in `s1 = alloc_storage(); x = f(s1);
s2 = alloc_storage(); z = g(s2); z` with parameter `p`, where `x` may share `p`
and `z` may share `x`, every variable use is in scope; the pass succeeds and
returns the body `x`, a variable whose binding it removed and that is no
parameter. -/
theorem InplaceUpdate_dangling :
    chainedFunction.wellScoped = true ∧
    InplaceUpdate chainedShare [("main", chainedFunction)] =
      .ok [("main", { params := [⟨9, "p"⟩], body := .Var ⟨1, "x"⟩
                      ret_type := .Undefined, type_params := [], attrs := none })] ∧
    Function.wellScoped { params := [⟨9, "p"⟩], body := .Var ⟨1, "x"⟩
                          ret_type := .Undefined, type_params := [], attrs := none } = false :=
  ⟨by decide, rfl, by decide⟩

/-- C19, the code at the failing input: on the function with parameter `p`,
without annotations, whose body is `y = TupleGetItem(p, 0); y`, the analysis
throws at `simplify_[p]`, since `p` is not bound in the chain, and so does the
pass. -/
theorem InplaceUpdate_projection_of_parameter :
    InplaceVisitor.call (fun _ => none) InplaceVisitor.init
        { params := [⟨9, "p"⟩]
          body := .Let ⟨4, "y"⟩ (.TupleGetItem (.Var ⟨9, "p"⟩) 0) (.Var ⟨4, "y"⟩)
          ret_type := .Undefined, type_params := [], attrs := none } = .error .keyNotFound ∧
    InplaceUpdate (fun _ => none)
        [("main", { params := [⟨9, "p"⟩]
                    body := .Let ⟨4, "y"⟩ (.TupleGetItem (.Var ⟨9, "p"⟩) 0) (.Var ⟨4, "y"⟩)
                    ret_type := .Undefined, type_params := [], attrs := none })] =
      .error .keyNotFound :=
  ⟨rfl, rfl⟩

/-! ### `InplaceVisitor`: the analysis of an arbitrary chain -/

theorem ExplicitLetList.make_ok_both :
    (∀ (e : Expr) (ell : ExplicitLetList), ExplicitLetList.make e = .ok ell →
      ell.vars = e.letChain.map Prod.fst ∧ ell.exprs = e.letChain.map Prod.snd ∧
        ell.vars.Nodup) ∧
    (∀ _es : List Expr, True) := by
  apply Expr.induct
  case hLet =>
    intro var value body _ ihb ell h
    simp only [ExplicitLetList.make] at h
    obtain ⟨ell0, h0, h⟩ := bind_ok_inv h
    obtain ⟨a, b, c⟩ := ihb ell0 h0
    split at h
    · cases h
    · rename_i hnot
      cases h
      simp only [Expr.letChain, List.map_cons, a, b, true_and]
      rw [a] at hnot c
      exact List.nodup_cons.2 ⟨hnot, c⟩
  all_goals intros
  all_goals first
    | trivial
    | (rename_i h; cases h; exact ⟨rfl, rfl, List.nodup_nil⟩)

theorem ExplicitLetList.make_ok {e : Expr} {ell : ExplicitLetList}
    (h : ExplicitLetList.make e = .ok ell) :
    ell.vars = e.letChain.map Prod.fst ∧ ell.exprs = e.letChain.map Prod.snd ∧ ell.vars.Nodup :=
  ExplicitLetList.make_ok_both.1 e ell h

namespace InplaceVisitor

theorem VisitExpr_keep {st st' : InplaceVisitor} {lv : Var} {e : Expr}
    (h : st.VisitExpr lv e = .ok st') :
    st'.vmap = st.vmap ∧ st'.binding_ = st.binding_ ∧
      ∀ v, v ≠ lv → st'.simplify_ v = st.simplify_ v := by
  cases e
  case TupleGetItem t i =>
    simp only [VisitExpr] at h
    obtain ⟨tv, _, h⟩ := bind_ok_inv h
    obtain ⟨sv, _, h⟩ := bind_ok_inv h
    obtain ⟨b, _, h⟩ := bind_ok_inv h
    split at h
    · split at h
      · cases h
      · obtain ⟨fv, _, h⟩ := bind_ok_inv h
        cases h
        exact ⟨rfl, rfl, fun v hv => VarMap.Set_other _ _ _ _ hv⟩
    · cases h
      exact ⟨rfl, rfl, fun _ _ => rfl⟩
  case Var w =>
    cases h
    exact ⟨rfl, rfl, fun v hv => VarMap.Set_other _ _ _ _ hv⟩
  all_goals (cases h; exact ⟨rfl, rfl, fun _ _ => rfl⟩)

theorem loop1_keep {L : List (Var × Expr)} {st st' : InplaceVisitor} (h : loop1 L st = .ok st') :
    st'.vmap = st.vmap ∧
      ∀ v, v ∉ L.map Prod.fst →
        st'.simplify_ v = st.simplify_ v ∧ st'.binding_ v = st.binding_ v := by
  induction L generalizing st with
  | nil => cases h; exact ⟨rfl, fun _ _ => ⟨rfl, rfl⟩⟩
  | cons p L ih =>
    obtain ⟨var, expr⟩ := p
    simp only [loop1] at h
    obtain ⟨st2, h2, h⟩ := bind_ok_inv h
    obtain ⟨hv2, hb2, hs2⟩ := VisitExpr_keep h2
    obtain ⟨hv', hrest⟩ := ih h
    refine ⟨by rw [hv', hv2], ?_⟩
    intro v hv
    simp only [List.map_cons, List.mem_cons, not_or] at hv
    obtain ⟨a, c⟩ := hrest v hv.2
    rw [a, c, hs2 v hv.1, hb2]
    exact ⟨VarMap.Set_other _ _ _ _ hv.1, VarMap.Set_other _ _ _ _ hv.1⟩

theorem loop1_append (A B : List (Var × Expr)) (st : InplaceVisitor) :
    loop1 (A ++ B) st = (loop1 A st >>= loop1 B) := by
  induction A generalizing st with
  | nil => rfl
  | cons p A ih =>
    obtain ⟨var, expr⟩ := p
    simp only [List.cons_append, loop1]
    cases VisitExpr { st with simplify_ := st.simplify_.Set var var,
                              binding_ := st.binding_.Set var expr } var expr with
    | error err => rfl
    | ok st2 => exact ih st2

/-- The first loop at one entry `(v, e)` of a chain that binds `v` once: the
visit of `e` runs in the state left by the entries before, and what it leaves
at `v` is what the loop returns at `v`. -/
theorem loop1_split {A B : List (Var × Expr)} {v : Var} {e : Expr} {st st' : InplaceVisitor}
    (h : loop1 (A ++ (v, e) :: B) st = .ok st') (hB : v ∉ B.map Prod.fst) :
    ∃ stA st2, loop1 A st = .ok stA ∧
      VisitExpr { stA with simplify_ := stA.simplify_.Set v v,
                           binding_ := stA.binding_.Set v e } v e = .ok st2 ∧
      loop1 B st2 = .ok st' ∧
      st'.simplify_ v = st2.simplify_ v ∧ st'.binding_ v = some e := by
  rw [loop1_append] at h
  obtain ⟨stA, hA, h⟩ := bind_ok_inv h
  simp only [loop1] at h
  obtain ⟨st2, h2, h⟩ := bind_ok_inv h
  obtain ⟨_, hkeep⟩ := loop1_keep h
  obtain ⟨a, c⟩ := hkeep v hB
  refine ⟨stA, st2, hA, h2, h, a, ?_⟩
  rw [c, (VisitExpr_keep h2).2.1]
  exact VarMap.Set_self _ _ _

theorem share_keep {may_share : Var → Option Var} {st st' : InplaceVisitor} {v : Var}
    (h : share may_share st v = .ok st') :
    st'.simplify_ = st.simplify_ ∧ st'.binding_ = st.binding_ := by
  simp only [share] at h
  split at h
  · cases h; exact ⟨rfl, rfl⟩
  · obtain ⟨s, _, h⟩ := bind_ok_inv h
    obtain ⟨e, _, h⟩ := bind_ok_inv h
    split at h
    · split at h
      · obtain ⟨a0, _, h⟩ := bind_ok_inv h
        obtain ⟨arg, _, h⟩ := bind_ok_inv h
        obtain ⟨sa, _, h⟩ := bind_ok_inv h
        obtain ⟨b, _, h⟩ := bind_ok_inv h
        split at h
        · split at h
          · cases h; exact ⟨rfl, rfl⟩
          · cases h
        · cases h
      · cases h
    · cases h; exact ⟨rfl, rfl⟩

theorem loop2_keep {may_share : Var → Option Var} {L : List Var} {st st' : InplaceVisitor}
    (h : loop2 may_share L st = .ok st') :
    st'.simplify_ = st.simplify_ ∧ st'.binding_ = st.binding_ := by
  induction L generalizing st with
  | nil => cases h; exact ⟨rfl, rfl⟩
  | cons v L ih =>
    simp only [loop2] at h
    obtain ⟨st1, h1, h⟩ := bind_ok_inv h
    obtain ⟨a, b⟩ := share_keep h1
    obtain ⟨c, d⟩ := ih h
    exact ⟨c.trans a, d.trans b⟩

/-- The two loops behind a successful analysis. -/
theorem call_ok {may_share : Var → Option Var} {func : Function} {st : InplaceVisitor}
    (h : call may_share init func = .ok st) :
    (func.body.letChain.map Prod.fst).Nodup ∧
    ∃ st1, loop1 func.body.letChain init = .ok st1 ∧
      loop2 may_share (func.body.letChain.map Prod.fst) st1 = .ok st ∧
      st.simplify_ = st1.simplify_ ∧ st.binding_ = st1.binding_ ∧ st1.vmap = VarMap.empty := by
  simp only [call] at h
  obtain ⟨ell, hmake, h⟩ := bind_ok_inv h
  obtain ⟨hv, he, hnd⟩ := ExplicitLetList.make_ok hmake
  split at h
  · cases h
  · obtain ⟨st1, h1, h⟩ := bind_ok_inv h
    rw [hv, he, zip_map_fst_snd] at h1
    rw [hv] at h hnd
    obtain ⟨a, b⟩ := loop2_keep h
    exact ⟨hnd, st1, h1, h, a, b, (loop1_keep h1).1⟩

end InplaceVisitor

theorem nodup_fst_unique {α β : Type} {L : List (α × β)} (hnd : (L.map Prod.fst).Nodup)
    {k : α} {x y : β} (hx : (k, x) ∈ L) (hy : (k, y) ∈ L) : x = y := by
  induction L with
  | nil => cases hx
  | cons p L ih =>
    simp only [List.map_cons, List.nodup_cons] at hnd
    rcases List.mem_cons.1 hx with rfl | hx' <;> rcases List.mem_cons.1 hy with h2 | hy'
    · cases h2; rfl
    · exact absurd (List.mem_map.2 ⟨_, hy', rfl⟩) hnd.1
    · subst h2; exact absurd (List.mem_map.2 ⟨_, hx', rfl⟩) hnd.1
    · exact ih hnd.2 hx' hy'

theorem nodup_split_notin {α β : Type} {A B : List (α × β)} {k : α} {x : β}
    (hnd : ((A ++ (k, x) :: B).map Prod.fst).Nodup) :
    k ∉ B.map Prod.fst ∧ k ∉ A.map Prod.fst ∧ (A.map Prod.fst).Nodup := by
  simp only [List.map_append, List.map_cons] at hnd
  have h1 := List.nodup_append.1 hnd
  refine ⟨(List.nodup_cons.1 h1.2.1).1, ?_, h1.1⟩
  intro hk
  exact h1.2.2 hk (List.mem_cons_self _ _)

namespace InplaceVisitor

/-- What the first loop leaves at a variable that the chain binds once: its
value in `binding_`; in `simplify_` the copied variable when the value is a
variable, and the variable itself when the value is neither a variable nor a
`TupleGetItem`. -/
theorem loop1_entry {L : List (Var × Expr)} {st st' : InplaceVisitor}
    (h : loop1 L st = .ok st') (hnd : (L.map Prod.fst).Nodup) {v : Var} {e : Expr}
    (hmem : (v, e) ∈ L) :
    st'.binding_ v = some e ∧
    (∀ w, e = .Var w → st'.simplify_ v = some w) ∧
    (e.isTupleGetItem = false → (∀ w, e ≠ .Var w) → st'.simplify_ v = some v) := by
  obtain ⟨A, B, rfl⟩ := List.append_of_mem hmem
  obtain ⟨hB, _, _⟩ := nodup_split_notin hnd
  obtain ⟨stA, st2, _, h2, _, hs, hb⟩ := loop1_split h hB
  refine ⟨hb, ?_, ?_⟩
  · rintro w rfl
    cases h2
    rw [hs]
    exact VarMap.Set_self _ _ _
  · intro htgi hvar
    rw [hs]
    cases e
    case TupleGetItem t i => simp [Expr.isTupleGetItem] at htgi
    case Var w => exact absurd rfl (hvar w)
    all_goals (cases h2; exact VarMap.Set_self _ _ _)

/-- The second loop when `y` is the only annotated variable of a chain that
binds it once: it is the one step for `y`. -/
theorem loop2_only (may_share : Var → Option Var) (y : Var) (L : List Var)
    (st : InplaceVisitor) (hnone : ∀ v ∈ L, v ≠ y → may_share v = none) (hy : y ∈ L)
    (hnd : L.Nodup) : loop2 may_share L st = share may_share st y := by
  induction L with
  | nil => cases hy
  | cons v L ih =>
    simp only [loop2]
    by_cases e : v = y
    · subst e
      have hrest : ∀ w ∈ L, may_share w = none := by
        intro w hw
        apply hnone w (List.mem_cons_of_mem _ hw)
        rintro rfl
        exact (List.nodup_cons.1 hnd).1 hw
      cases hs : share may_share st v with
      | error err => rfl
      | ok st1 =>
        simp only [bind, Except.bind]
        exact loop2_none may_share L st1 hrest
    · have hv : may_share v = none := hnone v (List.mem_cons_self _ _) e
      have hs : share may_share st v = .ok st := by simp only [share, hv]; rfl
      simp only [hs, bind, Except.bind]
      apply ih (fun w hw => hnone w (List.mem_cons_of_mem _ hw))
      · rcases List.mem_cons.1 hy with h | h
        · exact absurd h.symm e
        · exact h
      · exact (List.nodup_cons.1 hnd).2

theorem loop2_congr_on {may_share may_share' : Var → Option Var} {L : List Var}
    {st : InplaceVisitor}
    (h : ∀ v ∈ L, ∀ st' : InplaceVisitor, st'.simplify_ = st.simplify_ →
      st'.binding_ = st.binding_ → share may_share' st' v = share may_share st' v) :
    loop2 may_share' L st = loop2 may_share L st := by
  induction L generalizing st with
  | nil => rfl
  | cons v L ih =>
    simp only [loop2, h v (List.mem_cons_self _ _) st rfl rfl]
    cases hs : share may_share st v with
    | error e => rfl
    | ok st1 =>
      obtain ⟨a, b⟩ := share_keep hs
      exact ih (fun w hw st' h1 h2 =>
        h w (List.mem_cons_of_mem _ hw) st' (h1.trans a) (h2.trans b))

theorem call_congr_on {may_share may_share' : Var → Option Var} {func : Function}
    (h : ∀ st1, loop1 func.body.letChain init = .ok st1 →
      loop2 may_share' (func.body.letChain.map Prod.fst) st1 =
        loop2 may_share (func.body.letChain.map Prod.fst) st1) :
    call may_share' init func = call may_share init func := by
  simp only [call]
  cases hmake : ExplicitLetList.make func.body with
  | error e => rfl
  | ok ell =>
    obtain ⟨hv, he, _⟩ := ExplicitLetList.make_ok hmake
    show (if ell.vars.length ≠ ell.exprs.length then _ else _) =
      (if ell.vars.length ≠ ell.exprs.length then _ else _)
    split
    · rfl
    · show (loop1 _ init >>= _) = (loop1 _ init >>= _)
      cases hl : loop1 (ell.vars.zip ell.exprs) init with
      | error e => rfl
      | ok st1 =>
        rw [hv, he, zip_map_fst_snd] at hl
        have := h st1 hl
        rw [← hv] at this
        exact this

/-- The step of the second loop at a variable that resolves to a variable bound
to something that is no call changes nothing, whatever the annotation. -/
theorem share_not_call {may_share : Var → Option Var} {st : InplaceVisitor} {c b : Var}
    {e : Expr} (hs : st.simplify_ c = some b) (hb : st.binding_ b = some e)
    (he : ∀ op args attrs, e ≠ .Call op args attrs) :
    share may_share st c = .ok st := by
  simp only [share]
  split
  · rfl
  · simp only [VarMap.at, hs, hb, bind, Except.bind]
    rfl

/-- A projection of a variable that resolves to a variable bound to something
that is no tuple records no alias. -/
theorem VisitExpr_not_tuple {st st' : InplaceVisitor} {y c b : Var} {i : Nat} {e : Expr}
    (h : st.VisitExpr y (.TupleGetItem (.Var c) i) = .ok st')
    (hs : st.simplify_ c = some b) (hb : st.binding_ b = some e)
    (he : ∀ fields, e ≠ .Tuple fields) : st' = st := by
  simp only [VisitExpr, DowncastVar, VarMap.at, hs, hb, bind, Except.bind] at h
  cases h
  rfl

end InplaceVisitor

/-- C18 as stated fails: in `s = alloc_storage(); a = f(s); b = a; c = b; c` the
simplification map sends `c` to `b`, not to `a`.  With the annotation on `c` the
pass returns the function unchanged; with the same annotation on `a` it returns
`b = p; c = b; c`.  And in `a = (p, q); b = a; c = b; y = TupleGetItem(c, 0); y`
the projection of `c` is not resolved, while the same projection of `a` is
resolved to `p`. -/
theorem InplaceVisitor_copy_counterexample :
    (∃ st, InplaceVisitor.call (onlyShare ⟨3, "c"⟩) InplaceVisitor.init copyChainFunction =
        .ok st ∧ st.simplify_ ⟨3, "c"⟩ = some ⟨2, "b"⟩ ∧ st.simplify_ ⟨2, "b"⟩ = some ⟨1, "a"⟩) ∧
    InplaceUpdate (onlyShare ⟨3, "c"⟩) [("main", copyChainFunction)] =
      .ok [("main", copyChainFunction)] ∧
    InplaceUpdate (onlyShare ⟨1, "a"⟩) [("main", copyChainFunction)] =
      .ok [("main", { params := [⟨9, "p"⟩]
                      body := .Let ⟨2, "b"⟩ (.Var ⟨9, "p"⟩)
                        (.Let ⟨3, "c"⟩ (.Var ⟨2, "b"⟩) (.Var ⟨3, "c"⟩))
                      ret_type := .Undefined, type_params := [], attrs := none })] ∧
    (∃ st, InplaceVisitor.call (fun _ => none) InplaceVisitor.init copiedTupleFunction = .ok st ∧
      st.simplify_ ⟨4, "y"⟩ = some ⟨4, "y"⟩) ∧
    (∃ st, InplaceVisitor.call (fun _ => none) InplaceVisitor.init directTupleFunction = .ok st ∧
      st.simplify_ ⟨4, "y"⟩ = some ⟨9, "p"⟩) :=
  ⟨⟨_, rfl, rfl, rfl⟩, rfl, rfl, ⟨_, rfl, rfl⟩, ⟨_, rfl, rfl⟩⟩

/-- C18, amended: when the analysis succeeds, the simplification map sends the
variable of every top-level binding `c = b` whose value is a variable to that
variable `b`, one step and no further; so when `b` is itself bound to a
variable (`b = a; c = b`), an annotation on `c` records nothing: the analysis
and the rewrite are those of the annotations without the one on `c`; and a
projection `y = TupleGetItem(c, i)` of `c` is not resolved: the simplification
map sends `y` to itself. -/
theorem InplaceVisitor_copy (may_share : Var → Option Var) (func : Function)
    (st : InplaceVisitor) (c b : Var)
    (hvis : InplaceVisitor.call may_share InplaceVisitor.init func = .ok st)
    (hmem : (c, Expr.Var b) ∈ func.body.letChain) :
    st.simplify_ c = some b ∧
    ∀ a, (b, Expr.Var a) ∈ func.body.letChain →
      st.simplify_ b = some a ∧
      InplaceVisitor.call (fun v => if v = c then none else may_share v) InplaceVisitor.init
        func = .ok st ∧
      InplaceRewriter.call (fun v => if v = c then none else may_share v) func =
        InplaceRewriter.call may_share func ∧
      ∀ y i, (y, Expr.TupleGetItem (.Var c) i) ∈ func.body.letChain →
        st.simplify_ y = some y := by
  obtain ⟨hnd, st1, h1, _, hs, _, _⟩ := InplaceVisitor.call_ok hvis
  have hc : st.simplify_ c = some b := by
    rw [hs]
    exact (InplaceVisitor.loop1_entry h1 hnd hmem).2.1 b rfl
  refine ⟨hc, fun a ha => ?_⟩
  have hcall : InplaceVisitor.call (fun v => if v = c then none else may_share v)
      InplaceVisitor.init func = InplaceVisitor.call may_share InplaceVisitor.init func := by
    apply InplaceVisitor.call_congr_on
    intro st1' h1'
    rw [h1] at h1'
    cases h1'
    apply InplaceVisitor.loop2_congr_on
    intro v _ st' hs' hb'
    by_cases hvc : v = c
    · subst hvc
      have e1 : st'.simplify_ v = some b := by
        rw [hs']; exact (InplaceVisitor.loop1_entry h1 hnd hmem).2.1 b rfl
      have e2 : st'.binding_ b = some (Expr.Var a) := by
        rw [hb']; exact (InplaceVisitor.loop1_entry h1 hnd ha).1
      rw [InplaceVisitor.share_not_call e1 e2 (fun _ _ _ h => by cases h),
        InplaceVisitor.share_not_call e1 e2 (fun _ _ _ h => by cases h)]
    · simp only [InplaceVisitor.share, if_neg hvc]
  refine ⟨?_, by rw [hcall, hvis], ?_, ?_⟩
  · rw [hs]
    exact (InplaceVisitor.loop1_entry h1 hnd ha).2.1 a rfl
  · simp only [InplaceRewriter.call, hcall]
  · intro y i hy
    obtain ⟨A, B, hL⟩ := List.append_of_mem hy
    have hnd' := hnd
    rw [hL] at h1 hnd'
    obtain ⟨hyB, hyA, hndA⟩ := nodup_split_notin hnd'
    obtain ⟨stA, st2, hA, hvisit, _, hsy, _⟩ := InplaceVisitor.loop1_split h1 hyB
    have hcy : c ≠ y := by
      rintro rfl
      have := nodup_fst_unique hnd hmem hy
      cases this
    -- every pair of the prefix is a pair of the chain
    have hsub : ∀ p, p ∈ A → p ∈ func.body.letChain := by
      intro p hp
      rw [hL]
      exact List.mem_append_left _ hp
    -- the state before the projection knows `c` as a copy of `b`
    have hcA : c ∈ A.map Prod.fst := by
      by_contra hno
      have hnone := ((InplaceVisitor.loop1_keep hA).2 c hno).1
      simp only [InplaceVisitor.VisitExpr, DowncastVar, VarMap.at, bind, Except.bind,
        VarMap.Set_other _ _ _ _ hcy, hnone] at hvisit
      cases hvisit
    obtain ⟨⟨c', ec⟩, hcmem, hceq⟩ := List.mem_map.1 hcA
    simp only at hceq
    subst hceq
    have hec : ec = Expr.Var b := nodup_fst_unique hnd (hsub _ hcmem) hmem
    subst hec
    have hsc : stA.simplify_ c' = some b := (InplaceVisitor.loop1_entry hA hndA hcmem).2.1 b rfl
    have hsc' : (stA.simplify_.Set y y) c' = some b := by
      rw [VarMap.Set_other _ _ _ _ hcy]; exact hsc
    -- the binding of `b` in that state is no tuple
    have hbind : ∃ eb, (stA.binding_.Set y (Expr.TupleGetItem (.Var c') i)) b = some eb ∧
        ∀ fields, eb ≠ Expr.Tuple fields := by
      by_cases hby : b = y
      · subst hby
        exact ⟨_, VarMap.Set_self _ _ _, fun _ h => by cases h⟩
      · rw [VarMap.Set_other _ _ _ _ hby]
        by_cases hbA : b ∈ A.map Prod.fst
        · obtain ⟨⟨b', eb⟩, hbmem, hbeq⟩ := List.mem_map.1 hbA
          simp only at hbeq
          subst hbeq
          have heb : eb = Expr.Var a := nodup_fst_unique hnd (hsub _ hbmem) ha
          subst heb
          exact ⟨_, (InplaceVisitor.loop1_entry hA hndA hbmem).1, fun _ h => by cases h⟩
        · exfalso
          have hnone := ((InplaceVisitor.loop1_keep hA).2 b hbA).2
          simp only [InplaceVisitor.VisitExpr, DowncastVar, VarMap.at, bind, Except.bind,
            hsc', VarMap.Set_other _ _ _ _ hby, hnone] at hvisit
          cases hvisit
    obtain ⟨eb, hbeb, hnt⟩ := hbind
    have hst2 := InplaceVisitor.VisitExpr_not_tuple hvisit hsc' hbeb hnt
    rw [hs, hsy, hst2]
    exact VarMap.Set_self _ _ _

/-- C18 amended, on `a = (p, q); b = a; c = b; y = TupleGetItem(c, 0); y` with
`c` annotated: `c` goes to `b` and `b` to `a`, the annotation on `c` changes
nothing, and `y` goes to itself. -/
theorem InplaceVisitor_copy_witness :
    copiedTupleState.simplify_ ⟨3, "c"⟩ = some ⟨2, "b"⟩ ∧
    copiedTupleState.simplify_ ⟨2, "b"⟩ = some ⟨1, "a"⟩ ∧
    InplaceVisitor.call (fun v => if v = ⟨3, "c"⟩ then none else onlyShare ⟨3, "c"⟩ v)
      InplaceVisitor.init copiedTupleFunction = .ok copiedTupleState ∧
    InplaceRewriter.call (fun v => if v = ⟨3, "c"⟩ then none else onlyShare ⟨3, "c"⟩ v)
      copiedTupleFunction = InplaceRewriter.call (onlyShare ⟨3, "c"⟩) copiedTupleFunction ∧
    copiedTupleState.simplify_ ⟨4, "y"⟩ = some ⟨4, "y"⟩ :=
  have h := InplaceVisitor_copy (onlyShare ⟨3, "c"⟩) copiedTupleFunction copiedTupleState
    ⟨3, "c"⟩ ⟨2, "b"⟩ rfl (by simp [copiedTupleFunction, Expr.letChain])
  have ha := h.2 ⟨1, "a"⟩ (by simp [copiedTupleFunction, Expr.letChain])
  ⟨h.1, ha.1, ha.2.1, ha.2.2.1,
    ha.2.2.2 ⟨4, "y"⟩ 0 (by simp [copiedTupleFunction, Expr.letChain])⟩

/-- C20 as stated fails: in `s = alloc_storage(); a = f(s); t = (a);
y = TupleGetItem(t, 0); z = TupleGetItem(t, 0); a`, where `y` may share `p` and
`z` may share `q`, both projections resolve to `a`, the record for `z` overwrites
the record for `y`, and the uses of `a` are replaced by `q`, not by `p`. -/
theorem InplaceVisitor_projection_counterexample :
    InplaceUpdate projectionShare [("main", projectionFunction
        (.Let ⟨4, "z"⟩ (.TupleGetItem (.Var ⟨2, "t"⟩) 0) (.Var ⟨1, "a"⟩)))] =
      .ok [("main", { params := [⟨9, "p"⟩, ⟨10, "q"⟩]
                      body := .Let ⟨2, "t"⟩ (.Tuple [.Var ⟨10, "q"⟩])
                        (.Let ⟨3, "y"⟩ (.TupleGetItem (.Var ⟨2, "t"⟩) 0)
                          (.Let ⟨4, "z"⟩ (.TupleGetItem (.Var ⟨2, "t"⟩) 0) (.Var ⟨10, "q"⟩)))
                      ret_type := .Undefined, type_params := [], attrs := none })] :=
  rfl

/-- C20, amended: when the analysis succeeds on a function whose top-level chain
binds `t = Tuple(fields)` before `y = TupleGetItem(t, i)`, with the variable `a`
as field `i`, the simplification map sends `y` to `a`; and when `y` is the only
annotated variable of the chain, with target `b`, and `a` is bound to a call
whose first argument is another variable `s`, bound to a call, then that call
is an `alloc_storage` call, `vmap` sends `a` to `b` and marks `s` dead and holds
nothing else: the rewrite replaces the uses of `a` by `b` and leaves the uses
of `y`. -/
theorem InplaceVisitor_projection (may_share : Var → Option Var) (func : Function)
    (st : InplaceVisitor) (pre mid post : List (Var × Expr)) (t y a : Var)
    (fields : List Expr) (i : Nat)
    (hvis : InplaceVisitor.call may_share InplaceVisitor.init func = .ok st)
    (hchain : func.body.letChain =
      pre ++ (t, .Tuple fields) :: (mid ++ (y, .TupleGetItem (.Var t) i) :: post))
    (hfield : fields.get? i = some (.Var a)) :
    st.simplify_ y = some a ∧
    ∀ (b s : Var) (f : Expr) (args : List Expr) (fAttrs : Attrs) (op : Expr)
      (allocArgs : List Expr) (allocAttrs : Attrs),
      may_share y = some b →
      (∀ v ∈ func.body.letChain.map Prod.fst, v ≠ y → may_share v = none) →
      (a, Expr.Call f (.Var s :: args) fAttrs) ∈ func.body.letChain →
      (s, Expr.Call op allocArgs allocAttrs) ∈ func.body.letChain →
      s ≠ a →
      isAllocStorageOp op = true ∧
      st.vmap = (VarMap.empty.Set a (some b)).Set s none ∧
      InplaceRewriter.VisitVar st.vmap a = .ok b ∧
      InplaceRewriter.VisitVar st.vmap y = .ok y := by
  obtain ⟨hnd, st1, h1, h2, hs, hb, hv1⟩ := InplaceVisitor.call_ok hvis
  -- the state in which the projection is visited
  have hL : func.body.letChain =
      (pre ++ (t, .Tuple fields) :: mid) ++ (y, .TupleGetItem (.Var t) i) :: post := by
    rw [hchain]; simp
  have hnd' := hnd
  rw [hL] at h1 hnd'
  obtain ⟨hyB, hyA, hndA⟩ := nodup_split_notin hnd'
  obtain ⟨stA, st2, hA, hvisit, _, hsy, _⟩ := InplaceVisitor.loop1_split h1 hyB
  have htmem : (t, Expr.Tuple fields) ∈ pre ++ (t, .Tuple fields) :: mid := by simp
  obtain ⟨hbt, _, hst⟩ := InplaceVisitor.loop1_entry hA hndA htmem
  have hst' := hst rfl (fun w h => by cases h)
  have hty : t ≠ y := by
    rintro rfl
    exact hyA (List.mem_map.2 ⟨_, htmem, rfl⟩)
  have hres : st1.simplify_ y = some a := by
    rw [hsy]
    simp only [InplaceVisitor.VisitExpr, DowncastVar, VarMap.at, bind, Except.bind,
      VarMap.Set_other _ _ _ _ hty, hst', hbt, hfield, pure, Except.pure] at hvisit
    cases hvisit
    exact VarMap.Set_self _ _ _
  refine ⟨by rw [hs]; exact hres, ?_⟩
  intro b s f args fAttrs op allocArgs allocAttrs hshare honly ha hsmem hsa
  have hymem : (y, Expr.TupleGetItem (.Var t) i) ∈ func.body.letChain := by rw [hL]; simp
  have h1' : InplaceVisitor.loop1 func.body.letChain InplaceVisitor.init = .ok st1 := by
    rw [hL]; exact h1
  obtain ⟨hba, _, _⟩ := InplaceVisitor.loop1_entry h1' hnd ha
  obtain ⟨hbs, _, hss⟩ := InplaceVisitor.loop1_entry h1' hnd hsmem
  have hss' := hss rfl (fun w h => by cases h)
  have hya : y ≠ a := by
    rintro rfl
    have := nodup_fst_unique hnd hymem ha
    cases this
  have hys : y ≠ s := by
    rintro rfl
    have := nodup_fst_unique hnd hymem hsmem
    cases this
  rw [InplaceVisitor.loop2_only may_share y _ st1 honly
    (List.mem_map.2 ⟨_, hymem, rfl⟩) hnd] at h2
  simp only [InplaceVisitor.share, hshare, VarMap.at, hres, hba, bind, Except.bind, List.get?,
    pure, Except.pure, DowncastVar, hss', hbs] at h2
  split at h2
  · rename_i hop
    cases h2
    have hvm : ((st1.vmap.Set a (some b)).Set s none) =
        ((VarMap.empty.Set a (some b)).Set s none) := by rw [hv1]
    refine ⟨hop, hvm, ?_, ?_⟩
    · show InplaceRewriter.VisitVar ((st1.vmap.Set a (some b)).Set s none) a = .ok b
      have hk : ((st1.vmap.Set a (some b)).Set s none) a = some (some b) := by
        rw [VarMap.Set_other _ _ _ _ (Ne.symm hsa)]; exact VarMap.Set_self _ _ _
      have hne : ((st1.vmap.Set a (some b)).Set s none) a ≠ some none := by rw [hk]; simp
      rw [InplaceRewriter.VisitVar_of_alive hne]
      simp [VarMap.subst, hk]
    · show InplaceRewriter.VisitVar ((st1.vmap.Set a (some b)).Set s none) y = .ok y
      have hk : ((st1.vmap.Set a (some b)).Set s none) y = none := by
        rw [VarMap.Set_other _ _ _ _ hys, VarMap.Set_other _ _ _ _ hya, hv1]; rfl
      have hne : ((st1.vmap.Set a (some b)).Set s none) y ≠ some none := by rw [hk]; simp
      rw [InplaceRewriter.VisitVar_of_alive hne]
      simp [VarMap.subst, hk]
  · cases h2

/-- C20 amended, on `s = alloc_storage(); a = f(s); t = (a);
y = TupleGetItem(t, 0); y`, where `y` may share `p`. -/
theorem InplaceVisitor_projection_witness :
    (match InplaceVisitor.call projectionShare InplaceVisitor.init
        (projectionFunction (.Var ⟨3, "y"⟩)) with
      | .ok st => st
      | .error _ => InplaceVisitor.init).simplify_ ⟨3, "y"⟩ = some ⟨1, "a"⟩ ∧
    (isAllocStorageOp alloc_storage_op = true ∧
      (match InplaceVisitor.call projectionShare InplaceVisitor.init
          (projectionFunction (.Var ⟨3, "y"⟩)) with
        | .ok st => st
        | .error _ => InplaceVisitor.init).vmap =
        (VarMap.empty.Set ⟨1, "a"⟩ (some ⟨9, "p"⟩)).Set ⟨0, "s"⟩ none ∧
      InplaceRewriter.VisitVar
        (match InplaceVisitor.call projectionShare InplaceVisitor.init
          (projectionFunction (.Var ⟨3, "y"⟩)) with
        | .ok st => st
        | .error _ => InplaceVisitor.init).vmap ⟨1, "a"⟩ = .ok ⟨9, "p"⟩ ∧
      InplaceRewriter.VisitVar
        (match InplaceVisitor.call projectionShare InplaceVisitor.init
          (projectionFunction (.Var ⟨3, "y"⟩)) with
        | .ok st => st
        | .error _ => InplaceVisitor.init).vmap ⟨3, "y"⟩ = .ok ⟨3, "y"⟩) :=
  have h := InplaceVisitor_projection projectionShare (projectionFunction (.Var ⟨3, "y"⟩)) _
    [(⟨0, "s"⟩, .Call alloc_storage_op [] none),
     (⟨1, "a"⟩, .Call (.Op "f") [.Var ⟨0, "s"⟩] none)] [] []
    ⟨2, "t"⟩ ⟨3, "y"⟩ ⟨1, "a"⟩ [.Var ⟨1, "a"⟩] 0 rfl rfl rfl
  ⟨h.1, h.2 ⟨9, "p"⟩ ⟨0, "s"⟩ (.Op "f") [] none alloc_storage_op [] none (by decide)
    (by decide) (by simp [projectionFunction, Expr.letChain])
    (by simp [projectionFunction, Expr.letChain]) (by decide)⟩

/-! ### `RenameVars`: distinct names -/

theorem digitChar_value (k : Nat) (h : k < 10) : (Nat.digitChar k).toNat - 48 = k := by
  interval_cases k <;> rfl

theorem toDigitsCore_value (fuel : Nat) : ∀ (n : Nat) (ds : List Char), n < fuel →
    decimalValue (Nat.toDigitsCore 10 fuel n ds) =
      ds.foldl (fun acc c => acc * 10 + (c.toNat - 48)) n := by
  induction fuel with
  | zero => intro n ds h; omega
  | succ fuel ih =>
    intro n ds h
    simp only [Nat.toDigitsCore]
    split
    · rename_i h0
      simp only [decimalValue, List.foldl_cons, Nat.zero_mul, Nat.zero_add,
        digitChar_value _ (Nat.mod_lt n (by omega))]
      have : n % 10 = n := by omega
      rw [this]
    · rename_i h0
      have hlt : n / 10 < fuel := by omega
      rw [ih (n / 10) _ hlt]
      simp only [List.foldl_cons, digitChar_value _ (Nat.mod_lt n (by omega))]
      have : n / 10 * 10 + n % 10 = n := by omega
      rw [this]

theorem decimalValue_repr (n : Nat) : decimalValue (Nat.repr n).data = n := by
  simp only [Nat.repr, Nat.toDigits, List.asString]
  rw [toDigitsCore_value (n + 1) n [] (by omega)]
  rfl

/-- The canonical names of two different counters are different. -/
theorem canonicalName_injective :
    Function.Injective (fun k : Nat => "a" ++ toString (k + 1)) := by
  intro j k h
  have h1 := congrArg String.data h
  simp only [String.data_append] at h1
  have h2 := List.append_cancel_left h1
  have h3 := congrArg decimalValue h2
  have e1 : toString (j + 1) = Nat.repr (j + 1) := rfl
  have e2 : toString (k + 1) = Nat.repr (k + 1) := rfl
  rw [e1, e2, decimalValue_repr, decimalValue_repr] at h3
  omega

/-- C17 as stated fails: with the table `a1 ↦ p` and the expression
`let x = p; x`, the two different input variables `p` and `x` both get the
name `a1`. -/
theorem RenameVars_injective_counterexample :
    RenameVars true (.Let ⟨7, "x"⟩ (.Var ⟨5, "p"⟩) (.Var ⟨7, "x"⟩)) [("a1", ⟨5, "p"⟩)] 0 =
      .ok (.Let ⟨1, "a1"⟩ (.Var ⟨0, "a1"⟩) (.Var ⟨1, "a1"⟩)) ∧
    (⟨5, "p"⟩ : Var) ≠ ⟨7, "x"⟩ ∧
    (⟨1, "a1"⟩ : Var).name_hint = (⟨0, "a1"⟩ : Var).name_hint :=
  ⟨rfl, by decide, rfl⟩

/-- C17, amended: when `RenameVars` succeeds, the names of the table are
pairwise different and none of them is one of the canonical names `a1`, ...,
`an` that the run hands out (`n` the number of `Let` nodes), two different
input variables (let-bound or listed in the table) get differently named
output variables. -/
theorem RenameVars_injective (body_first : Bool) (e e' : Expr) (T : List (String × Var))
    (heap : Nat) (h : RenameVars body_first e T heap = .ok e')
    (hnames : (T.map Prod.fst).Nodup)
    (hcanon : ∀ s ∈ T.map Prod.fst, ∀ k, k < e.numLets → s ≠ "a" ++ toString (k + 1)) :
    ∃ σ : Var → Var, e' = e.rename σ ∧
      ∀ v w, (v ∈ e.letVars ∨ v ∈ tableVars T) → (w ∈ e.letVars ∨ w ∈ tableVars T) →
        (σ v).name_hint = (σ w).name_hint → v = w := by
  obtain ⟨st', hrun, he'⟩ := RenameVars_ok h
  have hext := RenameVarsMutator.run_extends hrun
  have hn := RenameVarsMutator.run_names hrun
  have hlen : ((e.eventsIn body_first).filterMap Event.bound).length = e.numLets :=
    Expr.length_letVarsIn body_first e
  rw [RenameVarsMutator.new_num_bound_var, hlen] at hn
  simp only [Nat.zero_add] at hn
  have hperm : ((e.eventsIn body_first).filterMap Event.bound).Perm e.letVars :=
    Expr.letVarsIn_perm body_first e
  have hnd : (e.letVars.map (fun v => (st'.var_map.lookup v).name_hint)).Nodup := by
    rw [← (hperm.map _).nodup_iff, hn]
    exact List.Nodup.map canonicalName_injective (List.nodup_range _)
  have hlet : ∀ v ∈ e.letVars, ∃ k, k < e.numLets ∧
      (st'.var_map.lookup v).name_hint = "a" ++ toString (k + 1) := by
    intro v hv
    have hm : (st'.var_map.lookup v).name_hint ∈
        ((e.eventsIn body_first).filterMap Event.bound).map
          (fun v => (st'.var_map.lookup v).name_hint) :=
      List.mem_map.2 ⟨v, hperm.mem_iff.2 hv, rfl⟩
    rw [hn] at hm
    obtain ⟨k, hk, hkeq⟩ := List.mem_map.1 hm
    exact ⟨k, List.mem_range.1 hk, hkeq.symm⟩
  have htab : ∀ v ∈ tableVars T, ((st'.var_map.lookup v).name_hint, v) ∈ T := by
    intro v hv
    have hd := RenameVarsMutator.new_dom heap hv
    cases hw : (RenameVarsMutator.new T heap).var_map v with
    | none => rw [hw] at hd; cases hd
    | some w =>
      rw [VarMap.lookup_of_eq (hext _ _ hw)]
      exact (RenameVarsMutator.new_some hw).1
  have hmix : ∀ v w, v ∈ e.letVars → w ∈ tableVars T →
      (st'.var_map.lookup v).name_hint ≠ (st'.var_map.lookup w).name_hint := by
    intro v w hv hw heq
    obtain ⟨k, hk, hkeq⟩ := hlet v hv
    have hmem : (st'.var_map.lookup w).name_hint ∈ T.map Prod.fst :=
      List.mem_map.2 ⟨_, htab w hw, rfl⟩
    exact hcanon _ hmem k hk (heq ▸ hkeq)
  refine ⟨st'.var_map.lookup, he', ?_⟩
  intro v w hv hw heq
  rcases hv with hv | hv <;> rcases hw with hw | hw
  · exact List.inj_on_of_nodup_map hnd hv hw heq
  · exact absurd heq (hmix v w hv hw)
  · exact absurd heq.symm (hmix w v hw hv)
  · have h1 := htab v hv
    have h2 := htab w hw
    rw [heq] at h1
    exact nodup_fst_unique hnames h1 h2

/-- C17 amended, on `let x = p; x` with the table `p ↦ p`. -/
theorem RenameVars_injective_witness :
    ∃ σ : Var → Var,
      Expr.Let ⟨1, "a1"⟩ (.Var ⟨0, "p"⟩) (.Var ⟨1, "a1"⟩) =
        (Expr.Let ⟨7, "x"⟩ (.Var ⟨5, "q"⟩) (.Var ⟨7, "x"⟩)).rename σ ∧
      ∀ v w,
        (v ∈ (Expr.Let ⟨7, "x"⟩ (.Var ⟨5, "q"⟩) (.Var ⟨7, "x"⟩)).letVars ∨
          v ∈ tableVars [("p", (⟨5, "q"⟩ : Var))]) →
        (w ∈ (Expr.Let ⟨7, "x"⟩ (.Var ⟨5, "q"⟩) (.Var ⟨7, "x"⟩)).letVars ∨
          w ∈ tableVars [("p", (⟨5, "q"⟩ : Var))]) →
        (σ v).name_hint = (σ w).name_hint → v = w :=
  RenameVars_injective true (.Let ⟨7, "x"⟩ (.Var ⟨5, "q"⟩) (.Var ⟨7, "x"⟩)) _ [("p", ⟨5, "q"⟩)]
    0 rfl
    (by decide) (by
      intro s hs k hk
      simp only [List.map_cons, List.map_nil, List.mem_singleton] at hs
      subst hs
      have hk0 : k = 0 := by
        have : (Expr.Let ⟨7, "x"⟩ (.Var ⟨5, "q"⟩) (.Var ⟨7, "x"⟩)).numLets = 1 := rfl
        omega
      subst hk0
      decide)

/-! ### `SplitNormalizer`, `MeanGrad`, `EnumBase`: the claims -/

theorem SplitIndices_ok {fields : List Value} {indices : List Int}
    (h : SplitIndices fields = .ok indices) : fields = indices.map Value.IntValue := by
  induction fields generalizing indices with
  | nil => cases h; rfl
  | cons x fields ih =>
    cases x with
    | IntValue data =>
      simp only [SplitIndices] at h
      obtain ⟨rest, h1, h⟩ := bind_ok_inv h
      cases h
      simp only [List.map_cons, ih h1]
    | BoolValue d => cases h
    | StringValue d => cases h
    | TensorValue d => cases h
    | TupleValue d => cases h

/-- C27: when `SplitNormalizer` succeeds, the input list is exactly `[x]` and the
record carries the given axis; on an integer `indices_or_sections` the number
of outputs equals that integer and the record holds it as the section count; on
a tuple the fields are integers, the number of outputs is their number plus
one, and the record holds them in their order. -/
theorem SplitNormalizer_ok (GetDLTensor : Value → DLTensor) (env env' : TVMOpEnv)
    (args : SplitArgs) (attrs : SplitAttrs)
    (h : SplitNormalizer GetDLTensor env args = .ok (env', attrs)) :
    env'.inputs = [GetDLTensor args.x] ∧ env'.outputs = env.outputs ∧ attrs.axis = args.axis ∧
    (∀ n, args.indices_or_sections = .IntValue n →
      (env.outputs.length : Int) = n ∧ attrs.indices_or_sections = some (.sections n)) ∧
    (∀ fields, args.indices_or_sections = .TupleValue fields →
      ∃ indices, fields = indices.map Value.IntValue ∧
        env.outputs.length = indices.length + 1 ∧
        attrs.indices_or_sections = some (.indices indices)) := by
  unfold SplitNormalizer at h
  cases hios : args.indices_or_sections with
  | IntValue n =>
    simp only [hios] at h
    split at h
    · cases h
    · rename_i hlen
      cases h
      refine ⟨rfl, rfl, rfl, ?_, ?_⟩
      · intro m hm; cases hm
        exact ⟨by simpa using hlen, rfl⟩
      · intro fields hf; cases hf
  | TupleValue fields =>
    simp only [hios] at h
    obtain ⟨indices, hidx, h⟩ := bind_ok_inv h
    split at h
    · cases h
    · rename_i hlen
      cases h
      refine ⟨rfl, rfl, rfl, ?_, ?_⟩
      · intro m hm; cases hm
      · intro fs hf; cases hf
        exact ⟨indices, SplitIndices_ok hidx, by simpa using hlen, rfl⟩
  | BoolValue d =>
    simp only [hios] at h
    cases h
    refine ⟨rfl, rfl, rfl, ?_, ?_⟩ <;> intro _ hm <;> cases hm
  | StringValue d =>
    simp only [hios] at h
    cases h
    refine ⟨rfl, rfl, rfl, ?_, ?_⟩ <;> intro _ hm <;> cases hm
  | TensorValue d =>
    simp only [hios] at h
    cases h
    refine ⟨rfl, rfl, rfl, ?_, ?_⟩ <;> intro _ hm <;> cases hm

/-- C27, on a split at the indices `(2, 5)` with three outputs and axis 1. -/
theorem SplitNormalizer_ok_witness :
    ({ inputs := [{ shape := [10], dtype := "float32" }],
       outputs := [{ shape := [2], dtype := "float32" }, { shape := [3], dtype := "float32" },
         { shape := [5], dtype := "float32" }] } : TVMOpEnv).inputs =
      [(fun _ => ({ shape := [10], dtype := "float32" } : DLTensor)) (Value.TensorValue 0)] ∧
    ({ inputs := [{ shape := [10], dtype := "float32" }],
       outputs := [{ shape := [2], dtype := "float32" }, { shape := [3], dtype := "float32" },
         { shape := [5], dtype := "float32" }] } : TVMOpEnv).outputs =
      [{ shape := [2], dtype := "float32" }, { shape := [3], dtype := "float32" },
         { shape := [5], dtype := "float32" }] ∧
    ({ indices_or_sections := some (.indices [2, 5]), axis := 1 } : SplitAttrs).axis = 1 ∧
    (∀ n, Value.TupleValue [.IntValue 2, .IntValue 5] = .IntValue n →
      (([{ shape := [2], dtype := "float32" }, { shape := [3], dtype := "float32" },
         { shape := [5], dtype := "float32" }] : List DLTensor).length : Int) = n ∧
      ({ indices_or_sections := some (.indices [2, 5]), axis := 1 } :
        SplitAttrs).indices_or_sections = some (.sections n)) ∧
    (∀ fields, Value.TupleValue [.IntValue 2, .IntValue 5] = .TupleValue fields →
      ∃ indices, fields = indices.map Value.IntValue ∧
        ([{ shape := [2], dtype := "float32" }, { shape := [3], dtype := "float32" },
          { shape := [5], dtype := "float32" }] : List DLTensor).length = indices.length + 1 ∧
        ({ indices_or_sections := some (.indices [2, 5]), axis := 1 } :
          SplitAttrs).indices_or_sections = some (.indices indices)) :=
  SplitNormalizer_ok (fun _ => { shape := [10], dtype := "float32" })
    { inputs := [],
      outputs := [{ shape := [2], dtype := "float32" }, { shape := [3], dtype := "float32" },
        { shape := [5], dtype := "float32" }] }
    _ { x := .TensorValue 0, indices_or_sections := .TupleValue [.IntValue 2, .IntValue 5],
        axis := 1 }
    _ rfl

/-- C28: `MeanGrad` fails on every forward call with fewer than three arguments,
and on a call with three arguments or more its result is the same whatever the
operator, the attributes and the arguments after the third. -/
theorem MeanGrad_args (op op' : Expr) (args : List Expr) (attrs attrs' : Attrs)
    (x axis keepdims : Expr) (more more' : List Expr) (y dy : Expr)
    (hshort : args.length < 3) :
    (∃ err, MeanGrad (.Call op args attrs) y dy = .error err) ∧
    MeanGrad (.Call op (x :: axis :: keepdims :: more) attrs) y dy =
      MeanGrad (.Call op' (x :: axis :: keepdims :: more') attrs') y dy := by
  refine ⟨?_, rfl⟩
  match args, hshort with
  | [], _ => exact ⟨_, rfl⟩
  | [_], _ => exact ⟨_, rfl⟩
  | [_, _], _ => exact ⟨_, rfl⟩
  | _ :: _ :: _ :: _, h => simp at h; omega

/-- C28, on `mean(x, axis)` (two arguments) and on two calls that differ after
the third argument. -/
theorem MeanGrad_args_witness :
    (∃ err, MeanGrad (.Call (.Op "mnm.op.mean") [.Var ⟨0, "x"⟩, .Constant 1] none)
      (.Var ⟨1, "y"⟩) (.Var ⟨2, "dy"⟩) = .error err) ∧
    MeanGrad (.Call (.Op "mnm.op.mean") [.Var ⟨0, "x"⟩, .Constant 1, .Constant 0, .Constant 7] none)
        (.Var ⟨1, "y"⟩) (.Var ⟨2, "dy"⟩) =
      MeanGrad (.Call (.Op "mnm.op.mean") [.Var ⟨0, "x"⟩, .Constant 1, .Constant 0] none)
        (.Var ⟨1, "y"⟩) (.Var ⟨2, "dy"⟩) :=
  MeanGrad_args (.Op "mnm.op.mean") (.Op "mnm.op.mean") [.Var ⟨0, "x"⟩, .Constant 1] none none
    (.Var ⟨0, "x"⟩) (.Constant 1) (.Constant 0) [.Constant 7] [] (.Var ⟨1, "y"⟩) (.Var ⟨2, "dy"⟩)
    (by decide)

namespace enum_base_details

theorem collect.c_str_length (f : Nat → String) (n : Nat) : (collect.c_str f n).length = n := by
  induction n with
  | zero => rfl
  | succ n ih => simp [collect.c_str, ih]

theorem collect.c_str_get (f : Nat → String) (n i : Nat) (h : i < n) :
    (collect.c_str f n).get? i = some (f i) := by
  induction n with
  | zero => omega
  | succ n ih =>
    simp only [collect.c_str]
    by_cases hi : i < n
    · rw [List.get?_eq_getElem?, List.getElem?_append_left (by rw [collect.c_str_length]; exact hi),
        ← List.get?_eq_getElem?]
      exact ih hi
    · have : i = n := by omega
      subst this
      rw [List.get?_eq_getElem?, List.getElem?_append_right (by rw [collect.c_str_length])]
      simp [collect.c_str_length]

theorem collect.plain_length {α : Type} (g : Nat → α) (n : Nat) :
    (collect.plain g n).length = n := by
  induction n with
  | zero => rfl
  | succ n ih => simp [collect.plain, ih]

theorem collect.plain_get {α : Type} (g : Nat → α) (n i : Nat) (h : i < n) :
    (collect.plain g n).get? i = some (g i) := by
  induction n with
  | zero => omega
  | succ n ih =>
    simp only [collect.plain]
    by_cases hi : i < n
    · rw [List.get?_eq_getElem?, List.getElem?_append_left (by rw [collect.plain_length]; exact hi),
        ← List.get?_eq_getElem?]
      exact ih hi
    · have : i = n := by omega
      subst this
      rw [List.get?_eq_getElem?, List.getElem?_append_right (by rw [collect.plain_length])]
      simp [collect.plain_length]

end enum_base_details

/-- C29: `collect<T, underlying, numel>::c_str()` is a list of exactly `numel`
names whose element `i` is the name declared for the entry value `i`, and
`plain()` likewise for the plain values; and for every enum value that the
constructor accepts, the field `v` (the argument converted to `int`, the
argument itself when it lies in the range of `int`) satisfies `0 <= v < numel`,
and `c_str()` and `plain()` return the name and the plain value declared for
`v`. -/
theorem EnumBase_collect {plain_t : Type} (_c_str : Nat → String) (_plain : Nat → plain_t)
    (numel : Nat) (_v : Int) (e : enum_base_details.EnumBase numel)
    (h : enum_base_details.EnumBase.make numel _v = .ok e) :
    (enum_base_details.collect.c_str _c_str numel).length = numel ∧
    (∀ i, i < numel → (enum_base_details.collect.c_str _c_str numel).get? i = some (_c_str i)) ∧
    (enum_base_details.collect.plain _plain numel).length = numel ∧
    (∀ i, i < numel → (enum_base_details.collect.plain _plain numel).get? i = some (_plain i)) ∧
    e.v = (_v + 2147483648) % 4294967296 - 2147483648 ∧
    (-2147483648 ≤ _v → _v < 2147483648 → e.v = _v) ∧
    0 ≤ e.v ∧ e.v < numel ∧
    e.c_str _c_str = .ok (_c_str e.v.toNat) ∧ e.plain _plain = .ok (_plain e.v.toNat) := by
  unfold enum_base_details.EnumBase.make at h
  dsimp only at h
  split at h
  · rename_i hv
    cases h
    have hlt : ((_v + 2147483648) % 4294967296 - 2147483648).toNat < numel := by omega
    refine ⟨enum_base_details.collect.c_str_length _ _,
      fun i hi => enum_base_details.collect.c_str_get _ _ i hi,
      enum_base_details.collect.plain_length _ _,
      fun i hi => enum_base_details.collect.plain_get _ _ i hi, rfl,
      (fun hlo hhi => by show (_v + 2147483648) % 4294967296 - 2147483648 = _v; omega),
      hv.1, hv.2, ?_, ?_⟩
    · simp only [enum_base_details.EnumBase.c_str,
        enum_base_details.collect.c_str_get _ _ _ hlt]
    · simp only [enum_base_details.EnumBase.plain,
        enum_base_details.collect.plain_get _ _ _ hlt]
  · cases h

/-- C29, on the entry 1 of an enumeration with three entries, constructed from
the value `2^32 + 1` of a 64-bit underlying type. -/
theorem EnumBase_collect_witness :
    (enum_base_details.collect.c_str exampleNames 3).length = 3 ∧
    (∀ i, i < 3 → (enum_base_details.collect.c_str exampleNames 3).get? i =
      some (exampleNames i)) ∧
    (enum_base_details.collect.plain examplePlains 3).length = 3 ∧
    (∀ i, i < 3 → (enum_base_details.collect.plain examplePlains 3).get? i =
      some (examplePlains i)) ∧
    ({ v := 1 } : enum_base_details.EnumBase 3).v =
      ((4294967297 : Int) + 2147483648) % 4294967296 - 2147483648 ∧
    (-2147483648 ≤ (4294967297 : Int) → (4294967297 : Int) < 2147483648 →
      ({ v := 1 } : enum_base_details.EnumBase 3).v = 4294967297) ∧
    0 ≤ ({ v := 1 } : enum_base_details.EnumBase 3).v ∧
    ({ v := 1 } : enum_base_details.EnumBase 3).v < (3 : Nat) ∧
    enum_base_details.EnumBase.c_str exampleNames ({ v := 1 } : enum_base_details.EnumBase 3) =
      .ok (exampleNames ({ v := 1 } : enum_base_details.EnumBase 3).v.toNat) ∧
    enum_base_details.EnumBase.plain examplePlains ({ v := 1 } : enum_base_details.EnumBase 3) =
      .ok (examplePlains ({ v := 1 } : enum_base_details.EnumBase 3).v.toNat) :=
  EnumBase_collect exampleNames examplePlains 3 4294967297 { v := 1 } rfl

/-! ### `InplaceUpdate`: functions without annotation, the keys of `vmap` -/

theorem Expr.rename_id_both (σ : mnm.Var → mnm.Var) (hσ : ∀ v, σ v = v) :
    (∀ e : Expr, e.rename σ = e) ∧ (∀ es : List Expr, Expr.renameList σ es = es) := by
  have hmap : ∀ ps : List mnm.Var, ps.map σ = ps := by
    intro ps
    induction ps with
    | nil => rfl
    | cons p ps ih => simp [hσ, ih]
  apply Expr.induct <;> intros <;> simp_all [Expr.rename, Expr.renameList]

theorem VarMap.subst_empty (v : Var) : (VarMap.empty : VarMap (Option Var)).subst v = v := rfl

/-- Without an annotated variable in the top-level chain, the analysis records
nothing and the rewrite rebuilds the function as it is. -/
theorem InplaceRewriter.call_no_annotation {may_share : Var → Option Var} {func func' : Function}
    (hnone : ∀ v ∈ func.body.letChain.map Prod.fst, may_share v = none)
    (h : InplaceRewriter.call may_share func = .ok func') : func' = func := by
  simp only [InplaceRewriter.call] at h
  obtain ⟨st, hvis, h⟩ := bind_ok_inv h
  obtain ⟨body, hb, h⟩ := bind_ok_inv h
  cases h
  obtain ⟨_, st1, _, hl2, _, _, hv1⟩ := InplaceVisitor.call_ok hvis
  rw [InplaceVisitor.loop2_none may_share _ st1 hnone] at hl2
  cases hl2
  rw [hv1, (InplaceRewriter.VisitExpr_rename_both VarMap.empty).1 func.body (fun _ _ => rfl)
    (fun _ _ => by simp [VarMap.empty]),
    (Expr.rename_id_both _ VarMap.subst_empty).1] at hb
  cases hb
  rfl

namespace InplaceVisitor

theorem share_keys {may_share : Var → Option Var} {st st' : InplaceVisitor} {v : Var}
    (h : share may_share st v = .ok st') :
    ∀ k, st'.vmap k ≠ none → st.vmap k ≠ none ∨ st.binding_ k ≠ none ∨ st.simplify_ k ≠ none := by
  simp only [share] at h
  split at h
  · cases h; exact fun k hk => .inl hk
  · obtain ⟨s, hs, h⟩ := bind_ok_inv h
    obtain ⟨e, he, h⟩ := bind_ok_inv h
    split at h
    · split at h
      · obtain ⟨a0, _, h⟩ := bind_ok_inv h
        obtain ⟨arg, _, h⟩ := bind_ok_inv h
        obtain ⟨sa, hsa, h⟩ := bind_ok_inv h
        obtain ⟨b, _, h⟩ := bind_ok_inv h
        split at h
        · split at h
          · cases h
            intro k hk
            by_cases e1 : k = arg
            · subst e1
              refine .inr (.inr ?_)
              intro hn
              simp [VarMap.at, hn] at hsa
            · by_cases e2 : k = s
              · subst e2
                refine .inr (.inl ?_)
                intro hn
                simp [VarMap.at, hn] at he
              · left
                simpa [VarMap.Set, e1, e2] using hk
          · cases h
        · cases h
      · cases h
    · cases h; exact fun k hk => .inl hk

theorem loop2_keys {may_share : Var → Option Var} {L : List Var} {st st' : InplaceVisitor}
    (h : loop2 may_share L st = .ok st') :
    ∀ k, st'.vmap k ≠ none → st.vmap k ≠ none ∨ st.binding_ k ≠ none ∨ st.simplify_ k ≠ none := by
  induction L generalizing st with
  | nil => cases h; exact fun k hk => .inl hk
  | cons v L ih =>
    simp only [loop2] at h
    obtain ⟨st1, h1, h⟩ := bind_ok_inv h
    obtain ⟨a, b⟩ := share_keep h1
    intro k hk
    rcases ih h k hk with hk | hk | hk
    · exact share_keys h1 k hk
    · exact .inr (.inl (b ▸ hk))
    · exact .inr (.inr (a ▸ hk))

theorem loop2_congr {may_share may_share' : Var → Option Var} {L : List Var}
    (hms : ∀ v ∈ L, may_share' v = may_share v) (st : InplaceVisitor) :
    loop2 may_share' L st = loop2 may_share L st := by
  induction L generalizing st with
  | nil => rfl
  | cons v L ih =>
    have hv : share may_share' st v = share may_share st v := by
      simp only [share, hms v (List.mem_cons_self _ _)]
    simp only [loop2, hv]
    cases share may_share st v with
    | error e => rfl
    | ok st1 => exact ih (fun w hw => hms w (List.mem_cons_of_mem _ hw)) st1

/-- The analysis reads the annotation of the variables of the top-level chain
only. -/
theorem call_congr {may_share may_share' : Var → Option Var} {func : Function}
    (hms : ∀ v ∈ func.body.letChain.map Prod.fst, may_share' v = may_share v) :
    call may_share' init func = call may_share init func := by
  simp only [call]
  cases hmake : ExplicitLetList.make func.body with
  | error e => rfl
  | ok ell =>
    obtain ⟨hv, _, _⟩ := ExplicitLetList.make_ok hmake
    show (if ell.vars.length ≠ ell.exprs.length then _ else _) =
      (if ell.vars.length ≠ ell.exprs.length then _ else _)
    split
    · rfl
    · show (loop1 _ init >>= _) = (loop1 _ init >>= _)
      cases loop1 (ell.vars.zip ell.exprs) init with
      | error e => rfl
      | ok st1 => exact loop2_congr (hv ▸ hms) st1

/-- Every key of the `vmap` of a successful analysis is bound in the top-level
chain. -/
theorem call_keys {may_share : Var → Option Var} {func : Function} {st : InplaceVisitor}
    (h : call may_share init func = .ok st) :
    ∀ k, st.vmap k ≠ none → k ∈ func.body.letChain.map Prod.fst := by
  obtain ⟨_, st1, hl1, hl2, _, _, hv1⟩ := call_ok h
  intro k hk
  by_contra hmem
  obtain ⟨hs, hb⟩ := (loop1_keep hl1).2 k hmem
  rcases loop2_keys hl2 k hk with h1 | h1 | h1
  · exact h1 (by rw [hv1]; rfl)
  · exact h1 (by rw [hb]; rfl)
  · exact h1 (by rw [hs]; rfl)

end InplaceVisitor

/-- C23: on a module in no function of which a let-bound variable is annotated,
a successful `InplaceUpdate` returns the module as it is: every function comes
back equal to the input function. -/
theorem InplaceUpdate_no_annotation (may_share : Var → Option Var) (mod mod' : Module)
    (hnone : ∀ kv ∈ mod, ∀ v ∈ kv.2.body.letVars, may_share v = none)
    (h : InplaceUpdate may_share mod = .ok mod') : mod' = mod := by
  induction mod generalizing mod' with
  | nil => cases h; rfl
  | cons kv rest ih =>
    simp only [InplaceUpdate] at h
    obtain ⟨f, h1, h⟩ := bind_ok_inv h
    obtain ⟨rest', h2, h⟩ := bind_ok_inv h
    cases h
    have hf : f = kv.2 := InplaceRewriter.call_no_annotation
      (fun v hv => hnone kv (List.mem_cons_self _ _) v
        ((Expr.letChain_sublist kv.2.body).subset hv)) h1
    rw [hf, ih rest' (fun kv' hkv => hnone kv' (List.mem_cons_of_mem _ hkv)) h2]

/-- C23, on the function `a = g(); x = f(a); x` under annotations of other
variables. -/
theorem InplaceUpdate_no_annotation_witness :
    InplaceUpdate exampleShare [("main", notAllocFunction)] = .ok [("main", notAllocFunction)] ∧
    [("main", notAllocFunction)] = [("main", notAllocFunction)] :=
  ⟨rfl, InplaceUpdate_no_annotation exampleShare [("main", notAllocFunction)]
    [("main", notAllocFunction)] (by decide) rfl⟩

/-- C24: after a successful analysis every key of `vmap` is a variable bound in
the top-level let chain of the function; the analysis gives the same result
under every annotation that agrees with the given one on the variables of the
chain; and a variable that the chain does not bind is no key, whatever its
annotation, and the rewriter keeps a `Let` of such a variable around the
rewritten value and body. -/
theorem InplaceVisitor_keys (may_share : Var → Option Var) (func : Function)
    (st : InplaceVisitor) (h : InplaceVisitor.call may_share InplaceVisitor.init func = .ok st) :
    (∀ k, st.vmap k ≠ none → k ∈ func.body.letChain.map Prod.fst) ∧
    (∀ may_share' : Var → Option Var,
      (∀ v ∈ func.body.letChain.map Prod.fst, may_share' v = may_share v) →
        InplaceVisitor.call may_share' InplaceVisitor.init func = .ok st) ∧
    (∀ v, v ∉ func.body.letChain.map Prod.fst →
      st.vmap v = none ∧
      ∀ value body, InplaceRewriter.VisitExpr st.vmap (.Let v value body) =
        (do let value' ← InplaceRewriter.VisitExpr st.vmap value
            let body' ← InplaceRewriter.VisitExpr st.vmap body
            pure (.Let v value' body'))) := by
  have hkeys := InplaceVisitor.call_keys h
  refine ⟨hkeys, fun ms' hms => ?_, fun v hv => ?_⟩
  · rw [InplaceVisitor.call_congr hms, h]
  · have hnone : st.vmap v = none := by
      by_contra hk
      exact hv (hkeys v hk)
    refine ⟨hnone, fun value body => ?_⟩
    simp only [InplaceRewriter.VisitExpr, InplaceRewriter.VisitVar, VarMap.count, hnone]
    rfl

/-- C24, on the function `a = (n = g(); n); a` with the nested variable `n`
annotated. -/
theorem InplaceVisitor_keys_witness :
    (∀ k, (match InplaceVisitor.call (onlyShare ⟨1, "n"⟩) InplaceVisitor.init nestedFunction with
        | .ok st => st | .error _ => InplaceVisitor.init).vmap k ≠ none →
      k ∈ nestedFunction.body.letChain.map Prod.fst) ∧
    (∀ may_share' : Var → Option Var,
      (∀ v ∈ nestedFunction.body.letChain.map Prod.fst, may_share' v = onlyShare ⟨1, "n"⟩ v) →
        InplaceVisitor.call may_share' InplaceVisitor.init nestedFunction =
          .ok (match InplaceVisitor.call (onlyShare ⟨1, "n"⟩) InplaceVisitor.init
                nestedFunction with
            | .ok st => st | .error _ => InplaceVisitor.init)) ∧
    (∀ v, v ∉ nestedFunction.body.letChain.map Prod.fst →
      (match InplaceVisitor.call (onlyShare ⟨1, "n"⟩) InplaceVisitor.init nestedFunction with
        | .ok st => st | .error _ => InplaceVisitor.init).vmap v = none ∧
      ∀ value body, InplaceRewriter.VisitExpr
          (match InplaceVisitor.call (onlyShare ⟨1, "n"⟩) InplaceVisitor.init nestedFunction with
            | .ok st => st | .error _ => InplaceVisitor.init).vmap (.Let v value body) =
        (do let value' ← InplaceRewriter.VisitExpr
              (match InplaceVisitor.call (onlyShare ⟨1, "n"⟩) InplaceVisitor.init nestedFunction with
                | .ok st => st | .error _ => InplaceVisitor.init).vmap value
            let body' ← InplaceRewriter.VisitExpr
              (match InplaceVisitor.call (onlyShare ⟨1, "n"⟩) InplaceVisitor.init nestedFunction with
                | .ok st => st | .error _ => InplaceVisitor.init).vmap body
            pure (.Let v value' body'))) :=
  InplaceVisitor_keys (onlyShare ⟨1, "n"⟩) nestedFunction
    (match InplaceVisitor.call (onlyShare ⟨1, "n"⟩) InplaceVisitor.init nestedFunction with
      | .ok st => st | .error _ => InplaceVisitor.init) rfl

/-! ### `InplaceUpdate`: a sharing call without allocation, dropped bindings, dead allocations -/

theorem DowncastVar_ok {e : Expr} {w : Var} (h : DowncastVar e = .ok w) : e = .Var w := by
  cases e <;> cases h
  rfl

namespace InplaceVisitor

theorem loop2_mem {may_share : Var → Option Var} {L : List Var} {st st' : InplaceVisitor}
    (h : loop2 may_share L st = .ok st') :
    ∀ v ∈ L, ∃ sta stb, share may_share sta v = .ok stb ∧
      sta.simplify_ = st.simplify_ ∧ sta.binding_ = st.binding_ := by
  induction L generalizing st with
  | nil => intro v hv; cases hv
  | cons w L ih =>
    simp only [loop2] at h
    obtain ⟨st1, h1, h⟩ := bind_ok_inv h
    obtain ⟨a, b⟩ := share_keep h1
    intro v hv
    rcases List.mem_cons.1 hv with rfl | hv
    · exact ⟨st, st1, h1, rfl, rfl⟩
    · obtain ⟨sta, stb, hs, c, d⟩ := ih h v hv
      exact ⟨sta, stb, hs, c.trans a, d.trans b⟩

/-- A successful step of the second loop at an annotated variable bound to a
call: the first argument of the call is a variable, and that variable resolves
to a call of `alloc_storage`. -/
theorem share_inv {may_share : Var → Option Var} {st st' : InplaceVisitor} {v b s : Var}
    {f : Expr} {args : List Expr} {attrs : Attrs}
    (h : share may_share st v = .ok st') (hms : may_share v = some b)
    (hs : st.simplify_ v = some s) (hb : st.binding_ s = some (.Call f args attrs)) :
    ∃ arg rest sa op aa aat, args = .Var arg :: rest ∧ st.simplify_ arg = some sa ∧
      st.binding_ sa = some (.Call op aa aat) ∧ isAllocStorageOp op = true := by
  simp only [share] at h
  split at h
  · rename_i hn
    rw [hms] at hn
    cases hn
  · obtain ⟨s', hs', h⟩ := bind_ok_inv h
    obtain ⟨e, he, h⟩ := bind_ok_inv h
    simp only [VarMap.at, hs] at hs'
    cases hs'
    simp only [VarMap.at, hb] at he
    cases he
    simp only at h
    split at h
    · rename_i a0 ha0
      obtain ⟨a0', h0, h⟩ := bind_ok_inv h
      cases h0
      obtain ⟨arg, harg, h⟩ := bind_ok_inv h
      obtain ⟨sa, hsa, h⟩ := bind_ok_inv h
      obtain ⟨bd, hbd, h⟩ := bind_ok_inv h
      split at h
      · split at h
        · rename_i op aa aat hop
          have hvar : a0 = .Var arg := DowncastVar_ok harg
          subst hvar
          have hargs : ∃ rest, args = .Var arg :: rest := by
            cases args with
            | nil => cases ha0
            | cons x rest =>
              simp only [List.get?] at ha0
              cases ha0
              exact ⟨rest, rfl⟩
          obtain ⟨rest, hargs⟩ := hargs
          refine ⟨arg, rest, sa, op, aa, aat, hargs, ?_, ?_, hop⟩
          · simp only [VarMap.at] at hsa
            split at hsa
            · rename_i y hy
              cases hsa
              exact hy
            · cases hsa
          · simp only [VarMap.at] at hbd
            split at hbd
            · rename_i y hy
              cases hbd
              exact hy
            · cases hbd
        · cases h
      · cases h
    · obtain ⟨a0', h0, _⟩ := bind_ok_inv h
      cases h0

end InplaceVisitor

/-- C21 as stated fails: in `a = g(); x = f(a); x` with `x` annotated, the first
argument of the call is bound to a call of another operator than
`alloc_storage`, and the pass fails at the `CHECK_EQ` instead of returning the
function unchanged. -/
theorem InplaceUpdate_not_alloc_counterexample :
    InplaceUpdate (onlyShare ⟨1, "x"⟩) [("main", notAllocFunction)] = .error .checkFailed ∧
    InplaceUpdate (onlyShare ⟨1, "x"⟩) [("main", notAllocFunction)] ≠
      .ok [("main", notAllocFunction)] :=
  ⟨rfl, fun h => by cases h⟩

/-- C21, amended: when an annotated variable is bound in the top-level chain to
a call with at least one argument whose first argument is no variable, or a
variable that the chain does not bind, or a variable that the chain binds to
something other than a copy, a projection or a call of `alloc_storage`, the
pass fails on the module: no function is returned. -/
theorem InplaceUpdate_not_alloc (may_share : Var → Option Var) (mod : Module) (g : String)
    (func : Function) (v b : Var) (f : Expr) (args : List Expr) (attrs : Attrs)
    (hmem : (g, func) ∈ mod)
    (hbind : (v, Expr.Call f args attrs) ∈ func.body.letChain)
    (hshare : may_share v = some b)
    (_hargs : args ≠ [])
    (hfirst : ∀ arg rest, args = .Var arg :: rest →
      arg ∉ func.body.letChain.map Prod.fst ∨
      ∃ e, (arg, e) ∈ func.body.letChain ∧ e.isTupleGetItem = false ∧ (∀ w, e ≠ .Var w) ∧
        ∀ op aa aat, e = .Call op aa aat → isAllocStorageOp op = false) :
    ∃ err, InplaceUpdate may_share mod = .error err := by
  cases hres : InplaceUpdate may_share mod with
  | error err => exact ⟨err, rfl⟩
  | ok mod' =>
    exfalso
    obtain ⟨func', hcall⟩ := InplaceUpdate_ok_mem hres (g, func) hmem
    simp only [InplaceRewriter.call] at hcall
    obtain ⟨st, hvis, _⟩ := bind_ok_inv hcall
    obtain ⟨hnd, st1, hl1, hl2, _, _, _⟩ := InplaceVisitor.call_ok hvis
    obtain ⟨sta, stb, hstep, hs, hb⟩ :=
      InplaceVisitor.loop2_mem hl2 v (List.mem_map.2 ⟨_, hbind, rfl⟩)
    obtain ⟨hbv, _, hsv⟩ := InplaceVisitor.loop1_entry hl1 hnd hbind
    have hsv := hsv rfl (fun w hw => by cases hw)
    rw [← hs] at hsv
    rw [← hb] at hbv
    obtain ⟨arg, rest, sa, op, aa, aat, hargs, hsa, hbd, hop⟩ :=
      InplaceVisitor.share_inv hstep hshare hsv hbv
    rw [hs] at hsa
    rw [hb] at hbd
    rcases hfirst arg rest hargs with hno | ⟨e, he, htgi, hvar, hcallee⟩
    · rw [((InplaceVisitor.loop1_keep hl1).2 arg hno).1] at hsa
      cases hsa
    · obtain ⟨hbe, _, hse⟩ := InplaceVisitor.loop1_entry hl1 hnd he
      rw [hse htgi hvar] at hsa
      cases hsa
      rw [hbe] at hbd
      cases hbd
      rw [hcallee op aa aat rfl] at hop
      cases hop

/-- C21, amended, on `a = g(); x = f(a); x` with `x` annotated. -/
theorem InplaceUpdate_not_alloc_witness :
    ∃ err, InplaceUpdate (onlyShare ⟨1, "x"⟩) [("main", notAllocFunction)] = .error err :=
  InplaceUpdate_not_alloc (onlyShare ⟨1, "x"⟩) [("main", notAllocFunction)] "main"
    notAllocFunction ⟨1, "x"⟩ ⟨9, "p"⟩ (.Op "f") [.Var ⟨0, "a"⟩] none
    (List.mem_singleton.2 rfl)
    (by simp [notAllocFunction, Expr.letChain])
    rfl
    (List.cons_ne_nil _ _)
    (fun arg rest h => by
      cases h
      exact .inr ⟨.Call (.Op "g") [] none, by simp [notAllocFunction, Expr.letChain], rfl,
        (fun w hw => by cases hw), (fun op aa aat hop => by cases hop; rfl)⟩)

/-- C22: the rewriter replaces a `Let` whose variable is a key of `vmap` by the
rewrite of its body, whatever the value; so an allocation binding followed by
the sharing call on it is replaced by the rewrite of the rest, and when the
rest has no occurrence of the allocation variable and no binding of the
sharing variable, the result is the rest with the sharing variable replaced by
its target, in which neither of the two variables occurs. -/
theorem InplaceRewriter_drops (vmap : VarMap (Option Var)) (v0 v1 b : Var) (e0 f : Expr)
    (args : List Expr) (attrs : Attrs) (rest : Expr)
    (h0 : vmap v0 = some none) (h1 : vmap v1 = some (some b))
    (hkeys : ∀ k, k ≠ v0 → k ≠ v1 → vmap k = none)
    (hb0 : b ≠ v0) (hb1 : b ≠ v1)
    (hrest0 : ∀ ev ∈ rest.events, ev.var ≠ v0) (hrest1 : v1 ∉ rest.letVars) :
    (∀ (m : VarMap (Option Var)) (var : Var) (value body : Expr), m.count var > 0 →
      InplaceRewriter.VisitExpr m (.Let var value body) = InplaceRewriter.VisitExpr m body) ∧
    InplaceRewriter.VisitExpr vmap
        (.Let v0 e0 (.Let v1 (.Call f (.Var v0 :: args) attrs) rest)) =
      .ok (rest.rename (fun v => if v = v1 then b else v)) ∧
    (∀ ev ∈ (rest.rename (fun v => if v = v1 then b else v)).events,
      ev.var ≠ v0 ∧ ev.var ≠ v1) := by
  have hdrop : ∀ (m : VarMap (Option Var)) (var : Var) (value body : Expr), m.count var > 0 →
      InplaceRewriter.VisitExpr m (.Let var value body) = InplaceRewriter.VisitExpr m body := by
    intro m var value body hc
    simp only [InplaceRewriter.VisitExpr, if_pos hc]
  have hlet : ∀ v ∈ rest.letVars, vmap v = none := by
    intro v hv
    refine hkeys v ?_ (fun e => hrest1 (e ▸ hv))
    rw [Expr.letVars_events] at hv
    obtain ⟨ev, hev, hbound⟩ := List.mem_filterMap.1 hv
    cases ev with
    | use w => cases hbound
    | bind w =>
      cases hbound
      exact hrest0 _ hev
  have halive : ∀ ev ∈ rest.events, vmap ev.var ≠ some none := by
    intro ev hev
    by_cases e1 : ev.var = v1
    · rw [e1, h1]
      exact fun h => by cases h
    · rw [hkeys _ (hrest0 ev hev) e1]
      exact fun h => by cases h
  have hsubst : ∀ ev ∈ rest.events, vmap.subst ev.var = if ev.var = v1 then b else ev.var := by
    intro ev hev
    by_cases e1 : ev.var = v1
    · simp only [VarMap.subst, e1, h1, if_true]
    · simp only [VarMap.subst, hkeys _ (hrest0 ev hev) e1, if_neg e1]
  refine ⟨hdrop, ?_, ?_⟩
  · rw [hdrop vmap v0 _ _ (by simp [VarMap.count, h0]), hdrop vmap v1 _ _ (by simp [VarMap.count, h1]),
      (InplaceRewriter.VisitExpr_rename_both vmap).1 rest hlet halive,
      @Expr.rename_congr _ (fun v => if v = v1 then b else v) _ hsubst]
  · intro ev hev
    rw [Expr.events_rename] at hev
    obtain ⟨ev0, hev0, rfl⟩ := List.mem_map.1 hev
    have h00 := hrest0 ev0 hev0
    cases ev0 with
    | use w =>
      simp only [Event.map, Event.var] at h00 ⊢
      by_cases e1 : w = v1
      · simp only [e1, if_true]; exact ⟨hb0, hb1⟩
      · simp only [if_neg e1]; exact ⟨h00, e1⟩
    | bind w =>
      simp only [Event.map, Event.var] at h00 ⊢
      by_cases e1 : w = v1
      · simp only [e1, if_true]; exact ⟨hb0, hb1⟩
      · simp only [if_neg e1]; exact ⟨h00, e1⟩

/-- C22, on `s = alloc_storage(); t = f(s); u = g(t); u` with `t` sharing `b`. -/
theorem InplaceRewriter_drops_witness :
    (∀ (m : VarMap (Option Var)) (var : Var) (value body : Expr), m.count var > 0 →
      InplaceRewriter.VisitExpr m (.Let var value body) = InplaceRewriter.VisitExpr m body) ∧
    InplaceRewriter.VisitExpr (((VarMap.empty : VarMap (Option Var)).Set ⟨1, "t"⟩ (some ⟨9, "b"⟩)).Set ⟨0, "s"⟩ none)
        (.Let ⟨0, "s"⟩ (.Call alloc_storage_op [] none)
          (.Let ⟨1, "t"⟩ (.Call (.Op "f") (.Var ⟨0, "s"⟩ :: []) none)
            (.Let ⟨2, "u"⟩ (.Call (.Op "g") [.Var ⟨1, "t"⟩] none) (.Var ⟨2, "u"⟩)))) =
      .ok ((Expr.Let ⟨2, "u"⟩ (.Call (.Op "g") [.Var ⟨1, "t"⟩] none) (.Var ⟨2, "u"⟩)).rename
        (fun v => if v = ⟨1, "t"⟩ then ⟨9, "b"⟩ else v)) ∧
    (∀ ev ∈ ((Expr.Let ⟨2, "u"⟩ (.Call (.Op "g") [.Var ⟨1, "t"⟩] none) (.Var ⟨2, "u"⟩)).rename
        (fun v => if v = ⟨1, "t"⟩ then ⟨9, "b"⟩ else v)).events,
      ev.var ≠ ⟨0, "s"⟩ ∧ ev.var ≠ ⟨1, "t"⟩) :=
  InplaceRewriter_drops (((VarMap.empty : VarMap (Option Var)).Set ⟨1, "t"⟩ (some ⟨9, "b"⟩)).Set ⟨0, "s"⟩ none)
    ⟨0, "s"⟩ ⟨1, "t"⟩ ⟨9, "b"⟩ (.Call alloc_storage_op [] none) (.Op "f") [] none
    (.Let ⟨2, "u"⟩ (.Call (.Op "g") [.Var ⟨1, "t"⟩] none) (.Var ⟨2, "u"⟩))
    rfl rfl (fun k a b => by simp only [VarMap.Set, VarMap.empty, if_neg a, if_neg b])
    (by decide) (by decide) (by decide) (by decide)

/-- C26, the code at the failing input: in `s = alloc_storage(); x = f(s); x`
with `x` annotated to share `s`, every variable use is in scope; the analysis
marks `s` as a dead allocation, the pass succeeds, and the body of the function
it returns is the variable `s`. -/
theorem InplaceUpdate_dead_target :
    ownStorageFunction.wellScoped = true ∧
    (∃ st, InplaceVisitor.call ownStorageShare InplaceVisitor.init ownStorageFunction = .ok st ∧
      st.vmap ⟨0, "s"⟩ = some none ∧ st.vmap ⟨1, "x"⟩ = some (some ⟨0, "s"⟩)) ∧
    InplaceUpdate ownStorageShare [("main", ownStorageFunction)] =
      .ok [("main", { params := [], body := .Var ⟨0, "s"⟩, ret_type := .Undefined,
                      type_params := [], attrs := none })] :=
  ⟨by decide, ⟨_, rfl, rfl, rfl⟩, rfl⟩

/-! ### Typers: the claim -/

theorem map_fst_ok_inv {α β : Type} {x : Except Err (α × β)} {a : α}
    (h : Prod.fst <$> x = .ok a) : ∃ b, x = .ok (a, b) := by
  cases x with
  | error e => cases h
  | ok r =>
    cases r with
    | mk a' b =>
      cases h
      exact ⟨b, rfl⟩

theorem SplitNormalizer_env {GetDLTensor : Value → DLTensor} {env env' : TVMOpEnv}
    {args : SplitArgs} {attrs : SplitAttrs}
    (h : SplitNormalizer GetDLTensor env args = .ok (env', attrs)) :
    env'.inputs = [GetDLTensor args.x] ∧ env'.outputs = env.outputs := by
  unfold SplitNormalizer at h
  dsimp only at h
  split at h
  · split at h
    · cases h
    · cases h; exact ⟨rfl, rfl⟩
  · obtain ⟨indices, _, h⟩ := bind_ok_inv h
    split at h
    · cases h
    · cases h; exact ⟨rfl, rfl⟩
  · cases h; exact ⟨rfl, rfl⟩

/-- C25: for each of the twenty operators registered in `transform.cc`, when
the normalizer succeeds it leaves in `env->inputs` exactly the tensor arguments
of the operator in their order (and the outputs as they were), and the typer
on that environment returns one parameter type for each of these inputs, in
the same order; the output type is the type of the single output, except for
`mnm.op.split`, where it is the tuple type of all the outputs. -/
theorem Typer_tensors {DLDataType : Type} (GetDLTensor : Value → DLTensor)
    (String2DLDataType : String → Except Err DLDataType) (GetTensorType : DLTensor → Ty)
    (env env' : TVMOpEnv) (a : TransformArgs)
    (h : a.Normalizer GetDLTensor String2DLDataType env = .ok env') :
    env'.inputs = a.tensors.map GetDLTensor ∧
    env'.outputs = env.outputs ∧
    (a.isSplit = false → ∃ out0, env'.outputs = [out0] ∧
      a.Typer GetTensorType env' =
        .ok (a.tensors.map (fun v => GetTensorType (GetDLTensor v)), GetTensorType out0)) ∧
    (a.isSplit = true →
      a.Typer GetTensorType env' =
        .ok (a.tensors.map (fun v => GetTensorType (GetDLTensor v)),
             GetTupleType GetTensorType env'.outputs)) := by
  cases a
  case Split args =>
    simp only [TransformArgs.Normalizer] at h
    obtain ⟨attrs, h⟩ := map_fst_ok_inv h
    obtain ⟨hin, hout⟩ := SplitNormalizer_env h
    refine ⟨hin, hout, (fun hs => by cases hs), fun _ => ?_⟩
    simp [TransformArgs.Typer, SplitTyper, TVMOpEnv.input, hin, TransformArgs.tensors, bind,
      Except.bind, pure, Except.pure]
  all_goals
    simp only [TransformArgs.Normalizer] at h
    obtain ⟨attrs, h⟩ := map_fst_ok_inv h
    simp only [RepeatNormalizer, TakeNormalizer, TakeDxNormalizer, SequenceMaskNormalizer,
      ReverseNormalizer, ReverseSequenceNormalizer, BroadcastToNormalizer, TransposeNormalizer,
      TransposeDxNormalizer, BroadcastToLikeNormalizer, ConcatenateNormalizer, StackNormalizer,
      ClipNormalizer, ClipDxNormalizer, CastNormalizer, CastLikeNormalizer, GatherNdNormalizer,
      GatherNdDxNormalizer, SqueezeNormalizer] at h
    split at h
    · cases h
    · rename_i hl
      obtain ⟨out0, ho⟩ := List.length_eq_one.1 (not_not.1 hl)
      first
        | cases h
        | (split at h <;> cases h)
        | (obtain ⟨dtype, _, h⟩ := bind_ok_inv h
           cases h)
      all_goals
        refine ⟨rfl, rfl, fun _ => ⟨out0, ho, ?_⟩, fun hs => by cases hs⟩
        simp [TransformArgs.Typer, RepeatTyper, TakeTyper, TakeDxTyper, SequenceMaskTyper,
          ReverseTyper, ReverseSequenceTyper, BroadcastToTyper, TransposeTyper, TransposeDxTyper,
          BroadcastToLikeTyper, ConcatenateTyper, StackTyper, ClipTyper, ClipDxTyper, CastTyper,
          CastLikeTyper, GatherNdTyper, GatherNdDxTyper, SqueezeTyper, TVMOpEnv.output,
          TVMOpEnv.input, ho, TransformArgs.tensors, bind, Except.bind, pure, Except.pure]

/-- C25, on `take_dx(x, y, dy, indices)` with one output. -/
theorem Typer_tensors_witness :
    exampleTakeDxEnv.inputs = exampleTakeDx.tensors.map exampleGetDLTensor ∧
    exampleTakeDxEnv.outputs = exampleEnv.outputs ∧
    (exampleTakeDx.isSplit = false → ∃ out0, exampleTakeDxEnv.outputs = [out0] ∧
      exampleTakeDx.Typer exampleGetTensorType exampleTakeDxEnv =
        .ok (exampleTakeDx.tensors.map (fun v => exampleGetTensorType (exampleGetDLTensor v)),
             exampleGetTensorType out0)) ∧
    (exampleTakeDx.isSplit = true →
      exampleTakeDx.Typer exampleGetTensorType exampleTakeDxEnv =
        .ok (exampleTakeDx.tensors.map (fun v => exampleGetTensorType (exampleGetDLTensor v)),
             GetTupleType exampleGetTensorType exampleTakeDxEnv.outputs)) :=
  Typer_tensors exampleGetDLTensor (fun s => (.ok s : Except Err String)) exampleGetTensorType
    exampleEnv exampleTakeDxEnv exampleTakeDx rfl

end mnm
